import Mathlib

/-!
The codec emitted by `EmitJulia.cpp`.

`src/gen/emit/EmitJulia.cpp` renders, for one message type (`ZCMStruct ls`),
the Julia functions `ZCM._get_hash_recursive`, `ZCM.getHash`,
`ZCM._encode_one`, `ZCM.encode`, `ZCM._decode_one` and `ZCM.decode`.  The
definitions below give, for every emitting function of the source, the
meaning of the Julia text it emits, as a function of the schema it is run on.
They carry the name of the emitting function.

Conventions of the embedding
* a Julia exception is a value of `JlError`; a call that throws returns
  `Except.error`, and the state it had reached is not reported;
* machine integers are natural numbers (bit patterns) reduced `% 2 ^ 64`
  where the emitted arithmetic is 64 bit;
* the Julia semantics is the one of the release the emitted text is written
  for (`type ... end`, `unshift!`, two-argument `range(start, length)`), on a
  64-bit host (`Int` is `Int64`);
* an identifier of the emitted text denotes what the module the text is
  evaluated in binds it to: a type is bound by its declaration `type <sn>` and
  by an import `import _<sn>: <sn>`; the methods of `ZCM._get_hash_recursive`,
  `ZCM._encode_one` and `ZCM._decode_one` are the emitted ones;
* type names are distinct from the names of modules and of Julia itself.

Facts of Julia the definitions rest on
* `write(io, x)` writes the `sizeof(x)` bytes of `x` in host order, and the
  literal `0` is an `Int64`;
* `read(io, nb)` returns at most `nb` bytes, fewer where the buffer ends;
* `reinterpret(T, bytes)` has `div(length(bytes), sizeof(T))` elements, and
  taking the first element of an empty array throws;
* a value stored in a field is converted to the declared type of the field,
  and an array has no conversion to an array type of another number of
  dimensions;
* one index on an array of any number of dimensions is a linear index;
* `x.append` on an `Array` is a field access, and an `Array` has no such field;
* `@eval M begin ... end` evaluates the block in the module `M`: what it
  declares and imports is bound in `M`, and the functions it defines look
  their globals up in `M`;
* a global that its module does not bind throws `UndefVarError`, and a call
  that no method of the function accepts throws `MethodError`.
-/

namespace EmitJulia

/-! ## Schema model (`ZCMGen.hpp` types the emitter reads) -/

/-- Name of a type as the emitter reads it: `fullname`, `package`, `shortname`. -/
structure ZCMTypename where
  fullname : String
  package : String
  shortname : String
deriving DecidableEq

/-- One array dimension: `ZCM_CONST` carries the literal extent, `ZCM_VAR` the
name of the sibling member that holds the extent (`dim.size` in the source). -/
inductive ZCMDimension where
  | ZCM_CONST (size : Nat)
  | ZCM_VAR (size : String)
deriving DecidableEq

/-- A member of a struct (`ZCMMember`). -/
structure ZCMMember where
  type : ZCMTypename
  membername : String
  dimensions : List ZCMDimension
  comment : String
deriving DecidableEq

/-- A constant of a struct (`ZCMConstant`): the emitter reads `type`,
`membername`, `valstr` and `isFixedPoint()`. -/
structure ZCMConstant where
  type : String
  membername : String
  valstr : String
  isFixedPoint : Bool
deriving DecidableEq

/-- A message type (`ZCMStruct`): `hash` is the base hash the front end
computed for the struct. -/
structure ZCMStruct where
  structname : ZCMTypename
  members : List ZCMMember
  constants : List ZCMConstant
  hash : Nat
  comment : String
deriving DecidableEq

/-- Modelled from the spec: `ZCMGen::isPrimitiveType` is declared in
`ZCMGen.hpp` and defined outside `EmitJulia.cpp`; the spec lists the primitive
kinds as signed 8/16/32/64, unsigned 8, the two floats, boolean and string. -/
def isPrimitiveType (tn : String) : Bool :=
  tn == "int8_t" || tn == "int16_t" || tn == "int32_t" || tn == "int64_t" ||
  tn == "byte" || tn == "float" || tn == "double" || tn == "string" || tn == "boolean"

/-- Modelled from the spec: `ZCMGen::getPrimitiveTypeSize` is defined outside
`EmitJulia.cpp`; the natural byte width of each non-string primitive. -/
def getPrimitiveTypeSize (tn : String) : Nat :=
  if tn == "int8_t" then 1
  else if tn == "int16_t" then 2
  else if tn == "int32_t" then 4
  else if tn == "int64_t" then 8
  else if tn == "byte" then 1
  else if tn == "float" then 4
  else if tn == "double" then 8
  else if tn == "boolean" then 1
  else 0

/-- The struct that a type name denotes in `zcm.structs`. -/
def findStruct (structs : List ZCMStruct) (fullname : String) : Option ZCMStruct :=
  structs.find? (fun s => s.structname.fullname == fullname)

/-- Modelled from the spec: `ZCMTypename::nameUnderscore` is defined outside
`EmitJulia.cpp`; the identity of a type is its fully-qualified name, and
`nameUnderscore` is that name with every `.` replaced by `_`. -/
def nameUnderscore (t : ZCMTypename) : String :=
  String.mk (t.fullname.data.map (fun ch => if ch = '.' then '_' else ch))

/-- The emitter's `topLevelPackage`: the part of a package name before its
first `.`, empty for a type without package. -/
def topLevelPackage (package : String) : String :=
  String.mk (package.data.takeWhile (fun ch => ch != '.'))

/-- The types that the imports of `emitDependencies` bind, as pairs of the
identifier and the full name of the type.  For a member whose type is not
primitive, is not the struct itself and has no package the import is
`import _<shortname>: <shortname>`, which binds `<shortname>` to that type.
For a member type in a package the import is `import _<nameUnderscore>` or
`import <package>`: it binds the name of a module and no type.  (The third
test of the source, `imports.find(tn) == imports.end()`, looks a type name up
among import lines and always holds.) -/
def emitDependencies (ls : ZCMStruct) : List (String × String) :=
  (ls.members.filter (fun lm => !isPrimitiveType lm.type.fullname &&
      lm.type.fullname != ls.structname.fullname &&
      topLevelPackage lm.type.package == "")).map
    (fun lm => (lm.type.shortname, lm.type.fullname))

/-- The types that the text emitted for `ls` binds: its own, declared
`type <shortname>` by `emitInstance`, and the imported ones. -/
def declaredTypes (ls : ZCMStruct) : List (String × String) :=
  (ls.structname.shortname, ls.structname.fullname) :: emitDependencies ls

/-- The types bound in the module in which the text emitted for `ls` is
evaluated.  A struct without package has its module `_<nameUnderscore>` to
itself (`emitModuleStart`, and `begin` in `emitDependencies`).  The text of a
struct in a package is evaluated in the module of the package
(`@eval <package> begin` in `emitDependencies`), as is the text of every other
struct of that package. -/
def moduleTypes (structs : List ZCMStruct) (ls : ZCMStruct) : List (String × String) :=
  if topLevelPackage ls.structname.package == "" then declaredTypes ls
  else declaredTypes ls ++
    ((structs.filter (fun s => s.structname.package == ls.structname.package)).map
      declaredTypes).flatten

/-- The struct that the identifier `nameUnderscore` of the type `t`, which
`emitGetHash` emits as argument of the nested call, denotes in the text of
`ls`: the type the module binds the identifier to.  There is none when the
module binds no type to the identifier (the call then throws
`UndefVarError`); a module that would bind the identifier to two types is
taken not to bind it. -/
def resolveType (structs : List ZCMStruct) (ls : ZCMStruct) (t : ZCMTypename) :
    Option ZCMStruct :=
  match ((moduleTypes structs ls).filter (fun b => b.1 == nameUnderscore t)).map
      (fun b => b.2) with
  | [] => none
  | fullname :: others =>
    if others.all (fun n => n == fullname) then
      (if fullname = ls.structname.fullname then some ls else findStruct structs fullname)
    else none

/-! ## Julia exceptions -/

/-- The exceptions the emitted code can raise.  `outOfFuel` is not a Julia
exception: it marks a model recursion that ran out of its budget. -/
inductive JlError where
  | decodeError
  | boundsError
  | methodError
  | undefVarError
  | inexactError
  | argumentError
  | fieldError
  | outOfFuel
deriving DecidableEq

/-! ## Fingerprint (`emitGetHash`) -/

/-- The per-type cells `const __<sn>_hash = Ref(Int64(0))`, one per generated
module, indexed by the full name of the type. -/
abbrev HashCache := String → Nat

/-- Every cell holds its initial `Int64(0)`. -/
def HashCache.init : HashCache := fun _ => 0

/-- The assignment `__<sn>_hash[] = v` for the type `name`. -/
def HashCache.set (c : HashCache) (name : String) (v : Nat) : HashCache :=
  fun k => if k = name then v else c k

/-- The emitted line `hash = (hash << 1) + ((hash >>> 63) & 0x01)` on a
`UInt64` variable. -/
def mixHash (hash : Nat) : Nat :=
  ((hash * 2) % 2 ^ 64 + (hash / 2 ^ 63) % 2) % 2 ^ 64

/-- The emitted initialiser `hash::UInt64 = 0x<ls.hash> + reinterpret(UInt64,
ZCM._get_hash_recursive(<member type>, newparents)) + ...`: one call per
member whose type is not primitive, in member order, each call started in the
cache its predecessor left; `call` is the callee. -/
def hashSum (call : HashCache → ZCMTypename → Except JlError (Nat × HashCache)) :
    List ZCMMember → Nat → HashCache → Except JlError (Nat × HashCache)
  | [], acc, c => .ok (acc, c)
  | lm :: rest, acc, c =>
    if isPrimitiveType lm.type.fullname then hashSum call rest acc c
    else
      match call c lm.type with
      | .error e => .error e
      | .ok (v, c1) => hashSum call rest ((acc + v) % 2 ^ 64) c1

/-- The emitted `ZCM._get_hash_recursive(::Type{sn}, parents)` of struct `ls`.
`parents` holds short names; the argument of a nested call is the identifier
`nameUnderscore` of the member type, which `resolveType` looks up; the
recursion budget `fuel` bounds the call depth. -/
def emitGetHash_recursive (structs : List ZCMStruct) :
    Nat → HashCache → ZCMStruct → List String → Except JlError (Nat × HashCache)
  | 0, _, _, _ => .error .outOfFuel
  | fuel + 1, c, ls, parents =>
    if c ls.structname.fullname ≠ 0 then .ok (c ls.structname.fullname, c)
    else if ls.structname.shortname ∈ parents then .ok (0, c)
    else
      let newparents := parents ++ [ls.structname.shortname]
      match hashSum (fun c1 t =>
          match resolveType structs ls t with
          | none => .error .undefVarError
          | some ls1 => emitGetHash_recursive structs fuel c1 ls1 newparents)
          ls.members (ls.hash % 2 ^ 64) c with
      | .error e => .error e
      | .ok (hash, c1) =>
        .ok (mixHash hash, c1.set ls.structname.fullname (mixHash hash))

/-- The emitted `ZCM.getHash(::Type{sn})`: the recursion from an empty
`parents`.  A call chain visits each short name of `structs` at most once. -/
def emitGetHash (structs : List ZCMStruct) (c : HashCache) (ls : ZCMStruct) :
    Except JlError (Nat × HashCache) :=
  emitGetHash_recursive structs (structs.length + 2) c ls []

/-! ## Julia values and the primitives the emitted code calls -/

/-- One byte of a buffer (`UInt8`). -/
abbrev Byte := Fin 256

/-- Values the emitted code handles.  A number (`Int8` ... `Int64`, `UInt8`,
`Float32`, `Float64`, `Bool`) is its bit pattern; its width is the one of the
declared type of the field that holds it.  A `String` is its bytes; `chr` is a
`Char` with its UTF-8 bytes.  An `Array{T,N}` is its size and its elements in
storage order; an instance of a generated type is its fields in declaration
order.  Constants of a struct are not part of an instance here. -/
inductive JVal where
  | num (bits : Nat)
  | str (data : List Byte)
  | chr (data : List Byte)
  | arr (dims : List Nat) (elems : List JVal)
  | obj (fields : List (String × JVal))

/-- What the emitter reads of its environment: the option
`little-endian-encoding`, from which it sets `hton` to `"htol"` or `"hton"`
and `ntoh` to `"ltoh"` or `"ntoh"`, and the byte order of the host the emitted
code runs on. -/
structure Options where
  little_endian_encoding : Bool
  hostLittleEndian : Bool
deriving DecidableEq

/-- The `w` low bytes of `x`, least significant first. -/
def bytesLE : Nat → Nat → List Byte
  | 0, _ => []
  | w + 1, x => ⟨x % 256, Nat.mod_lt _ (by decide)⟩ :: bytesLE w (x / 256)

/-- The number whose bytes, least significant first, are `bs`. -/
def ofBytesLE : List Byte → Nat
  | [] => 0
  | b :: bs => b.val + 256 * ofBytesLE bs

/-- Julia `bswap` on a value of `w` bytes. -/
def bswap (w x : Nat) : Nat := ofBytesLE (bytesLE w x).reverse

/-- The function named by the member `hton` of the emitter (`htol` under
`little-endian-encoding`, else `hton`), on a value of `w` bytes: the identity
when the host order is the wire order, `bswap` otherwise. -/
def hton (o : Options) (w x : Nat) : Nat :=
  if o.little_endian_encoding then (if o.hostLittleEndian then x else bswap w x)
  else (if o.hostLittleEndian then bswap w x else x)

/-- The function named by the member `ntoh` of the emitter (`ltoh` or `ntoh`). -/
def ntoh (o : Options) (w x : Nat) : Nat :=
  if o.little_endian_encoding then (if o.hostLittleEndian then x else bswap w x)
  else (if o.hostLittleEndian then bswap w x else x)

/-- Julia `write(buf, x)` for a number of `w` bytes: its bytes in host order. -/
def writeBits (o : Options) (w x : Nat) : List Byte :=
  if o.hostLittleEndian then bytesLE w x else (bytesLE w x).reverse

/-- The number a run of bytes holds in host order. -/
def bitsOfBytes (o : Options) (bs : List Byte) : Nat :=
  if o.hostLittleEndian then ofBytesLE bs else ofBytesLE bs.reverse

/-- The first `count` chunks of `w` bytes of `bs`, each read in host order. -/
def chunks (o : Options) (w : Nat) : Nat → List Byte → List Nat
  | 0, _ => []
  | count + 1, bs => bitsOfBytes o (bs.take w) :: chunks o w count (bs.drop w)

/-- Julia `reinterpret(T, bytes)` for `T` of `w` bytes: `div(length, w)`
elements, bytes beyond the last whole element are left out. -/
def reinterpret (o : Options) (w : Nat) (bs : List Byte) : List Nat :=
  chunks o w (bs.length / w) bs

/-- Julia `read(buf, nb)`: at most `nb` bytes, fewer when the buffer ends
before; the second component is the rest of the buffer.  A negative `nb` is an
error. -/
def read (buf : List Byte) (nb : Int) : Except JlError (List Byte × List Byte) :=
  if nb < 0 then .error .argumentError
  else .ok (buf.take nb.toNat, buf.drop nb.toNat)

/-- Julia `a[1]` on the result of `reinterpret`. -/
def first : List Nat → Except JlError Nat
  | [] => .error .boundsError
  | x :: _ => .ok x

/-- Value of a signed integer of `w` bytes with bit pattern `bits`. -/
def signedValue (w bits : Nat) : Int :=
  if 2 ^ (8 * w - 1) ≤ bits % 2 ^ (8 * w) then (bits % 2 ^ (8 * w) : Int) - 2 ^ (8 * w)
  else (bits % 2 ^ (8 * w) : Int)

/-- Wrap-around of `Int64` arithmetic. -/
def toInt64 (x : Int) : Int := (x + 2 ^ 63) % 2 ^ 64 - 2 ^ 63

/-- The value of the low 32 bits of `x` as a C `int`: what `printf` prints for
the conversion `%d`. -/
def toInt32 (x : Int) : Int := (x + 2 ^ 31) % 2 ^ 32 - 2 ^ 31

/-- Julia `length(s)` of a `String`: the bytes that are not UTF-8 continuation
bytes. -/
def strLength (data : List Byte) : Nat :=
  (data.filter (fun b => b.val / 64 != 2)).length

/-- Number of bytes of the UTF-8 character a lead byte starts. -/
def charWidth (b : Byte) : Option Nat :=
  if b.val < 128 then some 1
  else if 192 ≤ b.val ∧ b.val < 224 then some 2
  else if 224 ≤ b.val ∧ b.val < 240 then some 3
  else if 240 ≤ b.val ∧ b.val < 248 then some 4
  else none

/-- Julia `msg.name`. -/
def getfield (msg : JVal) (name : String) : Except JlError JVal :=
  match msg with
  | .obj fields =>
    match fields.lookup name with
    | some v => .ok v
    | none => .error .fieldError
  | _ => .error .fieldError

/-- The instance with field `name` holding `v`. -/
def setfield (msg : JVal) (name : String) (v : JVal) : JVal :=
  match msg with
  | .obj fields => .obj (fields.map (fun p => if p.1 = name then (p.1, v) else p))
  | m => m

/-- Julia `x[i]` with one index `i ≥ 1`: a linear index into an array, the
number itself for `i = 1` on a number or a `Char`, the character that starts at
byte `i` of a `String`; an instance of a generated type has no `getindex`. -/
def getindex (x : JVal) (i : Nat) : Except JlError JVal :=
  match x with
  | .arr _ elems =>
    match elems.get? (i - 1) with
    | some v => if 1 ≤ i then .ok v else .error .boundsError
    | none => .error .boundsError
  | .num bits => if i = 1 then .ok (.num bits) else .error .boundsError
  | .chr data => if i = 1 then .ok (.chr data) else .error .boundsError
  | .str data =>
    match data.get? (i - 1) with
    | some b =>
      if 1 ≤ i then
        match charWidth b with
        | some k => .ok (.chr ((data.drop (i - 1)).take k))
        | none => .error .argumentError
      else .error .boundsError
    | none => .error .boundsError
  | .obj _ => .error .methodError

/-- The container `x` after the element at index `i`, reached by reference,
was changed to `v` by the code that ran on it; a number holds no reference. -/
def putback (x : JVal) (i : Nat) (v : JVal) : JVal :=
  match x with
  | .arr dims elems => .arr dims (elems.set (i - 1) v)
  | other => other

/-- A Julia loop `for i in range(1, count) ... end`: the body for
`i = 1, ..., count` in turn; `i` is the counter of the first turn left. -/
def forLoop {σ : Type} (body : Nat → σ → Except JlError σ) : Nat → Nat → σ → Except JlError σ
  | 0, _, s => .ok s
  | count + 1, i, s =>
    match body i s with
    | .error e => .error e
    | .ok s1 => forLoop body count (i + 1) s1

/-- The bit patterns of a list of numbers; `none` if an element is no number. -/
def numBits : List JVal → Option (List Nat)
  | [] => some []
  | .num b :: rest =>
    match numBits rest with
    | some bs => some (b :: bs)
    | none => none
  | _ :: _ => none

/-- Value of `msg.<name>` where the emitted code uses it as an extent
(`range(1,msg.<name>)`, `read(buf, (msg.<name>) * size)`): the member must be a
scalar of an integer type (`Bool` counts as one in Julia). -/
def memberExtent (ls : ZCMStruct) (msg : JVal) (name : String) : Except JlError Int :=
  match getfield msg name with
  | .error e => .error e
  | .ok (.num bits) =>
    match ls.members.find? (fun lm => lm.membername == name) with
    | none => .error .fieldError
    | some lm =>
      let tn := lm.type.fullname
      if tn == "int8_t" || tn == "int16_t" || tn == "int32_t" || tn == "int64_t" then
        .ok (signedValue (getPrimitiveTypeSize tn) bits)
      else if tn == "byte" || tn == "boolean" then .ok (bits % 256 : Nat)
      else .error .methodError
  | .ok _ => .error .methodError

/-- The extent an emitted loop header reads: the literal of a `ZCM_CONST`
dimension, `msg.<size>` for a `ZCM_VAR` dimension. -/
def dimExtent (ls : ZCMStruct) (msg : JVal) : ZCMDimension → Except JlError Int
  | .ZCM_CONST size => .ok size
  | .ZCM_VAR size => memberExtent ls msg size

/-! ## Encoding (`emitEncodeSingleMember`, `emitEncodeListMember`,
`emitEncodeOne`, `emitEncode`) -/

/-- The statements `emitEncodeSingleMember` emits, run on the value `x` of the
accessor.  A string: `write(buf, hton(UInt32(length(x) + 1)))`, `write(buf, x)`
and `write(buf, 0)`, the last one writing the `Int64` zero, eight bytes.  A
boolean: `write(buf, x)`.  A number: `write(buf, hton(x))`.  Otherwise
`ZCM._encode_one(x, buf)`, which is `encodeOne` on the struct of the member
type.  Returns `x` as the call leaves it and the buffer. -/
def emitEncodeSingleMember (o : Options) (structs : List ZCMStruct)
    (encodeOne : ZCMStruct → JVal → List Byte → Except JlError (JVal × List Byte))
    (lm : ZCMMember) (x : JVal) (buf : List Byte) : Except JlError (JVal × List Byte) :=
  let tn := lm.type.fullname
  if tn == "string" then
    match x with
    | .str data =>
      if strLength data + 1 < 2 ^ 32 then
        .ok (x, buf ++ writeBits o 4 (hton o 4 (strLength data + 1)) ++ data ++ writeBits o 8 0)
      else .error .inexactError
    | .chr data => .ok (x, buf ++ writeBits o 4 (hton o 4 2) ++ data ++ writeBits o 8 0)
    | _ => .error .methodError
  else if tn == "boolean" then
    match x with
    | .num bits => .ok (x, buf ++ writeBits o 1 bits)
    | _ => .error .methodError
  else if tn == "byte" || tn == "int8_t" || tn == "int16_t" || tn == "int32_t" ||
      tn == "int64_t" || tn == "float" || tn == "double" then
    match x with
    | .num bits =>
      .ok (x, buf ++ writeBits o (getPrimitiveTypeSize tn) (hton o (getPrimitiveTypeSize tn) bits))
    | _ => .error .methodError
  else
    match findStruct structs tn with
    | none => .error .methodError
    | some ls1 => encodeOne ls1 x buf

/-- The statements `emitEncodeListMember` emits, run on the container `x` of
the accessor with `len` the value of the extent: unless the type is boolean,
`for i in range(1,len) x[i] = hton(x[i]) end`, which stores the converted
elements in the container; then `write(buf, x[1:len])`.  A number has neither
`setindex!` nor an index by a range. -/
def emitEncodeListMember (o : Options) (lm : ZCMMember) (x : JVal) (len : Int)
    (buf : List Byte) : Except JlError (JVal × List Byte) :=
  let tn := lm.type.fullname
  if tn == "byte" || tn == "boolean" || tn == "int8_t" || tn == "int16_t" ||
      tn == "int32_t" || tn == "int64_t" || tn == "float" || tn == "double" then
    match x with
    | .arr dims elems =>
      if len.toNat ≤ elems.length then
        match numBits (elems.take len.toNat) with
        | none => .error .methodError
        | some bits =>
          let conv := if tn != "boolean" then bits.map (hton o (getPrimitiveTypeSize tn)) else bits
          .ok (.arr dims (conv.map JVal.num ++ elems.drop len.toNat),
               buf ++ (conv.map (writeBits o (getPrimitiveTypeSize tn))).flatten)
      else .error .boundsError
    | _ => .error .methodError
  else .error .methodError

/-- The loop nest `emitEncodeOne` emits for a member with dimensions, run on
the value `x` of the accessor built so far: one `for` loop per dimension but
the last, indexing `x[i]`; at the last dimension `emitEncodeListMember` for a
primitive type other than string (`isList`), else a loop of
`emitEncodeSingleMember` on `x[i]`.  `extent` reads the extent of a loop
header when the loop is reached. -/
def emitEncodeOne_dims (single : JVal → List Byte → Except JlError (JVal × List Byte))
    (bulk : JVal → Int → List Byte → Except JlError (JVal × List Byte))
    (extent : ZCMDimension → Except JlError Int) (isList : Bool) :
    List ZCMDimension → JVal → List Byte → Except JlError (JVal × List Byte)
  | [], x, buf => .ok (x, buf)
  | [lastDim], x, buf =>
    match extent lastDim with
    | .error e => .error e
    | .ok len =>
      if isList then bulk x len buf
      else
        forLoop (fun i s =>
          match getindex s.1 i with
          | .error e => .error e
          | .ok xi =>
            match single xi s.2 with
            | .error e => .error e
            | .ok r => .ok (putback s.1 i r.1, r.2)) len.toNat 1 (x, buf)
  | dim :: d2 :: rest, x, buf =>
    match extent dim with
    | .error e => .error e
    | .ok n =>
      forLoop (fun i s =>
        match getindex s.1 i with
        | .error e => .error e
        | .ok xi =>
          match emitEncodeOne_dims single bulk extent isList (d2 :: rest) xi s.2 with
          | .error e => .error e
          | .ok r => .ok (putback s.1 i r.1, r.2)) n.toNat 1 (x, buf)

/-- The code `emitEncodeOne` emits for one member `lm`, run on `msg`. -/
def emitEncodeOne_member (o : Options) (structs : List ZCMStruct)
    (encodeOne : ZCMStruct → JVal → List Byte → Except JlError (JVal × List Byte))
    (ls : ZCMStruct) (lm : ZCMMember) (msg : JVal) (buf : List Byte) :
    Except JlError (JVal × List Byte) :=
  match getfield msg lm.membername with
  | .error e => .error e
  | .ok x =>
    match (if lm.dimensions.isEmpty then emitEncodeSingleMember o structs encodeOne lm x buf
        else emitEncodeOne_dims (emitEncodeSingleMember o structs encodeOne lm)
          (emitEncodeListMember o lm) (dimExtent ls msg)
          (isPrimitiveType lm.type.fullname && lm.type.fullname != "string")
          lm.dimensions x buf) with
    | .error e => .error e
    | .ok r => .ok (setfield msg lm.membername r.1, r.2)

/-- The members of a struct in turn. -/
def emitEncodeOne_members (o : Options) (structs : List ZCMStruct)
    (encodeOne : ZCMStruct → JVal → List Byte → Except JlError (JVal × List Byte))
    (ls : ZCMStruct) : List ZCMMember → JVal → List Byte → Except JlError (JVal × List Byte)
  | [], msg, buf => .ok (msg, buf)
  | lm :: rest, msg, buf =>
    match emitEncodeOne_member o structs encodeOne ls lm msg buf with
    | .error e => .error e
    | .ok r => emitEncodeOne_members o structs encodeOne ls rest r.1 r.2

/-- The emitted `ZCM._encode_one(msg::sn, buf)` of struct `ls`: returns the
message as the call leaves it and the buffer.  `fuel` bounds the nesting of
`_encode_one` calls. -/
def emitEncodeOne (o : Options) (structs : List ZCMStruct) :
    Nat → ZCMStruct → JVal → List Byte → Except JlError (JVal × List Byte)
  | 0, _, _, _ => .error .outOfFuel
  | fuel + 1, ls, msg, buf =>
    emitEncodeOne_members o structs (emitEncodeOne o structs fuel) ls ls.members msg buf

/-- The emitted `ZCM.encode(msg::sn)`: `buf = IOBuffer()`,
`write(buf, hton(ZCM.getHash(sn)))`, `ZCM._encode_one(msg, buf)`, and the bytes
of `buf` as result.  Returns the bytes, the message as the call leaves it, and
the hash cache. -/
def emitEncode (o : Options) (structs : List ZCMStruct) (fuel : Nat) (c : HashCache)
    (ls : ZCMStruct) (msg : JVal) : Except JlError (List Byte × JVal × HashCache) :=
  match emitGetHash structs c ls with
  | .error e => .error e
  | .ok (h, c1) =>
    match emitEncodeOne o structs fuel ls msg ([] ++ writeBits o 8 (hton o 8 h)) with
    | .error e => .error e
    | .ok r => .ok (r.2, r.1, c1)

/-! ## The constructor (`emitInstance`, `emitMemberInitializer`) -/

/-- The expression `emitMemberInitializer(lm, dimNum)` emits, with `dims` the
dimensions from `dimNum` on: the default of the type when no dimension is
left (`tn()` for a struct type, which is `ctor`); `Array{T,k}(0,...,0)` when
the next dimension is `ZCM_VAR`, with `k` the number of dimensions left; else
the comprehension `[ <inner> for dim in range(1,size) ]`, a one-dimensional
array of `size` inner values. -/
def emitMemberInitializer (ctor : String → Except JlError JVal) (lm : ZCMMember) :
    List ZCMDimension → Except JlError JVal
  | [] =>
    let tn := lm.type.fullname
    if tn == "string" then .ok (.str [])
    else if isPrimitiveType tn then .ok (.num 0)
    else ctor tn
  | .ZCM_VAR _ :: rest => .ok (.arr (List.replicate (rest.length + 1) 0) [])
  | .ZCM_CONST size :: rest =>
    if size = 0 then .ok (.arr [0] [])
    else
      match emitMemberInitializer ctor lm rest with
      | .error e => .error e
      | .ok v => .ok (.arr [size] (List.replicate size v))

/-- The conversion Julia applies when a value is stored in a field that
`emitInstance` declared as `Array{T,ndim}` (`ndim > 0`): an array of another
number of dimensions has no conversion. -/
def convertField (ndim : Nat) (v : JVal) : Except JlError JVal :=
  if ndim = 0 then .ok v
  else
    match v with
    | .arr dims elems => if dims.length = ndim then .ok (.arr dims elems) else .error .methodError
    | _ => .error .methodError

/-- The assignments `self.<member> = <initializer>` of the emitted constructor. -/
def emitInstance_members (ctor : String → Except JlError JVal) :
    List ZCMMember → Except JlError (List (String × JVal))
  | [] => .ok []
  | lm :: rest =>
    match emitMemberInitializer ctor lm lm.dimensions with
    | .error e => .error e
    | .ok v =>
      match convertField lm.dimensions.length v with
      | .error e => .error e
      | .ok v1 =>
        match emitInstance_members ctor rest with
        | .error e => .error e
        | .ok fields => .ok ((lm.membername, v1) :: fields)

/-- The constructor `sn()` that `emitInstance` emits for struct `ls`. -/
def emitInstance (structs : List ZCMStruct) : Nat → ZCMStruct → Except JlError JVal
  | 0, _ => .error .outOfFuel
  | fuel + 1, ls =>
    match emitInstance_members (fun tn =>
        match findStruct structs tn with
        | none => .error .undefVarError
        | some ls1 => emitInstance structs fuel ls1) ls.members with
    | .error e => .error e
    | .ok fields => .ok (.obj fields)

/-! ## Decoding (`emitDecodeSingleMember`, `emitDecodeListMember`,
`emitDecodeOne`, `emitDecode`) -/

/-- The expression `emitDecodeSingleMember` emits.  A string:
`String(read(buf, ntoh(reinterpret(UInt32, read(buf, 4))[1])))`.  A type of one
byte: `reinterpret(T, read(buf, 1))[1]`.  A wider number:
`ntoh(reinterpret(T, read(buf, size))[1])`.  Otherwise
`ZCM._decode_one(msg.<name>,buf)`: the first argument is the instance the
constructor has put in the field, and the emitted methods of `ZCM._decode_one`
take `::Type{sn}`, so that no method applies.  Returns the value and the rest
of the buffer. -/
def emitDecodeSingleMember (o : Options) (lm : ZCMMember) (buf : List Byte) :
    Except JlError (JVal × List Byte) :=
  let tn := lm.type.fullname
  if tn == "string" then
    match read buf 4 with
    | .error e => .error e
    | .ok (b4, buf1) =>
      match first (reinterpret o 4 b4) with
      | .error e => .error e
      | .ok n =>
        match read buf1 (ntoh o 4 n) with
        | .error e => .error e
        | .ok (data, buf2) => .ok (.str data, buf2)
  else if tn == "byte" || tn == "boolean" || tn == "int8_t" then
    match read buf (getPrimitiveTypeSize tn) with
    | .error e => .error e
    | .ok (bs, buf1) =>
      match first (reinterpret o (getPrimitiveTypeSize tn) bs) with
      | .error e => .error e
      | .ok x => .ok (.num x, buf1)
  else if tn == "int16_t" || tn == "int32_t" || tn == "int64_t" || tn == "float" ||
      tn == "double" then
    match read buf (getPrimitiveTypeSize tn) with
    | .error e => .error e
    | .ok (bs, buf1) =>
      match first (reinterpret o (getPrimitiveTypeSize tn) bs) with
      | .error e => .error e
      | .ok x => .ok (.num (ntoh o (getPrimitiveTypeSize tn) x), buf1)
  else .error .methodError

/-- The expression `emitDecodeListMember` emits for a member with one
dimension: `reinterpret(T, read(buf, nb))` for a type of one byte,
`ntoh.(reinterpret(T, read(buf, nb)))` for a wider one.  For a `ZCM_CONST`
extent `nb` is the literal the emitter prints with `%d` for the product
`atoi(len) * size`, its low 32 bits as a signed number; for a `ZCM_VAR`
extent it is `(msg.<len>) * size`, in `Int64`. -/
def emitDecodeListMember (o : Options) (ls : ZCMStruct) (lm : ZCMMember) (msg : JVal)
    (lastDim : ZCMDimension) (buf : List Byte) : Except JlError (JVal × List Byte) :=
  let tn := lm.type.fullname
  let nbytes : Except JlError Int :=
    match lastDim with
    | .ZCM_CONST size => .ok (toInt32 ((size * getPrimitiveTypeSize tn : Nat) : Int))
    | .ZCM_VAR size =>
      match memberExtent ls msg size with
      | .error e => .error e
      | .ok n => .ok (toInt64 (n * (getPrimitiveTypeSize tn : Nat)))
  if tn == "byte" || tn == "boolean" || tn == "int8_t" then
    match nbytes with
    | .error e => .error e
    | .ok nb =>
      match read buf nb with
      | .error e => .error e
      | .ok (bs, buf1) =>
        let xs := reinterpret o (getPrimitiveTypeSize tn) bs
        .ok (.arr [xs.length] (xs.map JVal.num), buf1)
  else if tn == "int16_t" || tn == "int32_t" || tn == "int64_t" || tn == "float" ||
      tn == "double" then
    match nbytes with
    | .error e => .error e
    | .ok nb =>
      match read buf nb with
      | .error e => .error e
      | .ok (bs, buf1) =>
        let xs := (reinterpret o (getPrimitiveTypeSize tn) bs).map (ntoh o (getPrimitiveTypeSize tn))
        .ok (.arr [xs.length] (xs.map JVal.num), buf1)
  else .error .methodError

/-- The code `emitDecodeOne` emits for one member, run on the instance `msg`
under construction.  Without dimensions: `msg.<name> = <single member>`.  With
two or more dimensions the first statement is `msg.<name> = []`; the field is
declared `Array{T,N}` with `N ≥ 2` and the one-dimensional `[]` has no
conversion to it.  With one dimension and a primitive type other than string:
`msg.<name> = <list member>`.  With one dimension and a string or struct type:
`msg.<name> = []`, then a loop whose body calls `msg.<name>.append(...)`; an
`Array` has no field `append`, so the first turn of the loop throws. -/
def emitDecodeOne_member (o : Options) (ls : ZCMStruct) (lm : ZCMMember) (msg : JVal)
    (buf : List Byte) : Except JlError (JVal × List Byte) :=
  match lm.dimensions with
  | [] =>
    match emitDecodeSingleMember o lm buf with
    | .error e => .error e
    | .ok r => .ok (setfield msg lm.membername r.1, r.2)
  | [lastDim] =>
    if isPrimitiveType lm.type.fullname && lm.type.fullname != "string" then
      match emitDecodeListMember o ls lm msg lastDim buf with
      | .error e => .error e
      | .ok r => .ok (setfield msg lm.membername r.1, r.2)
    else
      match dimExtent ls (setfield msg lm.membername (.arr [0] [])) lastDim with
      | .error e => .error e
      | .ok n =>
        if 1 ≤ n then .error .fieldError
        else .ok (setfield msg lm.membername (.arr [0] []), buf)
  | _ :: _ :: _ => .error .methodError

/-- The members of a struct in turn. -/
def emitDecodeOne_members (o : Options) (ls : ZCMStruct) :
    List ZCMMember → JVal → List Byte → Except JlError (JVal × List Byte)
  | [], msg, buf => .ok (msg, buf)
  | lm :: rest, msg, buf =>
    match emitDecodeOne_member o ls lm msg buf with
    | .error e => .error e
    | .ok r => emitDecodeOne_members o ls rest r.1 r.2

/-- The emitted `ZCM._decode_one(::Type{sn}, buf)` of struct `ls`: `msg = sn()`,
the members in turn, `return msg`.  Returns the instance and the rest of the
buffer.  `fuel` bounds the nesting of constructor calls. -/
def emitDecodeOne (o : Options) (structs : List ZCMStruct) :
    Nat → ZCMStruct → List Byte → Except JlError (JVal × List Byte)
  | 0, _, _ => .error .outOfFuel
  | fuel + 1, ls, buf =>
    match emitInstance structs (fuel + 1) ls with
    | .error e => .error e
    | .ok msg => emitDecodeOne_members o ls ls.members msg buf

/-- The emitted `ZCM.decode(::Type{sn}, data)`: `buf = IOBuffer(data)`, then
`throw("Decode error")` when `ntoh(reinterpret(Int64, read(buf, 8))[1])`
differs from `ZCM.getHash(sn)`, else `ZCM._decode_one(sn, buf)`.  Returns the
instance and the hash cache. -/
def emitDecode (o : Options) (structs : List ZCMStruct) (fuel : Nat) (c : HashCache)
    (ls : ZCMStruct) (data : List Byte) : Except JlError (JVal × HashCache) :=
  match read data 8 with
  | .error e => .error e
  | .ok (b8, buf) =>
    match first (reinterpret o 8 b8) with
    | .error e => .error e
    | .ok x =>
      match emitGetHash structs c ls with
      | .error e => .error e
      | .ok (h, c1) =>
        if ntoh o 8 x ≠ h then .error .decodeError
        else
          match emitDecodeOne o structs fuel ls buf with
          | .error e => .error e
          | .ok r => .ok (r.1, c1)

/-! ## Notions the properties are stated with -/

/-- Rotation of a 64-bit word to the left by one bit. -/
def rotl1 (h : Nat) : Nat := (h % 2 ^ 63) * 2 + (h / 2 ^ 63) % 2

/-- The types of the members of `ls` that are not primitive, in member order. -/
def nestedTypes (ls : ZCMStruct) : List ZCMTypename :=
  (ls.members.filter (fun lm => !isPrimitiveType lm.type.fullname)).map (fun lm => lm.type)

/-- The calls of the emitted sum, one after the other: the values they return
and the cache the last one leaves. -/
def runCalls (call : HashCache → ZCMTypename → Except JlError (Nat × HashCache)) :
    List ZCMTypename → HashCache → Except JlError (List Nat × HashCache)
  | [], c => .ok ([], c)
  | t :: ts, c =>
    match call c t with
    | .error e => .error e
    | .ok (v, c1) =>
      match runCalls call ts c1 with
      | .error e => .error e
      | .ok (vs, c2) => .ok (v :: vs, c2)

/-- The callee of the sum emitted for the struct `ls` called with `parents`:
the nested call on the type that the identifier of `t` denotes in the text of
`ls`. -/
def nestedCall (structs : List ZCMStruct) (ls : ZCMStruct) (fuel : Nat)
    (newparents : List String) :
    HashCache → ZCMTypename → Except JlError (Nat × HashCache) :=
  fun c1 t =>
    match resolveType structs ls t with
    | none => .error .undefVarError
    | some ls1 => emitGetHash_recursive structs fuel c1 ls1 newparents

/-- The value a fingerprint call returned, if it returned. -/
def hashValue (r : Except JlError (Nat × HashCache)) : Option Nat :=
  match r with
  | .ok (v, _) => some v
  | .error _ => none

/-- The cache after a fingerprint call that started in cache `c`. -/
def hashCacheAfter (c : HashCache) (r : Except JlError (Nat × HashCache)) : HashCache :=
  match r with
  | .ok (_, c1) => c1
  | .error _ => c

/-- The struct is the one its full name denotes in `structs`. -/
def Registered (structs : List ZCMStruct) (ls : ZCMStruct) : Prop :=
  findStruct structs ls.structname.fullname = some ls

/-- Below the structs of `S` the nested types are bound and no chain of
references through two or more structs leads back to a struct of the same
short name: the structs of `S` are registered, the identifier emitted for a
nested type of a struct of `S` denotes a struct of `S`, and this is the struct
itself or a struct whose short name has a smaller `rank`. -/
def AcyclicBelow (structs : List ZCMStruct) (S : ZCMStruct → Prop) (rank : String → Nat) :
    Prop :=
  (∀ ls, S ls → Registered structs ls) ∧
  ∀ ls, S ls → ∀ lm ∈ ls.members, isPrimitiveType lm.type.fullname = false →
    ∃ ls1, resolveType structs ls lm.type = some ls1 ∧ S ls1 ∧
      (ls1 = ls ∨ rank ls1.structname.shortname < rank ls.structname.shortname)

/-- The condition `AcyclicBelow` for all registered structs. -/
def Acyclic (structs : List ZCMStruct) (rank : String → Nat) : Prop :=
  AcyclicBelow structs (Registered structs) rank

/-- The caches that calls of the emitted `getHash` produce from the initial one. -/
inductive Reachable (structs : List ZCMStruct) : HashCache → Prop where
  | init : Reachable structs HashCache.init
  | call (c : HashCache) (ls : ZCMStruct) (v : Nat) (c1 : HashCache) :
      Reachable structs c → Registered structs ls →
      emitGetHash structs c ls = .ok (v, c1) → Reachable structs c1

/-- Sum of the reference recursion: one term per type that is not primitive. -/
def refSum (call : ZCMTypename → Nat) : List ZCMTypename → Nat → Nat
  | [], acc => acc
  | t :: ts, acc =>
    if isPrimitiveType t.fullname then refSum call ts acc
    else refSum call ts ((acc + call t) % 2 ^ 64)

/-- The fingerprint recursion without cache and without `parents`, to depth
`fuel`: the reference fingerprint of a member type is the one of the struct
of that full name. -/
def refHash (structs : List ZCMStruct) : Nat → ZCMStruct → Nat
  | 0, _ => 0
  | fuel + 1, ls =>
    mixHash (refSum (fun t =>
        match findStruct structs t.fullname with
        | none => 0
        | some ls1 => refHash structs fuel ls1)
      (ls.members.map (fun lm => lm.type)) (ls.hash % 2 ^ 64))

/-- The `w` bytes of `x` in the byte order of the wire: least significant
first under `little-endian-encoding`, most significant first otherwise. -/
def wireBytes (o : Options) (w x : Nat) : List Byte :=
  if o.little_endian_encoding then bytesLE w x else (bytesLE w x).reverse

/-- The number a run of bytes holds in the byte order of the wire. -/
def wireValue (o : Options) (bs : List Byte) : Nat :=
  if o.little_endian_encoding then ofBytesLE bs else ofBytesLE bs.reverse

/-- The bytes an `encode` call returned (none if it threw). -/
def encodedBytes (r : Except JlError (List Byte × JVal × HashCache)) : List Byte :=
  match r with
  | .ok (bytes, _, _) => bytes
  | .error _ => []

/-- The message as an `encode` call left it. -/
def messageAfter (r : Except JlError (List Byte × JVal × HashCache)) : Option JVal :=
  match r with
  | .ok (_, msg, _) => some msg
  | .error _ => none

/-- The instance a `decode` call returned. -/
def decodedValue (r : Except JlError (JVal × HashCache)) : Except JlError JVal :=
  match r with
  | .ok (v, _) => .ok v
  | .error e => .error e

/-- The composition `decode(encode(msg))`, the cache passed on from the first call to
the second. -/
def roundTrip (o : Options) (structs : List ZCMStruct) (fuel : Nat) (c : HashCache)
    (ls : ZCMStruct) (msg : JVal) : Except JlError JVal :=
  match emitEncode o structs fuel c ls msg with
  | .error e => .error e
  | .ok (bytes, _, c1) => decodedValue (emitDecode o structs fuel c1 ls bytes)

/-- The bytes a piece of encoding code appended (its error if it threw). -/
def bytesOf (r : Except JlError (JVal × List Byte)) : Except JlError (List Byte) :=
  match r with
  | .ok r => .ok r.2
  | .error e => .error e

/-- The encoding of one field: the bytes the code emitted for member `lm`
appends when it runs on the message `msg`. -/
def fieldEncoding (o : Options) (structs : List ZCMStruct) (fuel : Nat) (ls : ZCMStruct)
    (lm : ZCMMember) (msg : JVal) : Except JlError (List Byte) :=
  bytesOf (emitEncodeOne_member o structs (emitEncodeOne o structs fuel) ls lm msg [])

/-- Concatenation of the encodings `f lm` of the members, in list order. -/
def concatFields (f : ZCMMember → Except JlError (List Byte)) :
    List ZCMMember → Except JlError (List Byte)
  | [] => .ok []
  | lm :: rest =>
    match f lm with
    | .error e => .error e
    | .ok b =>
      match concatFields f rest with
      | .error e => .error e
      | .ok bs => .ok (b ++ bs)

/-- The field payload `encode_fields(msg, ls)`: the concatenation, in
declaration order, of the encodings of the fields of `msg`; `fuel` bounds the
nesting of messages. -/
def encode_fields (o : Options) (structs : List ZCMStruct) :
    Nat → ZCMStruct → JVal → Except JlError (List Byte)
  | 0, _, _ => .error .outOfFuel
  | fuel + 1, ls, msg => concatFields (fun lm => fieldEncoding o structs fuel ls lm msg) ls.members

/-- The instance whose fields are the members `ms`, in order, holding the
numbers with bit patterns `vals`. -/
def scalarInstance (ms : List ZCMMember) (vals : List Nat) : JVal :=
  .obj (List.zipWith (fun lm b => (lm.membername, JVal.num b)) ms vals)

/-- Concatenation of the values `vals`, each at the natural width of the type
of its member and in the byte order of the wire. -/
def scalarLayout (o : Options) (ms : List ZCMMember) (vals : List Nat) : List Byte :=
  (List.zipWith (fun lm b => wireBytes o (getPrimitiveTypeSize lm.type.fullname) b)
    ms vals).flatten

/-- Concatenation of the encodings `f e` of the elements, in list order. -/
def concatElems (f : JVal → Except JlError (List Byte)) :
    List JVal → Except JlError (List Byte)
  | [] => .ok []
  | e :: rest =>
    match f e with
    | .error err => .error err
    | .ok b =>
      match concatElems f rest with
      | .error err => .error err
      | .ok bs => .ok (b ++ bs)

/-- The value the emitted constructor stores in the field of member `lm`: the
initializer, converted to the declared type of the field. -/
def fieldDefault (ctor : String → Except JlError JVal) (lm : ZCMMember) : Except JlError JVal :=
  match emitMemberInitializer ctor lm lm.dimensions with
  | .error e => .error e
  | .ok v => convertField lm.dimensions.length v

/-- The reference fingerprint of the type named `t`: the reference recursion
on the struct the name denotes, to the depth its rank asks for. -/
def refValue (structs : List ZCMStruct) (rank : String → Nat) (t : ZCMTypename) : Nat :=
  match findStruct structs t.fullname with
  | none => 0
  | some ls1 => refHash structs (rank ls1.structname.shortname + 1) ls1

/-- Two `encode` calls in succession on the same message object: the second
runs on the message and the cache as the first left them.  The two byte
sequences returned. -/
def encodeTwice (o : Options) (structs : List ZCMStruct) (fuel : Nat) (c : HashCache)
    (ls : ZCMStruct) (msg : JVal) : Except JlError (List Byte × List Byte) :=
  match emitEncode o structs fuel c ls msg with
  | .error e => .error e
  | .ok (bytes1, msg1, c1) =>
    match emitEncode o structs fuel c1 ls msg1 with
    | .error e => .error e
    | .ok (bytes2, _, _) => .ok (bytes1, bytes2)

/-- The fingerprint recursion without cache and without `parents`, to depth
`fuel`, on the structs that the emitted identifiers denote, a reference of a
struct to itself counting 0. -/
def cutHash (structs : List ZCMStruct) : Nat → ZCMStruct → Nat
  | 0, _ => 0
  | fuel + 1, ls =>
    mixHash (refSum (fun t =>
        match resolveType structs ls t with
        | none => 0
        | some ls1 => if ls1 = ls then 0 else cutHash structs fuel ls1)
      (ls.members.map (fun lm => lm.type)) (ls.hash % 2 ^ 64))

/-- Every memoized cell of a struct of `S` holds the value of `cutHash`. -/
def GoodCache (structs : List ZCMStruct) (S : ZCMStruct → Prop) (rank : String → Nat)
    (c : HashCache) : Prop :=
  ∀ ls, S ls → c ls.structname.fullname ≠ 0 →
    c ls.structname.fullname = cutHash structs (rank ls.structname.shortname + 1) ls

/-- The result of a piece of encoding code that ran on an empty buffer, seen
from a buffer that already held `buf`. -/
def prepend (buf : List Byte) (r : Except JlError (JVal × List Byte)) :
    Except JlError (JVal × List Byte) :=
  match r with
  | .ok (x, b) => .ok (x, buf ++ b)
  | .error e => .error e

/-- The value is a number. -/
def isNum : JVal → Bool
  | .num _ => true
  | _ => false

/-- What a piece of encoding code may do to the value it runs on: leave it as
it is, or change a value that is not a number into one that is not a number. -/
def SameFrame (x x1 : JVal) : Prop := x1 = x ∨ (isNum x = false ∧ isNum x1 = false)

/-- The struct `Empty`, without members and with base hash 0. -/
def emptyStruct : ZCMStruct :=
  { structname := ⟨"Empty", "", "Empty"⟩, members := [], constants := [], hash := 0,
    comment := "" }

/-- Big-endian wire order (the default of the emitter) on a little-endian host. -/
def networkOrder : Options := { little_endian_encoding := false, hostLittleEndian := true }

/-- Registry of the witness of C2: `Outer` has a primitive member and two
members of type `Inner`. -/
def witnessStructs : List ZCMStruct :=
  [ { structname := ⟨"Outer", "", "Outer"⟩,
      members := [⟨⟨"int32_t", "", "int32_t"⟩, "n", [], ""⟩,
                  ⟨⟨"Inner", "", "Inner"⟩, "a", [], ""⟩,
                  ⟨⟨"Inner", "", "Inner"⟩, "b", [], ""⟩],
      constants := [], hash := 5, comment := "" },
    { structname := ⟨"Inner", "", "Inner"⟩,
      members := [⟨⟨"double", "", "double"⟩, "x", [], ""⟩],
      constants := [], hash := 3, comment := "" } ]

/-- The struct `Outer` of `witnessStructs`. -/
def witnessOuter : ZCMStruct :=
  { structname := ⟨"Outer", "", "Outer"⟩,
    members := [⟨⟨"int32_t", "", "int32_t"⟩, "n", [], ""⟩,
                ⟨⟨"Inner", "", "Inner"⟩, "a", [], ""⟩,
                ⟨⟨"Inner", "", "Inner"⟩, "b", [], ""⟩],
    constants := [], hash := 5, comment := "" }

/-- The struct `Inner` of `witnessStructs`. -/
def witnessInner : ZCMStruct :=
  { structname := ⟨"Inner", "", "Inner"⟩,
    members := [⟨⟨"double", "", "double"⟩, "x", [], ""⟩],
    constants := [], hash := 3, comment := "" }

/-- Rank of the short names of `witnessStructs`. -/
def witnessRank (sn : String) : Nat := if sn = "Outer" then 1 else 0

/-- Registry with a self-reference (`Node` has a member of type `Node`) and a
two-cycle (`Ping` has a member of type `Pong` and conversely). -/
def cyclicStructs : List ZCMStruct :=
  [ { structname := ⟨"Node", "", "Node"⟩,
      members := [⟨⟨"Node", "", "Node"⟩, "next", [.ZCM_VAR "n"], ""⟩],
      constants := [], hash := 7, comment := "" },
    { structname := ⟨"Ping", "", "Ping"⟩,
      members := [⟨⟨"Pong", "", "Pong"⟩, "peer", [.ZCM_VAR "n"], ""⟩],
      constants := [], hash := 1, comment := "" },
    { structname := ⟨"Pong", "", "Pong"⟩,
      members := [⟨⟨"Ping", "", "Ping"⟩, "peer", [.ZCM_VAR "n"], ""⟩],
      constants := [], hash := 1, comment := "" } ]

/-- The struct `Text` with one member `string s`. -/
def textStruct : ZCMStruct :=
  { structname := ⟨"Text", "", "Text"⟩,
    members := [⟨⟨"string", "", "string"⟩, "s", [], ""⟩],
    constants := [], hash := 85, comment := "" }

/-- The struct `Samples` with one member `int32_t a[2]`. -/
def samplesStruct : ZCMStruct :=
  { structname := ⟨"Samples", "", "Samples"⟩,
    members := [⟨⟨"int32_t", "", "int32_t"⟩, "a", [.ZCM_CONST 2], ""⟩],
    constants := [], hash := 85, comment := "" }

/-- The struct `Point` with members `float x` and `float y`. -/
def pointStruct : ZCMStruct :=
  { structname := ⟨"Point", "", "Point"⟩,
    members := [⟨⟨"float", "", "float"⟩, "x", [], ""⟩, ⟨⟨"float", "", "float"⟩, "y", [], ""⟩],
    constants := [], hash := 4660, comment := "" }

/-- The struct `Polygon` with one member `Point corners[4]`. -/
def polygonStruct : ZCMStruct :=
  { structname := ⟨"Polygon", "", "Polygon"⟩,
    members := [⟨⟨"Point", "", "Point"⟩, "corners", [.ZCM_CONST 4], ""⟩],
    constants := [], hash := 153, comment := "" }

/-- The struct `Path` with members `int32_t n` and `float pts[n][2]`. -/
def pathStruct : ZCMStruct :=
  { structname := ⟨"Path", "", "Path"⟩,
    members := [⟨⟨"int32_t", "", "int32_t"⟩, "n", [], ""⟩,
                ⟨⟨"float", "", "float"⟩, "pts", [.ZCM_VAR "n", .ZCM_CONST 2], ""⟩],
    constants := [], hash := 119, comment := "" }

/-- The instance `Point{x = 1.0f, y = 2.0f}`, the floats as their bit patterns. -/
def pointValue : JVal := .obj [("x", .num 1065353216), ("y", .num 1073741824)]

/-- The struct `Full`, without members and with all 64 bits of the base hash
set. -/
def fullStruct : ZCMStruct :=
  { structname := ⟨"Full", "", "Full"⟩, members := [], constants := [], hash := 2 ^ 64 - 1,
    comment := "" }

/-- The struct `Node` of `cyclicStructs`. -/
def cyclicNode : ZCMStruct :=
  { structname := ⟨"Node", "", "Node"⟩,
    members := [⟨⟨"Node", "", "Node"⟩, "next", [.ZCM_VAR "n"], ""⟩],
    constants := [], hash := 7, comment := "" }

/-- Registry of two packages with a struct `X` each: `a.X` has a member of
type `b.X`. -/
def packageStructs : List ZCMStruct :=
  [ { structname := ⟨"a.X", "a", "X"⟩,
      members := [⟨⟨"b.X", "b", "X"⟩, "inner", [], ""⟩],
      constants := [], hash := 5, comment := "" },
    { structname := ⟨"b.X", "b", "X"⟩,
      members := [⟨⟨"int32_t", "", "int32_t"⟩, "v", [], ""⟩],
      constants := [], hash := 3, comment := "" } ]

/-- The struct `a.X` of `packageStructs`. -/
def packageAX : ZCMStruct :=
  { structname := ⟨"a.X", "a", "X"⟩,
    members := [⟨⟨"b.X", "b", "X"⟩, "inner", [], ""⟩],
    constants := [], hash := 5, comment := "" }

/-- The struct `b.X` of `packageStructs`. -/
def packageBX : ZCMStruct :=
  { structname := ⟨"b.X", "b", "X"⟩,
    members := [⟨⟨"int32_t", "", "int32_t"⟩, "v", [], ""⟩],
    constants := [], hash := 3, comment := "" }

/-- The struct `Names` with members `int32_t n` and `string names[n]`. -/
def namesStruct : ZCMStruct :=
  { structname := ⟨"Names", "", "Names"⟩,
    members := [⟨⟨"int32_t", "", "int32_t"⟩, "n", [], ""⟩,
                ⟨⟨"string", "", "string"⟩, "names", [.ZCM_VAR "n"], ""⟩],
    constants := [], hash := 51, comment := "" }

/-- The instance `Names{n = -1, names = []}`. -/
def namesValue : JVal := .obj [("n", .num 4294967295), ("names", .arr [0] [])]

/-- The struct `Run` with members `int32_t n` and `int16_t d[n]`. -/
def runStruct : ZCMStruct :=
  { structname := ⟨"Run", "", "Run"⟩,
    members := [⟨⟨"int32_t", "", "int32_t"⟩, "n", [], ""⟩,
                ⟨⟨"int16_t", "", "int16_t"⟩, "d", [.ZCM_VAR "n"], ""⟩],
    constants := [], hash := 53, comment := "" }

/-- The instance `Run{n = -1, d = []}`. -/
def runValue : JVal := .obj [("n", .num 4294967295), ("d", .arr [0] [])]

/-- The instance `Path{n = 3, pts = [1 2; 1 2; 1 2]}`, `pts` a 3 x 2 array of
floats given by their bit patterns. -/
def pathValue : JVal :=
  .obj [("n", .num 3),
    ("pts", .arr [3, 2] [.num 1065353216, .num 1065353216, .num 1065353216,
      .num 1073741824, .num 1073741824, .num 1073741824])]

/-- The 36 bytes that the layout header, `n`, rows of `pts` gives for
`pathValue` in big-endian wire order. -/
def pathEncoding : List Byte :=
  [0, 0, 0, 0, 0, 0, 0, 238, 0, 0, 0, 3,
   63, 128, 0, 0, 64, 0, 0, 0, 63, 128, 0, 0, 64, 0, 0, 0, 63, 128, 0, 0, 64, 0, 0, 0]

/-- The instance of `Polygon` whose four corners are `pointValue`. -/
def polygonValue : JVal :=
  .obj [("corners", .arr [4] [pointValue, pointValue, pointValue, pointValue])]

/-- The struct `Grid` with one member `int32_t g[2][3]`. -/
def gridStruct : ZCMStruct :=
  { structname := ⟨"Grid", "", "Grid"⟩,
    members := [⟨⟨"int32_t", "", "int32_t"⟩, "g", [.ZCM_CONST 2, .ZCM_CONST 3], ""⟩],
    constants := [], hash := 57, comment := "" }

/-- The instance `Path{n = 1, pts = [1 2 3]}`, `pts` a 1 x 3 array: one row of
three floats. -/
def pathWide : JVal :=
  .obj [("n", .num 1),
    ("pts", .arr [1, 3] [.num 1065353216, .num 1073741824, .num 1077936128])]

/-- Registry in which the struct `a.X` of package `a` and the struct `X`
without package share the short name `X`: `a.X` has a member of type `M`, `M`
has a member of type `X`.  The emitted imports are `import _M: M` in the text
of `a.X` and `import _X: X` in the text of `M`. -/
def shadowStructs : List ZCMStruct :=
  [ { structname := ⟨"a.X", "a", "X"⟩,
      members := [⟨⟨"M", "", "M"⟩, "m", [], ""⟩],
      constants := [], hash := 5, comment := "" },
    { structname := ⟨"M", "", "M"⟩,
      members := [⟨⟨"X", "", "X"⟩, "x", [], ""⟩],
      constants := [], hash := 7, comment := "" },
    { structname := ⟨"X", "", "X"⟩,
      members := [⟨⟨"int32_t", "", "int32_t"⟩, "v", [], ""⟩],
      constants := [], hash := 3, comment := "" } ]

/-- The struct `a.X` of `shadowStructs`. -/
def shadowAX : ZCMStruct :=
  { structname := ⟨"a.X", "a", "X"⟩,
    members := [⟨⟨"M", "", "M"⟩, "m", [], ""⟩],
    constants := [], hash := 5, comment := "" }

/-- The struct `M` of `shadowStructs`. -/
def shadowM : ZCMStruct :=
  { structname := ⟨"M", "", "M"⟩,
    members := [⟨⟨"X", "", "X"⟩, "x", [], ""⟩],
    constants := [], hash := 7, comment := "" }

/-- The struct `X` of `shadowStructs`. -/
def shadowX : ZCMStruct :=
  { structname := ⟨"X", "", "X"⟩,
    members := [⟨⟨"int32_t", "", "int32_t"⟩, "v", [], ""⟩],
    constants := [], hash := 3, comment := "" }

/-- The struct `a.Node` of package `a`, with a member of its own type. -/
def packageNode : ZCMStruct :=
  { structname := ⟨"a.Node", "a", "Node"⟩,
    members := [⟨⟨"a.Node", "a", "Node"⟩, "next", [.ZCM_VAR "n"], ""⟩],
    constants := [], hash := 7, comment := "" }

theorem mixHash_eq_rotl1 (h : Nat) : mixHash h = rotl1 h := by
  unfold mixHash rotl1
  norm_num
  omega

theorem emitGetHash_recursive_succ (structs : List ZCMStruct) (fuel : Nat) (c : HashCache)
    (ls : ZCMStruct) (parents : List String) :
    emitGetHash_recursive structs (fuel + 1) c ls parents =
      if c ls.structname.fullname ≠ 0 then .ok (c ls.structname.fullname, c)
      else if ls.structname.shortname ∈ parents then .ok (0, c)
      else
        match hashSum (nestedCall structs ls fuel (parents ++ [ls.structname.shortname]))
            ls.members (ls.hash % 2 ^ 64) c with
        | .error e => .error e
        | .ok (hash, c1) =>
          .ok (mixHash hash, c1.set ls.structname.fullname (mixHash hash)) := by
  rfl

theorem hashSum_eq_runCalls (call : HashCache → ZCMTypename → Except JlError (Nat × HashCache))
    (ms : List ZCMMember) (acc : Nat) (c : HashCache) (hacc : acc < 2 ^ 64) :
    hashSum call ms acc c =
      match runCalls call ((ms.filter (fun lm => !isPrimitiveType lm.type.fullname)).map
          (fun lm => lm.type)) c with
      | .error e => .error e
      | .ok (vs, c1) => .ok ((acc + vs.sum) % 2 ^ 64, c1) := by
  induction ms generalizing acc c with
  | nil =>
    simp only [hashSum, List.filter_nil, List.map_nil, runCalls, List.sum_nil, Nat.add_zero,
      Nat.mod_eq_of_lt hacc]
  | cons lm rest ih =>
    by_cases hp : isPrimitiveType lm.type.fullname = true
    · simp [hashSum, hp, ih acc c hacc]
    · simp only [hashSum, hp, Bool.false_eq_true, ↓reduceIte, Bool.not_eq_true, not_false_eq_true,
        List.filter_cons_of_pos, List.map_cons, runCalls]
      simp only [Bool.not_eq_true] at hp
      simp only [hp, Bool.not_false, List.filter_cons_of_pos, List.map_cons, runCalls]
      cases hcall : call c lm.type with
      | error e => simp
      | ok r =>
        obtain ⟨v, c1⟩ := r
        simp only
        rw [ih _ c1 (Nat.mod_lt _ (by norm_num))]
        cases hrun : runCalls call ((rest.filter (fun lm => !isPrimitiveType lm.type.fullname)).map
            (fun lm => lm.type)) c1 with
        | error e => simp
        | ok r2 =>
          obtain ⟨vs, c2⟩ := r2
          simp only [List.sum_cons]
          congr 2
          omega

/-- C2 (fingerprint definition, with the evaluation at the failing input): for
a struct that is not memoized and whose short name is not among `parents`, the
emitted `_get_hash_recursive` returns (and memoizes) the rotation by one bit
of `(ls.hash + S) mod 2^64`, where `S` adds the value returned by one nested
call per member of non-primitive type, in member order, each made with
`parents` extended by the struct.  The test is on the short name: in the
registry of `a.X`, `M` and `X`, the call for `X` that `getHash` of `a.X`
reaches through `M` is made with the short names of `a.X` and `M` as
`parents`; `X` is not memoized and is neither of the two ancestors, the
formula gives the rotation of its base hash 3, which is 6, and the call
returns 0; `getHash` of `a.X` returns 38 where the formula, applied to `a.X`,
`M` and `X`, gives 62. -/
theorem fingerprint_definition (structs : List ZCMStruct) (fuel : Nat) (c : HashCache)
    (ls : ZCMStruct) (parents : List String) (vs : List Nat) (c1 : HashCache)
    (hmemo : c ls.structname.fullname = 0)
    (hanc : ls.structname.shortname ∉ parents)
    (hcalls : runCalls (nestedCall structs ls fuel (parents ++ [ls.structname.shortname]))
      (nestedTypes ls) c = .ok (vs, c1)) :
    emitGetHash_recursive structs (fuel + 1) c ls parents =
      .ok (rotl1 ((ls.hash + vs.sum) % 2 ^ 64),
        c1.set ls.structname.fullname (rotl1 ((ls.hash + vs.sum) % 2 ^ 64))) ∧
    (HashCache.init shadowX.structname.fullname = 0 ∧
      shadowX.structname.fullname ∉
        [shadowAX.structname.fullname, shadowM.structname.fullname] ∧
      runCalls (nestedCall shadowStructs shadowX 1
        ([shadowAX.structname.shortname, shadowM.structname.shortname] ++
          [shadowX.structname.shortname])) (nestedTypes shadowX) HashCache.init =
        .ok ([], HashCache.init) ∧
      rotl1 ((shadowX.hash + ([] : List Nat).sum) % 2 ^ 64) = 6 ∧
      emitGetHash_recursive shadowStructs (1 + 1) HashCache.init shadowX
        [shadowAX.structname.shortname, shadowM.structname.shortname] =
        .ok (0, HashCache.init)) ∧
    (hashValue (emitGetHash shadowStructs HashCache.init shadowAX) = some 38 ∧
      rotl1 ((shadowM.hash + [6].sum) % 2 ^ 64) = 26 ∧
      rotl1 ((shadowAX.hash + [26].sum) % 2 ^ 64) = 62) := by
  refine ⟨?_, ⟨rfl, by decide, rfl, by decide, rfl⟩, ⟨rfl, by decide, by decide⟩⟩
  rw [emitGetHash_recursive_succ]
  simp only [hmemo, ne_eq, not_true_eq_false, ↓reduceIte, hanc]
  rw [hashSum_eq_runCalls _ _ _ _ (Nat.mod_lt _ (by norm_num))]
  unfold nestedTypes at hcalls
  rw [hcalls]
  simp only [mixHash_eq_rotl1, Nat.mod_add_mod]

theorem fingerprint_definition_witness :
    emitGetHash_recursive witnessStructs 2 HashCache.init
        { structname := ⟨"Outer", "", "Outer"⟩,
          members := [⟨⟨"int32_t", "", "int32_t"⟩, "n", [], ""⟩,
                      ⟨⟨"Inner", "", "Inner"⟩, "a", [], ""⟩,
                      ⟨⟨"Inner", "", "Inner"⟩, "b", [], ""⟩],
          constants := [], hash := 5, comment := "" } [] =
      .ok (rotl1 ((5 + [6, 6].sum) % 2 ^ 64),
        (HashCache.init.set "Inner" 6).set "Outer" (rotl1 ((5 + [6, 6].sum) % 2 ^ 64))) :=
  (fingerprint_definition witnessStructs 1 HashCache.init _ [] [6, 6]
    (HashCache.init.set "Inner" 6) (by decide) (by decide) (by rfl)).1

theorem freeNames_card_lt (names P : List String) (sn : String) (hsn : sn ∈ names)
    (hP : sn ∉ P) :
    (names.toFinset \ (P ++ [sn]).toFinset).card < (names.toFinset \ P.toFinset).card := by
  apply Finset.card_lt_card
  rw [Finset.ssubset_iff_of_subset]
  · refine ⟨sn, ?_, ?_⟩
    · simp [hsn, hP]
    · simp
  · intro x hx
    simp only [List.toFinset_append, List.toFinset_cons, List.toFinset_nil, insert_emptyc_eq,
      Finset.mem_sdiff, List.mem_toFinset, Finset.mem_union, Finset.mem_singleton, not_or] at hx
    simp [hx.1, hx.2.1]

theorem findStruct_mem {structs : List ZCMStruct} {name : String} {ls : ZCMStruct}
    (h : findStruct structs name = some ls) : ls ∈ structs :=
  List.mem_of_find?_eq_some h

theorem findStruct_fullname {structs : List ZCMStruct} {name : String} {ls : ZCMStruct}
    (h : findStruct structs name = some ls) : ls.structname.fullname = name := by
  have := List.find?_some h
  simpa using this

theorem resolveType_mem {structs : List ZCMStruct} {ls ls1 : ZCMStruct} {t : ZCMTypename}
    (h : resolveType structs ls t = some ls1) : ls1 = ls ∨ ls1 ∈ structs := by
  unfold resolveType at h
  split at h
  · simp at h
  · split at h
    · split at h
      · left
        exact (Option.some.inj h).symm
      · right
        exact findStruct_mem h
    · simp at h

theorem hashSum_ne_outOfFuel (call : HashCache → ZCMTypename → Except JlError (Nat × HashCache))
    (hcall : ∀ c t, call c t ≠ .error .outOfFuel) (ms : List ZCMMember) (acc : Nat)
    (c : HashCache) : hashSum call ms acc c ≠ .error .outOfFuel := by
  induction ms generalizing acc c with
  | nil => simp [hashSum]
  | cons lm rest ih =>
    unfold hashSum
    split
    · exact ih acc c
    · cases h : call c lm.type with
      | error e =>
        intro hc
        simp only [Except.error.injEq] at hc
        exact hcall c lm.type (by rw [h, hc])
      | ok r => exact ih _ _

/-- With a budget above the number of short names not yet among `parents`, the
recursion does not run out of budget, and any two such budgets give the same
result. -/
theorem emitGetHash_recursive_fuel (structs : List ZCMStruct) (names : List String)
    (hnames : ∀ s ∈ structs, s.structname.shortname ∈ names) :
    ∀ (k : Nat) (P : List String) (c : HashCache) (ls : ZCMStruct) (f1 f2 : Nat),
      ls.structname.shortname ∈ names →
      (names.toFinset \ P.toFinset).card ≤ k → k + 1 ≤ f1 → k + 1 ≤ f2 →
      emitGetHash_recursive structs f1 c ls P = emitGetHash_recursive structs f2 c ls P ∧
      emitGetHash_recursive structs f1 c ls P ≠ .error .outOfFuel := by
  intro k
  induction k with
  | zero =>
    intro P c ls f1 f2 hls hcard h1 h2
    obtain ⟨g1, rfl⟩ : ∃ g, f1 = g + 1 := ⟨f1 - 1, by omega⟩
    obtain ⟨g2, rfl⟩ : ∃ g, f2 = g + 1 := ⟨f2 - 1, by omega⟩
    rw [emitGetHash_recursive_succ, emitGetHash_recursive_succ]
    by_cases hmemo : c ls.structname.fullname ≠ 0
    · simp [hmemo]
    · by_cases hin : ls.structname.shortname ∈ P
      · simp [hmemo, hin]
      · have := freeNames_card_lt names P _ hls hin
        omega
  | succ k ih =>
    intro P c ls f1 f2 hls hcard h1 h2
    obtain ⟨g1, rfl⟩ : ∃ g, f1 = g + 1 := ⟨f1 - 1, by omega⟩
    obtain ⟨g2, rfl⟩ : ∃ g, f2 = g + 1 := ⟨f2 - 1, by omega⟩
    rw [emitGetHash_recursive_succ, emitGetHash_recursive_succ]
    by_cases hmemo : c ls.structname.fullname ≠ 0
    · simp [hmemo]
    · by_cases hin : ls.structname.shortname ∈ P
      · simp [hmemo, hin]
      · have hlt := freeNames_card_lt names P _ hls hin
        have hk : (names.toFinset \ (P ++ [ls.structname.shortname]).toFinset).card ≤ k := by
          omega
        have hcallee : nestedCall structs ls g1 (P ++ [ls.structname.shortname]) =
            nestedCall structs ls g2 (P ++ [ls.structname.shortname]) := by
          funext c1 t
          unfold nestedCall
          cases hf : resolveType structs ls t with
          | none => rfl
          | some ls1 =>
            have hls1 : ls1.structname.shortname ∈ names := by
              rcases resolveType_mem hf with h | h
              · rw [h]; exact hls
              · exact hnames _ h
            exact (ih _ c1 ls1 g1 g2 hls1 hk (by omega) (by omega)).1
        have hne : ∀ c1 t, nestedCall structs ls g1 (P ++ [ls.structname.shortname]) c1 t ≠
            .error .outOfFuel := by
          intro c1 t
          unfold nestedCall
          cases hf : resolveType structs ls t with
          | none => simp
          | some ls1 =>
            have hls1 : ls1.structname.shortname ∈ names := by
              rcases resolveType_mem hf with h | h
              · rw [h]; exact hls
              · exact hnames _ h
            exact (ih _ c1 ls1 g1 g1 hls1 hk (by omega) (by omega)).2
        simp only [hmemo, ↓reduceIte, hin]
        rw [← hcallee]
        refine ⟨rfl, ?_⟩
        have := hashSum_ne_outOfFuel _ hne ls.members (ls.hash % 2 ^ 64) c
        cases hs : hashSum (nestedCall structs ls g1 (P ++ [ls.structname.shortname])) ls.members
            (ls.hash % 2 ^ 64) c with
        | error e =>
          rw [hs] at this
          simpa using this
        | ok r => simp

theorem hashSum_error (call : HashCache → ZCMTypename → Except JlError (Nat × HashCache))
    (ms : List ZCMMember) (acc : Nat) (c : HashCache) (e : JlError)
    (h : hashSum call ms acc c = .error e) :
    ∃ c1 lm, lm ∈ ms ∧ isPrimitiveType lm.type.fullname = false ∧ call c1 lm.type = .error e := by
  induction ms generalizing acc c with
  | nil => simp [hashSum] at h
  | cons lm rest ih =>
    unfold hashSum at h
    split at h
    · obtain ⟨c1, lm1, hmem, hp, hc⟩ := ih _ _ h
      exact ⟨c1, lm1, List.mem_cons_of_mem _ hmem, hp, hc⟩
    · rename_i hprim
      cases hcall : call c lm.type with
      | error e1 =>
        rw [hcall] at h
        simp only [Except.error.injEq] at h
        subst h
        exact ⟨c, lm, List.mem_cons_self _ _, by simpa using hprim, hcall⟩
      | ok r =>
        rw [hcall] at h
        obtain ⟨c1, lm1, hmem, hp, hc⟩ := ih _ _ h
        exact ⟨c1, lm1, List.mem_cons_of_mem _ hmem, hp, hc⟩

theorem emitGetHash_recursive_error (structs : List ZCMStruct)
    (hclosed : ∀ s ∈ structs, ∀ lm ∈ s.members, isPrimitiveType lm.type.fullname = false →
      (resolveType structs s lm.type).isSome) :
    ∀ (fuel : Nat) (c : HashCache) (ls : ZCMStruct) (P : List String) (e : JlError),
      ls ∈ structs → emitGetHash_recursive structs fuel c ls P = .error e → e = .outOfFuel := by
  intro fuel
  induction fuel with
  | zero =>
    intro c ls P e _ h
    simp only [emitGetHash_recursive, Except.error.injEq] at h
    exact h.symm
  | succ fuel ih =>
    intro c ls P e hls h
    rw [emitGetHash_recursive_succ] at h
    split at h
    · simp at h
    · split at h
      · simp at h
      · cases hs : hashSum (nestedCall structs ls fuel (P ++ [ls.structname.shortname])) ls.members
            (ls.hash % 2 ^ 64) c with
        | ok r => rw [hs] at h; simp at h
        | error e1 =>
          rw [hs] at h
          simp only [Except.error.injEq] at h
          subst h
          obtain ⟨c1, lm, hmem, hp, hc⟩ := hashSum_error _ _ _ _ _ hs
          unfold nestedCall at hc
          have hsome := hclosed ls hls lm hmem hp
          cases hf : resolveType structs ls lm.type with
          | none => rw [hf] at hsome; simp at hsome
          | some ls1 =>
            rw [hf] at hc
            have hls1 : ls1 ∈ structs := by
              rcases resolveType_mem hf with h | h
              · rw [h]; exact hls
              · exact h
            exact ih c1 ls1 _ _ hls1 hc

/-- The budget of the emitted `getHash` is never exhausted, and a larger one
gives the same result. -/
theorem emitGetHash_budget (structs : List ZCMStruct) (c : HashCache) (ls : ZCMStruct) :
    emitGetHash structs c ls ≠ .error .outOfFuel ∧
    (∀ fuel, structs.length + 2 ≤ fuel →
      emitGetHash_recursive structs fuel c ls [] = emitGetHash structs c ls) := by
  have hnames : ∀ s ∈ structs, s.structname.shortname ∈
      ls.structname.shortname :: structs.map (fun s => s.structname.shortname) := by
    intro s hs
    exact List.mem_cons_of_mem _ (List.mem_map_of_mem _ hs)
  have hcard : ((ls.structname.shortname ::
      structs.map (fun s => s.structname.shortname)).toFinset \
      ([] : List String).toFinset).card ≤ structs.length + 1 := by
    refine le_trans (Finset.card_le_card Finset.sdiff_subset) ?_
    refine le_trans (List.toFinset_card_le _) ?_
    simp
  refine ⟨?_, ?_⟩
  · exact (emitGetHash_recursive_fuel structs _ hnames (structs.length + 1) [] c ls
      (structs.length + 2) (structs.length + 2) (List.mem_cons_self _ _) hcard
      (le_refl _) (le_refl _)).2
  · intro fuel hfuel
    exact (emitGetHash_recursive_fuel structs _ hnames (structs.length + 1) [] c ls
      fuel (structs.length + 2) (List.mem_cons_self _ _) hcard hfuel (le_refl _)).1

theorem emitGetHash_recursive_error_kind (structs : List ZCMStruct) :
    ∀ (fuel : Nat) (c : HashCache) (ls : ZCMStruct) (P : List String) (e : JlError),
      emitGetHash_recursive structs fuel c ls P = .error e →
      e = .outOfFuel ∨ e = .undefVarError := by
  intro fuel
  induction fuel with
  | zero =>
    intro c ls P e h
    simp only [emitGetHash_recursive, Except.error.injEq] at h
    exact Or.inl h.symm
  | succ fuel ih =>
    intro c ls P e h
    rw [emitGetHash_recursive_succ] at h
    split at h
    · simp at h
    · split at h
      · simp at h
      · cases hs : hashSum (nestedCall structs ls fuel (P ++ [ls.structname.shortname]))
            ls.members (ls.hash % 2 ^ 64) c with
        | ok r => rw [hs] at h; simp at h
        | error e1 =>
          rw [hs] at h
          simp only [Except.error.injEq] at h
          subst h
          obtain ⟨c1, lm, _, _, hc⟩ := hashSum_error _ _ _ _ _ hs
          unfold nestedCall at hc
          cases hf : resolveType structs ls lm.type with
          | none =>
            rw [hf] at hc
            simp only [Except.error.injEq] at hc
            exact Or.inr hc.symm
          | some ls1 =>
            rw [hf] at hc
            exact ih c1 ls1 _ _ hc

/-- C3 (cycle termination): for every list of structs (self-referential and
mutually referential ones included), every cache and every struct, the emitted
`getHash` does not exhaust its recursion budget, and every larger budget gives
the same result: each recursive call either returns at once or is made with a
`parents` that holds one more short name of the finite list of structs.  The
call returns a value or throws `UndefVarError`, and it returns a value when
the identifier emitted for every nested type is bound to a type. -/
theorem getHash_terminates (structs : List ZCMStruct) (c : HashCache) (ls : ZCMStruct) :
    emitGetHash structs c ls ≠ .error .outOfFuel ∧
    (∀ fuel, structs.length + 2 ≤ fuel →
      emitGetHash_recursive structs fuel c ls [] = emitGetHash structs c ls) ∧
    ((hashValue (emitGetHash structs c ls)).isSome = true ∨
      emitGetHash structs c ls = .error .undefVarError) ∧
    ((∀ s ∈ structs, ∀ lm ∈ s.members, isPrimitiveType lm.type.fullname = false →
        (resolveType structs s lm.type).isSome) → ls ∈ structs →
      (hashValue (emitGetHash structs c ls)).isSome = true) := by
  refine ⟨(emitGetHash_budget structs c ls).1, (emitGetHash_budget structs c ls).2, ?_, ?_⟩
  · cases h : emitGetHash structs c ls with
    | ok r => exact Or.inl rfl
    | error e =>
      right
      rcases emitGetHash_recursive_error_kind structs _ c ls [] e h with he | he
      · subst he
        exact absurd h (emitGetHash_budget structs c ls).1
      · rw [he]
  · intro hclosed hls
    cases h : emitGetHash structs c ls with
    | ok r => rfl
    | error e =>
      have := emitGetHash_recursive_error structs hclosed _ c ls [] e hls h
      subst this
      exact absurd h (emitGetHash_budget structs c ls).1

theorem getHash_terminates_witness :
    (hashValue (emitGetHash cyclicStructs HashCache.init
      { structname := ⟨"Ping", "", "Ping"⟩,
        members := [⟨⟨"Pong", "", "Pong"⟩, "peer", [.ZCM_VAR "n"], ""⟩],
        constants := [], hash := 1, comment := "" })).isSome = true :=
  (getHash_terminates cyclicStructs HashCache.init _).2.2.2 (by decide) (by decide)

theorem refSum_congr (call1 call2 : ZCMTypename → Nat) (ts : List ZCMTypename) (acc : Nat)
    (h : ∀ t ∈ ts, isPrimitiveType t.fullname = false → call1 t = call2 t) :
    refSum call1 ts acc = refSum call2 ts acc := by
  induction ts generalizing acc with
  | nil => rfl
  | cons t ts ih =>
    unfold refSum
    split
    · exact ih _ (fun t1 h1 => h t1 (List.mem_cons_of_mem _ h1))
    · rename_i hp
      rw [h t (List.mem_cons_self _ _) (by simpa using hp)]
      exact ih _ (fun t1 h1 => h t1 (List.mem_cons_of_mem _ h1))

theorem registered_of_findStruct {structs : List ZCMStruct} {name : String} {ls : ZCMStruct}
    (h : findStruct structs name = some ls) : Registered structs ls := by
  unfold Registered
  rw [findStruct_fullname h]
  exact h

theorem resolveType_registered {structs : List ZCMStruct} {ls ls1 : ZCMStruct}
    {t : ZCMTypename} (hreg : Registered structs ls)
    (h : resolveType structs ls t = some ls1) : Registered structs ls1 := by
  unfold resolveType at h
  split at h
  · simp at h
  · split at h
    · split at h
      · rw [← Option.some.inj h]
        exact hreg
      · exact registered_of_findStruct h
    · simp at h

theorem registered_unique {structs : List ZCMStruct} {ls1 ls2 : ZCMStruct}
    (h1 : Registered structs ls1) (h2 : Registered structs ls2)
    (h : ls1.structname.fullname = ls2.structname.fullname) : ls1 = ls2 := by
  unfold Registered at h1 h2
  rw [h] at h1
  rw [h1] at h2
  exact Option.some.inj h2

theorem refHash_succ (structs : List ZCMStruct) (fuel : Nat) (ls : ZCMStruct) :
    refHash structs (fuel + 1) ls =
      mixHash (refSum (fun t =>
          match findStruct structs t.fullname with
          | none => 0
          | some ls1 => refHash structs fuel ls1)
        (ls.members.map (fun lm => lm.type)) (ls.hash % 2 ^ 64)) := rfl

theorem cutHash_succ (structs : List ZCMStruct) (fuel : Nat) (ls : ZCMStruct) :
    cutHash structs (fuel + 1) ls =
      mixHash (refSum (fun t =>
          match resolveType structs ls t with
          | none => 0
          | some ls1 => if ls1 = ls then 0 else cutHash structs fuel ls1)
        (ls.members.map (fun lm => lm.type)) (ls.hash % 2 ^ 64)) := rfl

theorem cutHash_fuel (structs : List ZCMStruct) (S : ZCMStruct → Prop) (rank : String → Nat)
    (hac : AcyclicBelow structs S rank) :
    ∀ (n : Nat) (ls : ZCMStruct), S ls → rank ls.structname.shortname = n →
      ∀ f1 f2, n + 1 ≤ f1 → n + 1 ≤ f2 → cutHash structs f1 ls = cutHash structs f2 ls := by
  intro n
  induction n using Nat.strong_induction_on with
  | _ n ih =>
    intro ls hS hrank f1 f2 h1 h2
    obtain ⟨g1, rfl⟩ : ∃ g, f1 = g + 1 := ⟨f1 - 1, by omega⟩
    obtain ⟨g2, rfl⟩ : ∃ g, f2 = g + 1 := ⟨f2 - 1, by omega⟩
    rw [cutHash_succ, cutHash_succ]
    congr 1
    apply refSum_congr
    intro t ht hp
    obtain ⟨lm, hlm, rfl⟩ := List.mem_map.mp ht
    obtain ⟨ls1, hf, hS1, hlt⟩ := hac.2 ls hS lm hlm hp
    simp only [hf]
    by_cases hself : ls1 = ls
    · simp only [hself, ↓reduceIte]
    · simp only [hself, ↓reduceIte]
      rcases hlt with h | h
      · exact absurd h hself
      · exact ih _ (by omega) ls1 hS1 rfl g1 g2 (by omega) (by omega)

theorem hashSum_eq_refSum (call : HashCache → ZCMTypename → Except JlError (Nat × HashCache))
    (rcall : ZCMTypename → Nat) (Inv : HashCache → Prop) (ms : List ZCMMember)
    (hcall : ∀ lm ∈ ms, isPrimitiveType lm.type.fullname = false → ∀ c, Inv c →
      ∃ c1, call c lm.type = .ok (rcall lm.type, c1) ∧ Inv c1)
    (acc : Nat) (c : HashCache) (hc : Inv c) :
    ∃ c1, hashSum call ms acc c = .ok (refSum rcall (ms.map (fun lm => lm.type)) acc, c1) ∧
      Inv c1 := by
  induction ms generalizing acc c with
  | nil => exact ⟨c, rfl, hc⟩
  | cons lm rest ih =>
    have hrest : ∀ lm1 ∈ rest, isPrimitiveType lm1.type.fullname = false → ∀ c, Inv c →
        ∃ c1, call c lm1.type = .ok (rcall lm1.type, c1) ∧ Inv c1 :=
      fun lm1 h1 => hcall lm1 (List.mem_cons_of_mem _ h1)
    by_cases hp : isPrimitiveType lm.type.fullname = true
    · simp only [hashSum, hp, ↓reduceIte, List.map_cons, refSum]
      exact ih hrest acc c hc
    · simp only [Bool.not_eq_true] at hp
      obtain ⟨c1, hc1, hinv1⟩ := hcall lm (List.mem_cons_self _ _) hp c hc
      simp only [hashSum, hp, Bool.false_eq_true, ↓reduceIte, hc1, List.map_cons, refSum]
      exact ih hrest _ c1 hinv1

theorem emitGetHash_recursive_eq_cutHash (structs : List ZCMStruct) (S : ZCMStruct → Prop)
    (rank : String → Nat) (hac : AcyclicBelow structs S rank) :
    ∀ (n : Nat) (ls : ZCMStruct) (c : HashCache) (P : List String) (fuel : Nat),
      S ls → rank ls.structname.shortname = n → n + 2 ≤ fuel →
      GoodCache structs S rank c → (∀ p ∈ P, n < rank p) →
      ∃ c1, emitGetHash_recursive structs fuel c ls P = .ok (cutHash structs (n + 1) ls, c1) ∧
        GoodCache structs S rank c1 ∧
        ∀ k, c1 k ≠ c k → ∃ s, S s ∧ s.structname.fullname = k ∧
          rank s.structname.shortname ≤ n := by
  intro n
  induction n using Nat.strong_induction_on with
  | _ n ih =>
    intro ls c P fuel hS hrank hfuel hgood hP
    obtain ⟨g, rfl⟩ : ∃ g, fuel = g + 1 := ⟨fuel - 1, by omega⟩
    rw [emitGetHash_recursive_succ]
    by_cases hmemo : c ls.structname.fullname ≠ 0
    · rw [if_pos hmemo]
      refine ⟨c, ?_, hgood, fun k hk => absurd rfl hk⟩
      rw [hgood ls hS hmemo, hrank]
    · rw [if_neg hmemo]
      have hzero : c ls.structname.fullname = 0 := not_not.mp hmemo
      have hnin : ls.structname.shortname ∉ P := by
        intro hin
        have := hP _ hin
        omega
      rw [if_neg hnin]
      obtain ⟨c1, hsum, hgood1, hzero1, hchg1⟩ := hashSum_eq_refSum
        (nestedCall structs ls g (P ++ [ls.structname.shortname]))
        (fun t => match resolveType structs ls t with
          | none => 0
          | some ls1 => if ls1 = ls then 0 else cutHash structs n ls1)
        (fun c0 => GoodCache structs S rank c0 ∧ c0 ls.structname.fullname = 0 ∧
          ∀ k, c0 k ≠ c k → ∃ s, S s ∧ s.structname.fullname = k ∧
            rank s.structname.shortname < n) ls.members
        (by
          intro lm hlm hp c0 hc0
          obtain ⟨hg0, hz0, hchg0⟩ := hc0
          obtain ⟨ls1, hf, hS1, hlt⟩ := hac.2 ls hS lm hlm hp
          by_cases hself : ls1 = ls
          · subst hself
            refine ⟨c0, ?_, hg0, hz0, hchg0⟩
            obtain ⟨g1, rfl⟩ : ∃ g1, g = g1 + 1 := ⟨g - 1, by omega⟩
            simp only [nestedCall, hf, ↓reduceIte]
            rw [emitGetHash_recursive_succ, if_neg (not_not.mpr hz0),
              if_pos (List.mem_append_right _ (List.mem_singleton_self _))]
          · have hlt1 : rank ls1.structname.shortname < rank ls.structname.shortname := by
              rcases hlt with h | h
              · exact absurd h hself
              · exact h
            obtain ⟨c1, h1, hg1, hchg1⟩ := ih (rank ls1.structname.shortname) (by omega) ls1 c0
              (P ++ [ls.structname.shortname]) g hS1 rfl (by omega) hg0
              (by
                intro p hp
                rcases List.mem_append.mp hp with h | h
                · have := hP p h
                  omega
                · simp only [List.mem_singleton] at h
                  subst h
                  omega)
            refine ⟨c1, ?_, hg1, ?_, ?_⟩
            · simp only [nestedCall, hf, hself, ↓reduceIte]
              rw [h1]
              rw [cutHash_fuel structs S rank hac _ ls1 hS1 rfl
                (rank ls1.structname.shortname + 1) n (le_refl _) (by omega)]
            · by_contra hne
              have hne1 : c1 ls.structname.fullname ≠ c0 ls.structname.fullname := by
                rw [hz0]
                exact hne
              obtain ⟨s, hSs, hname, hrk⟩ := hchg1 _ hne1
              have heq : s = ls := registered_unique (hac.1 s hSs) (hac.1 ls hS) hname
              subst heq
              omega
            · intro k hk
              by_cases hk0 : c1 k = c0 k
              · rw [hk0] at hk
                exact hchg0 k hk
              · obtain ⟨s, hSs, hname, hrk⟩ := hchg1 k hk0
                exact ⟨s, hSs, hname, by omega⟩)
        (ls.hash % 2 ^ 64) c ⟨hgood, hzero, fun k hk => absurd rfl hk⟩
      rw [hsum]
      refine ⟨_, rfl, ?_, ?_⟩
      · intro ls2 hS2 hne
        by_cases hname : ls2.structname.fullname = ls.structname.fullname
        · have hls : ls2 = ls := registered_unique (hac.1 ls2 hS2) (hac.1 ls hS) hname
          subst hls
          simp only [HashCache.set, ↓reduceIte]
          rw [hrank]
          rfl
        · simp only [HashCache.set, hname, ↓reduceIte] at hne ⊢
          exact hgood1 ls2 hS2 hne
      · intro k hk
        by_cases hname : k = ls.structname.fullname
        · exact ⟨ls, hS, hname.symm, by omega⟩
        · simp only [HashCache.set, hname, ↓reduceIte] at hk
          obtain ⟨s, hSs, hn, hrk⟩ := hchg1 k hk
          exact ⟨s, hSs, hn, by omega⟩

theorem emitGetHash_eq_cutHash (structs : List ZCMStruct) (S : ZCMStruct → Prop)
    (rank : String → Nat) (hac : AcyclicBelow structs S rank) (ls : ZCMStruct) (hS : S ls)
    (c : HashCache) (hgood : GoodCache structs S rank c) :
    ∃ c1, emitGetHash structs c ls =
        .ok (cutHash structs (rank ls.structname.shortname + 1) ls, c1) ∧
      GoodCache structs S rank c1 := by
  obtain ⟨c1, h, hg, _⟩ := emitGetHash_recursive_eq_cutHash structs S rank hac _ ls c []
    (max (structs.length + 2) (rank ls.structname.shortname + 2)) hS rfl (le_max_right _ _)
    hgood (by simp)
  refine ⟨c1, ?_, hg⟩
  rw [← (emitGetHash_budget structs c ls).2 _ (le_max_left _ _)]
  exact h

theorem goodCache_init (structs : List ZCMStruct) (S : ZCMStruct → Prop) (rank : String → Nat) :
    GoodCache structs S rank HashCache.init := by
  intro ls _ hne
  simp [HashCache.init] at hne

theorem goodCache_of_reachable (structs : List ZCMStruct) (rank : String → Nat)
    (hac : Acyclic structs rank) (c : HashCache) (hr : Reachable structs c) :
    GoodCache structs (Registered structs) rank c := by
  induction hr with
  | init => exact goodCache_init _ _ _
  | call c0 ls v c1 _ hreg hcall ih =>
    obtain ⟨c2, h, hg⟩ := emitGetHash_eq_cutHash structs _ rank hac ls hreg c0 ih
    rw [hcall] at h
    simp only [Except.ok.injEq, Prod.mk.injEq] at h
    rw [h.2]
    exact hg

theorem hashValue_eq_cutHash (structs : List ZCMStruct) (rank : String → Nat)
    (hac : Acyclic structs rank) (c : HashCache) (hr : Reachable structs c)
    (ls : ZCMStruct) (hreg : Registered structs ls) :
    hashValue (emitGetHash structs c ls) =
      some (cutHash structs (rank ls.structname.shortname + 1) ls) := by
  obtain ⟨c1, e, _⟩ := emitGetHash_eq_cutHash structs _ rank hac ls hreg c
    (goodCache_of_reachable structs rank hac c hr)
  rw [e]
  rfl

theorem witnessStructs_acyclic : Acyclic witnessStructs witnessRank := by
  refine ⟨fun ls h => h, ?_⟩
  intro ls hreg lm hlm hp
  have hmem := findStruct_mem hreg
  simp only [witnessStructs, List.mem_cons, List.mem_singleton, List.not_mem_nil, or_false] at hmem
  rcases hmem with rfl | rfl
  · refine ⟨witnessInner, ?_, rfl, Or.inr (by decide)⟩
    simp only [List.mem_cons, List.mem_singleton, List.not_mem_nil, or_false] at hlm
    rcases hlm with rfl | rfl | rfl
    · exact absurd hp (by decide)
    · rfl
    · rfl
  · simp only [List.mem_cons, List.mem_singleton, List.not_mem_nil, or_false] at hlm
    subst hlm
    exact absurd hp (by decide)

theorem bytesLE_length (w x : Nat) : (bytesLE w x).length = w := by
  induction w generalizing x with
  | zero => rfl
  | succ w ih => simp [bytesLE, ih]

theorem bytesLE_ofBytesLE (bs : List Byte) : bytesLE bs.length (ofBytesLE bs) = bs := by
  induction bs with
  | nil => rfl
  | cons b bs ih =>
    simp only [List.length_cons, bytesLE, ofBytesLE]
    have h1 : (b.val + 256 * ofBytesLE bs) % 256 = b.val := by
      have := b.isLt
      omega
    have h2 : (b.val + 256 * ofBytesLE bs) / 256 = ofBytesLE bs := by
      have := b.isLt
      omega
    rw [h2, ih]
    congr 1
    exact Fin.ext h1

theorem ofBytesLE_bytesLE (w x : Nat) : ofBytesLE (bytesLE w x) = x % 256 ^ w := by
  induction w generalizing x with
  | zero => simp [bytesLE, ofBytesLE, Nat.mod_one]
  | succ w ih =>
    simp only [bytesLE, ofBytesLE, ih]
    rw [pow_succ, mul_comm (256 ^ w) 256, Nat.mod_mul]

theorem bytesLE_bswap (w x : Nat) : bytesLE w (bswap w x) = (bytesLE w x).reverse := by
  unfold bswap
  have h := bytesLE_ofBytesLE (bytesLE w x).reverse
  rw [List.length_reverse, bytesLE_length] at h
  exact h

theorem writeBits_hton (o : Options) (w x : Nat) :
    writeBits o w (hton o w x) = wireBytes o w x := by
  unfold writeBits hton wireBytes
  cases o.little_endian_encoding <;> cases o.hostLittleEndian <;>
    simp [bytesLE_bswap]

/-- C1 at the failing input `Text{s = "a"}`: the encoding is the header, the
length prefix 2, the byte of `a` and eight zero bytes; decoding it returns an
instance whose `s` holds the two bytes `a` and `0x00`, not the message.  Two
more inputs: decoding the encoding of a `Polygon` (four `Point` elements) and
of a `Path` without points (a member of two dimensions) throws. -/
theorem roundTrip_evaluation :
    encodedBytes (emitEncode networkOrder [textStruct] 1 HashCache.init textStruct
        (.obj [("s", .str [97])])) =
      [0, 0, 0, 0, 0, 0, 0, 170, 0, 0, 0, 2, 97, 0, 0, 0, 0, 0, 0, 0, 0] ∧
    roundTrip networkOrder [textStruct] 1 HashCache.init textStruct (.obj [("s", .str [97])]) =
      .ok (.obj [("s", .str [97, 0])]) ∧
    JVal.obj [("s", .str [97, 0])] ≠ .obj [("s", .str [97])] ∧
    roundTrip networkOrder [pointStruct, polygonStruct] 2 HashCache.init polygonStruct
        (.obj [("corners", .arr [4] [pointValue, pointValue, pointValue, pointValue])]) =
      .error .fieldError ∧
    roundTrip networkOrder [pathStruct] 1 HashCache.init pathStruct
        (.obj [("n", .num 0), ("pts", .arr [0, 2] [])]) = .error .methodError := by
  refine ⟨by rfl, by rfl, by simp, by rfl, by rfl⟩

/-- C10 at the failing input `Samples{a = [1, 2]}`: after `encode` the elements
of `a` hold the byte-swapped values `0x01000000` and `0x02000000`. -/
theorem encode_mutates_array_evaluation :
    messageAfter (emitEncode networkOrder [samplesStruct] 1 HashCache.init samplesStruct
        (.obj [("a", .arr [2] [.num 1, .num 2])])) =
      some (.obj [("a", .arr [2] [.num 16777216, .num 33554432])]) ∧
    JVal.obj [("a", .arr [2] [.num 16777216, .num 33554432])] ≠
      .obj [("a", .arr [2] [.num 1, .num 2])] := by
  refine ⟨by rfl, by simp⟩

/-- C9 as the code has it: the statements emitted for a scalar string member
append the four bytes of `length + 1` in wire order, the bytes of the string,
and the eight bytes of the `Int64` zero that `write(buf, 0)` writes; that is
`4 + sizeof(s) + 8` bytes. -/
theorem string_member_encoding (o : Options) (structs : List ZCMStruct)
    (encodeOne : ZCMStruct → JVal → List Byte → Except JlError (JVal × List Byte))
    (lm : ZCMMember) (data buf : List Byte) (htn : lm.type.fullname = "string")
    (hlen : strLength data + 1 < 2 ^ 32) :
    emitEncodeSingleMember o structs encodeOne lm (.str data) buf =
      .ok (.str data, buf ++ wireBytes o 4 (strLength data + 1) ++ data ++
        [0, 0, 0, 0, 0, 0, 0, 0]) ∧
    (wireBytes o 4 (strLength data + 1) ++ data ++ ([0, 0, 0, 0, 0, 0, 0, 0] : List Byte)).length =
      4 + data.length + 8 := by
  constructor
  · unfold emitEncodeSingleMember
    simp only [htn, beq_self_eq_true, ↓reduceIte, hlen, writeBits_hton]
    have hz : writeBits o 8 0 = [0, 0, 0, 0, 0, 0, 0, 0] := by
      unfold writeBits
      cases o.hostLittleEndian <;> rfl
    rw [hz]
  · simp only [List.length_append, List.length_cons, List.length_nil]
    have : (wireBytes o 4 (strLength data + 1)).length = 4 := by
      unfold wireBytes
      split <;> simp [bytesLE_length]
    omega

theorem string_member_encoding_witness :
    emitEncodeSingleMember networkOrder [textStruct] (emitEncodeOne networkOrder [textStruct] 0)
        ⟨⟨"string", "", "string"⟩, "s", [], ""⟩ (.str [97]) [] =
      .ok (.str [97], [] ++ wireBytes networkOrder 4 (strLength [97] + 1) ++ [97] ++
        [0, 0, 0, 0, 0, 0, 0, 0]) ∧
    (wireBytes networkOrder 4 (strLength [97] + 1) ++ [97] ++
      ([0, 0, 0, 0, 0, 0, 0, 0] : List Byte)).length = 4 + [97].length + 8 :=
  string_member_encoding networkOrder [textStruct] _ _ [97] [] rfl (by decide)

theorem read_ne_decodeError (buf : List Byte) (nb : Int) :
    read buf nb ≠ .error .decodeError := by
  unfold read
  split <;> simp

theorem first_ne_decodeError (xs : List Nat) : first xs ≠ .error .decodeError := by
  cases xs <;> simp [first]

theorem getfield_ne_decodeError (msg : JVal) (name : String) :
    getfield msg name ≠ .error .decodeError := by
  unfold getfield
  split
  · split <;> simp
  · simp

theorem memberExtent_ne_decodeError (ls : ZCMStruct) (msg : JVal) (name : String) :
    memberExtent ls msg name ≠ .error .decodeError := by
  unfold memberExtent
  split
  · rename_i e h
    intro hc
    simp only [Except.error.injEq] at hc
    subst hc
    exact getfield_ne_decodeError _ _ h
  · split
    · simp
    · simp only
      split
      · simp
      · split <;> simp
  · simp

theorem dimExtent_ne_decodeError (ls : ZCMStruct) (msg : JVal) (dim : ZCMDimension) :
    dimExtent ls msg dim ≠ .error .decodeError := by
  cases dim with
  | ZCM_CONST size => simp [dimExtent]
  | ZCM_VAR size => exact memberExtent_ne_decodeError ls msg size

theorem convertField_ne_decodeError (ndim : Nat) (v : JVal) :
    convertField ndim v ≠ .error .decodeError := by
  unfold convertField
  split
  · simp
  · split
    · split <;> simp
    · simp

theorem emitMemberInitializer_ne_decodeError (ctor : String → Except JlError JVal)
    (hctor : ∀ tn, ctor tn ≠ .error .decodeError) (lm : ZCMMember) (dims : List ZCMDimension) :
    emitMemberInitializer ctor lm dims ≠ .error .decodeError := by
  induction dims with
  | nil =>
    unfold emitMemberInitializer
    simp only
    split
    · simp
    · split
      · simp
      · exact hctor _
  | cons dim rest ih =>
    cases dim with
    | ZCM_VAR size => simp [emitMemberInitializer]
    | ZCM_CONST size =>
      unfold emitMemberInitializer
      split
      · simp
      · cases h : emitMemberInitializer ctor lm rest with
        | error e =>
          intro hc
          simp only [Except.error.injEq] at hc
          subst hc
          exact ih h
        | ok v => simp

theorem emitInstance_members_ne_decodeError (ctor : String → Except JlError JVal)
    (hctor : ∀ tn, ctor tn ≠ .error .decodeError) (ms : List ZCMMember) :
    emitInstance_members ctor ms ≠ .error .decodeError := by
  induction ms with
  | nil => simp [emitInstance_members]
  | cons lm rest ih =>
    unfold emitInstance_members
    cases h1 : emitMemberInitializer ctor lm lm.dimensions with
    | error e =>
      intro hc
      simp only [Except.error.injEq] at hc
      subst hc
      exact emitMemberInitializer_ne_decodeError ctor hctor lm _ h1
    | ok v =>
      simp only
      cases h2 : convertField lm.dimensions.length v with
      | error e =>
        intro hc
        simp only [Except.error.injEq] at hc
        subst hc
        exact convertField_ne_decodeError _ _ h2
      | ok v1 =>
        simp only
        cases h3 : emitInstance_members ctor rest with
        | error e =>
          intro hc
          simp only [Except.error.injEq] at hc
          subst hc
          exact ih h3
        | ok fields => simp

theorem emitInstance_ne_decodeError (structs : List ZCMStruct) (fuel : Nat) (ls : ZCMStruct) :
    emitInstance structs fuel ls ≠ .error .decodeError := by
  induction fuel generalizing ls with
  | zero => simp [emitInstance]
  | succ fuel ih =>
    unfold emitInstance
    have hctor : ∀ tn, (match findStruct structs tn with
        | none => Except.error JlError.undefVarError
        | some ls1 => emitInstance structs fuel ls1) ≠ .error .decodeError := by
      intro tn
      split
      · simp
      · exact ih _
    cases h : emitInstance_members (fun tn =>
        match findStruct structs tn with
        | none => Except.error JlError.undefVarError
        | some ls1 => emitInstance structs fuel ls1) ls.members with
    | error e =>
      intro hc
      simp only [Except.error.injEq] at hc
      subst hc
      exact emitInstance_members_ne_decodeError _ hctor _ h
    | ok fields => simp

theorem error_ne_decodeError {α β : Type} {x : Except JlError α} {e : JlError}
    (h : x = .error e) (hx : x ≠ .error .decodeError) :
    (Except.error e : Except JlError β) ≠ .error .decodeError := by
  intro hc
  simp only [Except.error.injEq] at hc
  subst hc
  exact hx h

theorem emitDecodeSingleMember_ne_decodeError (o : Options)
    (lm : ZCMMember) (buf : List Byte) :
    emitDecodeSingleMember o lm buf ≠ .error .decodeError := by
  unfold emitDecodeSingleMember
  simp only
  split
  · split
    · rename_i h
      exact error_ne_decodeError h (read_ne_decodeError _ _)
    · split
      · rename_i h
        exact error_ne_decodeError h (first_ne_decodeError _)
      · split
        · rename_i h
          exact error_ne_decodeError h (read_ne_decodeError _ _)
        · simp
  · split
    · split
      · rename_i h
        exact error_ne_decodeError h (read_ne_decodeError _ _)
      · split
        · rename_i h
          exact error_ne_decodeError h (first_ne_decodeError _)
        · simp
    · split
      · split
        · rename_i h
          exact error_ne_decodeError h (read_ne_decodeError _ _)
        · split
          · rename_i h
            exact error_ne_decodeError h (first_ne_decodeError _)
          · simp
      · simp

theorem emitDecodeListMember_ne_decodeError (o : Options) (ls : ZCMStruct) (lm : ZCMMember)
    (msg : JVal) (lastDim : ZCMDimension) (buf : List Byte) :
    emitDecodeListMember o ls lm msg lastDim buf ≠ .error .decodeError := by
  have hnb : (match lastDim with
      | .ZCM_CONST size =>
        Except.ok (toInt32 ((size * getPrimitiveTypeSize lm.type.fullname : Nat) : Int))
      | .ZCM_VAR size =>
        match memberExtent ls msg size with
        | .error e => .error e
        | .ok n => .ok (toInt64 (n * (getPrimitiveTypeSize lm.type.fullname : Nat)))) ≠
      .error .decodeError := by
    split
    · simp
    · split
      · rename_i h
        exact error_ne_decodeError h (memberExtent_ne_decodeError _ _ _)
      · simp
  unfold emitDecodeListMember
  simp only
  split
  · split
    · rename_i h
      exact error_ne_decodeError h hnb
    · split
      · rename_i h
        exact error_ne_decodeError h (read_ne_decodeError _ _)
      · simp
  · split
    · split
      · rename_i h
        exact error_ne_decodeError h hnb
      · split
        · rename_i h
          exact error_ne_decodeError h (read_ne_decodeError _ _)
        · simp
    · simp

theorem emitDecodeOne_member_ne_decodeError (o : Options)
    (ls : ZCMStruct) (lm : ZCMMember) (msg : JVal) (buf : List Byte) :
    emitDecodeOne_member o ls lm msg buf ≠ .error .decodeError := by
  unfold emitDecodeOne_member
  split
  · split
    · rename_i h
      exact error_ne_decodeError h (emitDecodeSingleMember_ne_decodeError o _ _)
    · simp
  · split
    · split
      · rename_i h
        exact error_ne_decodeError h (emitDecodeListMember_ne_decodeError _ _ _ _ _ _)
      · simp
    · split
      · rename_i h
        exact error_ne_decodeError h (dimExtent_ne_decodeError _ _ _)
      · split <;> simp
  · simp

theorem emitDecodeOne_members_ne_decodeError (o : Options)
    (ls : ZCMStruct) (ms : List ZCMMember) (msg : JVal) (buf : List Byte) :
    emitDecodeOne_members o ls ms msg buf ≠ .error .decodeError := by
  induction ms generalizing msg buf with
  | nil => simp [emitDecodeOne_members]
  | cons lm rest ih =>
    unfold emitDecodeOne_members
    split
    · rename_i h
      exact error_ne_decodeError h (emitDecodeOne_member_ne_decodeError o _ _ _ _)
    · exact ih _ _

theorem emitDecodeOne_ne_decodeError (o : Options) (structs : List ZCMStruct) (fuel : Nat)
    (ls : ZCMStruct) (buf : List Byte) :
    emitDecodeOne o structs fuel ls buf ≠ .error .decodeError := by
  cases fuel with
  | zero => simp [emitDecodeOne]
  | succ fuel =>
    simp only [emitDecodeOne]
    split
    · rename_i h
      exact error_ne_decodeError h (emitInstance_ne_decodeError _ _ _)
    · exact emitDecodeOne_members_ne_decodeError o _ _ _ _

theorem prepend_ok (buf : List Byte) (x : JVal) (b : List Byte) :
    prepend buf (.ok (x, b)) = .ok (x, buf ++ b) := rfl

theorem prepend_error (buf : List Byte) (e : JlError) :
    prepend buf (.error e) = .error e := rfl

theorem prepend_prepend (b1 b2 : List Byte) (r : Except JlError (JVal × List Byte)) :
    prepend b1 (prepend b2 r) = prepend (b1 ++ b2) r := by
  cases r with
  | error e => rfl
  | ok p => simp [prepend, List.append_assoc]

theorem forLoop_prepend (body : Nat → JVal × List Byte → Except JlError (JVal × List Byte))
    (hbody : ∀ i x buf, body i (x, buf) = prepend buf (body i (x, [])))
    (count i : Nat) (x : JVal) (buf : List Byte) :
    forLoop body count i (x, buf) = prepend buf (forLoop body count i (x, [])) := by
  induction count generalizing i x buf with
  | zero => simp [forLoop, prepend]
  | succ count ih =>
    unfold forLoop
    rw [hbody i x buf]
    cases h : body i (x, []) with
    | error e => simp [prepend]
    | ok p =>
      obtain ⟨x1, b1⟩ := p
      simp only [prepend_ok]
      rw [ih (i + 1) x1 (buf ++ b1), ih (i + 1) x1 b1, prepend_prepend]

theorem emitEncodeSingleMember_prepend (o : Options) (structs : List ZCMStruct)
    (encodeOne : ZCMStruct → JVal → List Byte → Except JlError (JVal × List Byte))
    (henc : ∀ ls x buf, encodeOne ls x buf = prepend buf (encodeOne ls x []))
    (lm : ZCMMember) (x : JVal) (buf : List Byte) :
    emitEncodeSingleMember o structs encodeOne lm x buf =
      prepend buf (emitEncodeSingleMember o structs encodeOne lm x []) := by
  unfold emitEncodeSingleMember
  simp only
  split
  · split
    · split <;> simp [prepend, List.append_assoc]
    · simp [prepend, List.append_assoc]
    · simp [prepend]
  · split
    · split <;> simp [prepend]
    · split
      · split <;> simp [prepend]
      · split
        · simp [prepend]
        · exact henc _ _ _

theorem emitEncodeListMember_prepend (o : Options) (lm : ZCMMember) (x : JVal) (len : Int)
    (buf : List Byte) :
    emitEncodeListMember o lm x len buf = prepend buf (emitEncodeListMember o lm x len []) := by
  unfold emitEncodeListMember
  simp only
  split
  · split
    · split
      · split <;> simp [prepend]
      · simp [prepend]
    · simp [prepend]
  · simp [prepend]

theorem emitEncodeOne_dims_prepend
    (single : JVal → List Byte → Except JlError (JVal × List Byte))
    (bulk : JVal → Int → List Byte → Except JlError (JVal × List Byte))
    (hsingle : ∀ x buf, single x buf = prepend buf (single x []))
    (hbulk : ∀ x len buf, bulk x len buf = prepend buf (bulk x len []))
    (extent : ZCMDimension → Except JlError Int) (isList : Bool)
    (dims : List ZCMDimension) (x : JVal) (buf : List Byte) :
    emitEncodeOne_dims single bulk extent isList dims x buf =
      prepend buf (emitEncodeOne_dims single bulk extent isList dims x []) := by
  induction dims generalizing x buf with
  | nil => simp [emitEncodeOne_dims, prepend]
  | cons dim rest ih =>
    cases rest with
    | nil =>
      unfold emitEncodeOne_dims
      cases extent dim with
      | error e => simp [prepend]
      | ok len =>
        simp only
        split
        · exact hbulk _ _ _
        · apply forLoop_prepend
          intro i y b
          simp only
          cases getindex y i with
          | error e => simp [prepend]
          | ok xi =>
            simp only
            rw [hsingle xi b]
            cases single xi [] with
            | error e => simp [prepend]
            | ok r => simp [prepend]
    | cons d2 rest2 =>
      unfold emitEncodeOne_dims
      cases extent dim with
      | error e => simp [prepend]
      | ok n =>
        simp only
        apply forLoop_prepend
        intro i y b
        simp only
        cases getindex y i with
        | error e => simp [prepend]
        | ok xi =>
          simp only
          rw [ih xi b]
          cases emitEncodeOne_dims single bulk extent isList (d2 :: rest2) xi [] with
          | error e => simp [prepend]
          | ok r => simp [prepend]

theorem emitEncodeOne_member_prepend (o : Options) (structs : List ZCMStruct)
    (encodeOne : ZCMStruct → JVal → List Byte → Except JlError (JVal × List Byte))
    (henc : ∀ ls x buf, encodeOne ls x buf = prepend buf (encodeOne ls x []))
    (ls : ZCMStruct) (lm : ZCMMember) (msg : JVal) (buf : List Byte) :
    emitEncodeOne_member o structs encodeOne ls lm msg buf =
      prepend buf (emitEncodeOne_member o structs encodeOne ls lm msg []) := by
  unfold emitEncodeOne_member
  cases getfield msg lm.membername with
  | error e => simp [prepend]
  | ok x =>
    simp only
    by_cases hd : lm.dimensions.isEmpty = true
    · simp only [hd, ↓reduceIte]
      rw [emitEncodeSingleMember_prepend o structs encodeOne henc lm x buf]
      cases emitEncodeSingleMember o structs encodeOne lm x [] with
      | error e => simp [prepend]
      | ok r => simp [prepend]
    · simp only [hd, Bool.false_eq_true, ↓reduceIte]
      rw [emitEncodeOne_dims_prepend _ _
        (emitEncodeSingleMember_prepend o structs encodeOne henc lm)
        (emitEncodeListMember_prepend o lm) _ _ _ x buf]
      cases emitEncodeOne_dims (emitEncodeSingleMember o structs encodeOne lm)
        (emitEncodeListMember o lm) (dimExtent ls msg)
        (isPrimitiveType lm.type.fullname && lm.type.fullname != "string")
        lm.dimensions x [] with
      | error e => simp [prepend]
      | ok r => simp [prepend]

theorem emitEncodeOne_members_prepend (o : Options) (structs : List ZCMStruct)
    (encodeOne : ZCMStruct → JVal → List Byte → Except JlError (JVal × List Byte))
    (henc : ∀ ls x buf, encodeOne ls x buf = prepend buf (encodeOne ls x []))
    (ls : ZCMStruct) (ms : List ZCMMember) (msg : JVal) (buf : List Byte) :
    emitEncodeOne_members o structs encodeOne ls ms msg buf =
      prepend buf (emitEncodeOne_members o structs encodeOne ls ms msg []) := by
  induction ms generalizing msg buf with
  | nil => simp [emitEncodeOne_members, prepend]
  | cons lm rest ih =>
    unfold emitEncodeOne_members
    rw [emitEncodeOne_member_prepend o structs encodeOne henc ls lm msg buf]
    cases h : emitEncodeOne_member o structs encodeOne ls lm msg [] with
    | error e => simp [prepend]
    | ok r =>
      obtain ⟨m1, b1⟩ := r
      simp only [prepend_ok]
      rw [ih m1 (buf ++ b1), ih m1 b1, prepend_prepend]

theorem emitEncodeOne_prepend (o : Options) (structs : List ZCMStruct) (fuel : Nat)
    (ls : ZCMStruct) (msg : JVal) (buf : List Byte) :
    emitEncodeOne o structs fuel ls msg buf = prepend buf (emitEncodeOne o structs fuel ls msg []) := by
  induction fuel generalizing ls msg buf with
  | zero => simp [emitEncodeOne, prepend]
  | succ fuel ih =>
    unfold emitEncodeOne
    exact emitEncodeOne_members_prepend o structs _ ih ls _ msg buf

theorem reinterpret_of_length (o : Options) (w : Nat) (hw : 0 < w) (bs : List Byte)
    (h : bs.length = w) : reinterpret o w bs = [bitsOfBytes o bs] := by
  unfold reinterpret
  rw [h, Nat.div_self hw]
  simp only [chunks]
  rw [← h, List.take_length]

theorem ntoh_bitsOfBytes (o : Options) (bs : List Byte) :
    ntoh o bs.length (bitsOfBytes o bs) = wireValue o bs := by
  have h1 : bswap bs.length (ofBytesLE bs) = ofBytesLE bs.reverse := by
    unfold bswap
    rw [bytesLE_ofBytesLE]
  have h2 : bswap bs.length (ofBytesLE bs.reverse) = ofBytesLE bs := by
    have := bytesLE_ofBytesLE bs.reverse
    rw [List.length_reverse] at this
    unfold bswap
    rw [this, List.reverse_reverse]
  unfold ntoh bitsOfBytes wireValue
  cases o.little_endian_encoding <;> cases o.hostLittleEndian <;> simp [h1, h2]

theorem wireBytes_length (o : Options) (w x : Nat) : (wireBytes o w x).length = w := by
  unfold wireBytes
  split <;> simp [bytesLE_length]

theorem wireValue_wireBytes (o : Options) (w x : Nat) :
    wireValue o (wireBytes o w x) = x % 256 ^ w := by
  unfold wireValue wireBytes
  cases o.little_endian_encoding <;> simp [ofBytesLE_bytesLE]

theorem mixHash_lt (h : Nat) : mixHash h < 2 ^ 64 := by
  unfold mixHash
  exact Nat.mod_lt _ (by norm_num)

theorem emitGetHash_lt (structs : List ZCMStruct) (c c1 : HashCache) (ls : ZCMStruct) (h : Nat)
    (hc : ∀ k, c k < 2 ^ 64) (hh : emitGetHash structs c ls = .ok (h, c1)) : h < 2 ^ 64 := by
  unfold emitGetHash at hh
  rw [emitGetHash_recursive_succ] at hh
  split at hh
  · simp only [Except.ok.injEq, Prod.mk.injEq] at hh
    rw [← hh.1]
    exact hc _
  · split at hh
    · simp only [Except.ok.injEq, Prod.mk.injEq] at hh
      rw [← hh.1]
      norm_num
    · split at hh
      · simp at hh
      · simp only [Except.ok.injEq, Prod.mk.injEq] at hh
        rw [← hh.1]
        exact mixHash_lt _

theorem emitDecode_of_length (o : Options) (structs : List ZCMStruct) (fuel : Nat)
    (c c1 : HashCache) (ls : ZCMStruct) (data : List Byte) (h : Nat) (hlen : 8 ≤ data.length)
    (hhash : emitGetHash structs c ls = .ok (h, c1)) :
    emitDecode o structs fuel c ls data =
      if wireValue o (data.take 8) ≠ h then .error .decodeError
      else
        match emitDecodeOne o structs fuel ls (data.drop 8) with
        | .error e => .error e
        | .ok r => .ok (r.1, c1) := by
  have htake : (data.take 8).length = 8 := by
    rw [List.length_take]
    omega
  have h8 : Int.toNat 8 = 8 := rfl
  unfold emitDecode read
  simp only [show ¬ ((8 : Int) < 0) by decide, ↓reduceIte, h8]
  rw [reinterpret_of_length o 8 (by decide) _ htake]
  simp only [first, hhash]
  have := ntoh_bitsOfBytes o (data.take 8)
  rw [htake] at this
  rw [this]

/-- C6 (fingerprint mismatch detection): for every struct and every buffer of
at least 8 bytes, with `h` the value `getHash` returns, the emitted `decode`
throws its `"Decode error"` exactly when the first 8 bytes, read in wire order,
differ from `h`; this holds for every recursion budget, the budget 0 under
which `_decode_one` cannot run included, so no member is decoded and no value
is returned.  In particular the bytes `encode` returns for a struct whose
`getHash` value `hU` differs from `h` are rejected. -/
theorem decode_fingerprint_mismatch (o : Options) (structs : List ZCMStruct) (fuel : Nat)
    (c c1 : HashCache) (ls : ZCMStruct) (data : List Byte) (h : Nat)
    (hlen : 8 ≤ data.length) (hhash : emitGetHash structs c ls = .ok (h, c1)) :
    (emitDecode o structs fuel c ls data = .error .decodeError ↔
      wireValue o (data.take 8) ≠ h) ∧
    (∀ (fuelU : Nat) (cU cU1 : HashCache) (lsU : ZCMStruct) (msg msg1 : JVal)
        (bytes : List Byte) (hU : Nat),
      (∀ k, cU k < 2 ^ 64) → hashValue (emitGetHash structs cU lsU) = some hU →
      emitEncode o structs fuelU cU lsU msg = .ok (bytes, msg1, cU1) → hU ≠ h →
      emitDecode o structs fuel c ls bytes = .error .decodeError) := by
  constructor
  · rw [emitDecode_of_length o structs fuel c c1 ls data h hlen hhash]
    constructor
    · intro hd
      by_contra hne
      rw [if_neg (not_not.mpr hne)] at hd
      cases hdec : emitDecodeOne o structs fuel ls (data.drop 8) with
      | error e =>
        rw [hdec] at hd
        simp only [Except.error.injEq] at hd
        subst hd
        exact emitDecodeOne_ne_decodeError o structs fuel ls _ hdec
      | ok r =>
        rw [hdec] at hd
        simp at hd
    · intro hne
      rw [if_pos hne]
  · intro fuelU cU cU1 lsU msg msg1 bytes hU hrange hval henc hne
    unfold emitEncode at henc
    cases hg : emitGetHash structs cU lsU with
    | error e => rw [hg] at henc; simp at henc
    | ok r =>
      obtain ⟨hU1, cU2⟩ := r
      rw [hg] at hval henc
      simp only [hashValue, Option.some.injEq] at hval
      subst hval
      simp only [List.nil_append] at henc
      rw [emitEncodeOne_prepend, writeBits_hton] at henc
      cases hp : emitEncodeOne o structs fuelU lsU msg [] with
      | error e => rw [hp] at henc; simp [prepend] at henc
      | ok r =>
        obtain ⟨m, p⟩ := r
        rw [hp] at henc
        simp only [prepend, Except.ok.injEq, Prod.mk.injEq] at henc
        obtain ⟨hbytes, _, _⟩ := henc
        have hlen2 : 8 ≤ bytes.length := by
          rw [← hbytes, List.length_append, wireBytes_length]
          omega
        rw [emitDecode_of_length o structs fuel c c1 ls bytes h hlen2 hhash]
        have htake : bytes.take 8 = wireBytes o 8 hU1 := by
          rw [← hbytes]
          exact List.take_left' (wireBytes_length o 8 hU1)
        rw [htake, wireValue_wireBytes]
        have hlt := emitGetHash_lt structs cU cU2 lsU hU1 hrange hg
        rw [Nat.mod_eq_of_lt (by norm_num at hlt ⊢; exact hlt)]
        rw [if_pos hne]

theorem SameFrame.refl (x : JVal) : SameFrame x x := Or.inl rfl

theorem SameFrame.trans {x y z : JVal} (h1 : SameFrame x y) (h2 : SameFrame y z) :
    SameFrame x z := by
  rcases h1 with rfl | ⟨hx, hy⟩
  · exact h2
  · rcases h2 with rfl | ⟨_, hz⟩
    · exact Or.inr ⟨hx, hy⟩
    · exact Or.inr ⟨hx, hz⟩

theorem sameFrame_setfield (msg : JVal) (name : String) (v : JVal) :
    SameFrame msg (setfield msg name v) := by
  cases msg with
  | obj fields => exact Or.inr ⟨rfl, rfl⟩
  | num b => exact Or.inl rfl
  | str d => exact Or.inl rfl
  | chr d => exact Or.inl rfl
  | arr dims elems => exact Or.inl rfl

theorem sameFrame_putback (x : JVal) (i : Nat) (v : JVal) : SameFrame x (putback x i v) := by
  cases x with
  | arr dims elems => exact Or.inr ⟨rfl, rfl⟩
  | num b => exact Or.inl rfl
  | str d => exact Or.inl rfl
  | chr d => exact Or.inl rfl
  | obj fields => exact Or.inl rfl

theorem lookup_map_ne (fields : List (String × JVal)) (name n : String) (v : JVal)
    (h : name ≠ n) :
    (fields.map (fun p => if p.1 = n then (p.1, v) else p)).lookup name = fields.lookup name := by
  induction fields with
  | nil => rfl
  | cons p rest ih =>
    obtain ⟨k, x⟩ := p
    by_cases hk : k = n
    · subst hk
      have hne : (name == k) = false := by simpa using h
      simp only [List.map_cons, ↓reduceIte, List.lookup_cons, hne, ih]
    · by_cases hnk : name = k
      · subst hnk
        simp only [List.map_cons, hk, ↓reduceIte, List.lookup_cons, beq_self_eq_true]
      · have hne : (name == k) = false := by simpa using hnk
        simp only [List.map_cons, hk, ↓reduceIte, List.lookup_cons, hne, ih]

theorem lookup_map_eq (fields : List (String × JVal)) (n : String) (v x : JVal)
    (h : fields.lookup n = some x) :
    (fields.map (fun p => if p.1 = n then (p.1, v) else p)).lookup n = some v := by
  induction fields with
  | nil => simp at h
  | cons p rest ih =>
    obtain ⟨k, y⟩ := p
    by_cases hk : k = n
    · subst hk
      simp only [List.map_cons, ↓reduceIte, List.lookup_cons, beq_self_eq_true]
    · have hne : (n == k) = false := by
        simpa using fun hc : n = k => hk hc.symm
      simp only [List.lookup_cons, hne] at h
      simp only [List.map_cons, hk, ↓reduceIte, List.lookup_cons, hne]
      exact ih h

theorem getfield_setfield_ne (msg : JVal) (name n : String) (v : JVal) (h : name ≠ n) :
    getfield (setfield msg n v) name = getfield msg name := by
  cases msg with
  | obj fields =>
    simp only [setfield, getfield]
    rw [lookup_map_ne fields name n v h]
  | num b => rfl
  | str d => rfl
  | chr d => rfl
  | arr dims elems => rfl

theorem getfield_setfield_eq (msg : JVal) (n : String) (v x : JVal)
    (h : getfield msg n = .ok x) : getfield (setfield msg n v) n = .ok v := by
  cases msg with
  | obj fields =>
    simp only [getfield] at h
    cases hl : fields.lookup n with
    | none => rw [hl] at h; simp at h
    | some y =>
      simp only [setfield, getfield]
      rw [lookup_map_eq fields n v y hl]
  | num b => simp [getfield] at h
  | str d => simp [getfield] at h
  | chr d => simp [getfield] at h
  | arr dims elems => simp [getfield] at h

theorem memberExtent_of_not_num (ls : ZCMStruct) (msg : JVal) (name : String) (x : JVal)
    (h : getfield msg name = .ok x) (hx : isNum x = false) :
    memberExtent ls msg name = .error .methodError := by
  unfold memberExtent
  rw [h]
  cases x with
  | num b => simp [isNum] at hx
  | str d => rfl
  | chr d => rfl
  | arr dims elems => rfl
  | obj fields => rfl

theorem memberExtent_congr (ls : ZCMStruct) (msg msg1 : JVal) (name : String)
    (h : getfield msg1 name = getfield msg name) :
    memberExtent ls msg1 name = memberExtent ls msg name := by
  unfold memberExtent
  rw [h]

theorem memberExtent_setfield (ls : ZCMStruct) (msg : JVal) (n : String) (x x1 : JVal)
    (hx : getfield msg n = .ok x) (hf : SameFrame x x1) (name : String) :
    memberExtent ls (setfield msg n x1) name = memberExtent ls msg name := by
  by_cases hn : name = n
  · subst hn
    rcases hf with h0 | ⟨h1, h2⟩
    · exact memberExtent_congr ls _ _ _ (by rw [getfield_setfield_eq msg name _ x hx, hx, h0])
    · rw [memberExtent_of_not_num ls _ name x1 (getfield_setfield_eq msg name x1 x hx) h2,
        memberExtent_of_not_num ls msg name x hx h1]
  · exact memberExtent_congr ls _ _ _ (getfield_setfield_ne msg name n x1 hn)

theorem emitEncodeSingleMember_frame (o : Options) (structs : List ZCMStruct)
    (encodeOne : ZCMStruct → JVal → List Byte → Except JlError (JVal × List Byte))
    (henc : ∀ ls x buf r, encodeOne ls x buf = .ok r → SameFrame x r.1)
    (lm : ZCMMember) (x : JVal) (buf : List Byte) (r : JVal × List Byte)
    (h : emitEncodeSingleMember o structs encodeOne lm x buf = .ok r) : SameFrame x r.1 := by
  unfold emitEncodeSingleMember at h
  simp only at h
  split at h
  · split at h
    · split at h
      · simp only [Except.ok.injEq] at h
        rw [← h]
        exact SameFrame.refl _
      · simp at h
    · simp only [Except.ok.injEq] at h
      rw [← h]
      exact SameFrame.refl _
    · simp at h
  · split at h
    · split at h
      · simp only [Except.ok.injEq] at h
        rw [← h]
        exact SameFrame.refl _
      · simp at h
    · split at h
      · split at h
        · simp only [Except.ok.injEq] at h
          rw [← h]
          exact SameFrame.refl _
        · simp at h
      · split at h
        · simp at h
        · exact henc _ _ _ _ h

theorem emitEncodeListMember_frame (o : Options) (lm : ZCMMember) (x : JVal) (len : Int)
    (buf : List Byte) (r : JVal × List Byte)
    (h : emitEncodeListMember o lm x len buf = .ok r) : SameFrame x r.1 := by
  unfold emitEncodeListMember at h
  simp only at h
  split at h
  · split at h
    · split at h
      · split at h
        · simp at h
        · simp only [Except.ok.injEq] at h
          rw [← h]
          exact Or.inr ⟨rfl, rfl⟩
      · simp at h
    · simp at h
  · simp at h

theorem forLoop_invariant {σ : Type} (body : Nat → σ → Except JlError σ) (Inv : σ → Prop)
    (hbody : ∀ i s s1, Inv s → body i s = .ok s1 → Inv s1)
    (count i : Nat) (s s1 : σ) (hs : Inv s) (h : forLoop body count i s = .ok s1) : Inv s1 := by
  induction count generalizing i s with
  | zero =>
    simp only [forLoop, Except.ok.injEq] at h
    rw [← h]
    exact hs
  | succ count ih =>
    unfold forLoop at h
    cases hb : body i s with
    | error e => rw [hb] at h; simp at h
    | ok s2 =>
      rw [hb] at h
      exact ih (i + 1) s2 (hbody i s s2 hs hb) h

theorem emitEncodeOne_dims_frame
    (single : JVal → List Byte → Except JlError (JVal × List Byte))
    (bulk : JVal → Int → List Byte → Except JlError (JVal × List Byte))
    (hbulk : ∀ x len buf r, bulk x len buf = .ok r → SameFrame x r.1)
    (extent : ZCMDimension → Except JlError Int) (isList : Bool)
    (dims : List ZCMDimension) (x : JVal) (buf : List Byte) (r : JVal × List Byte)
    (h : emitEncodeOne_dims single bulk extent isList dims x buf = .ok r) : SameFrame x r.1 := by
  have hloop : ∀ (body : Nat → JVal × List Byte → Except JlError (JVal × List Byte)),
      (∀ i s s1, body i s = .ok s1 → ∃ v, s1.1 = putback s.1 i v) →
      ∀ count i buf r, forLoop body count i (x, buf) = .ok r → SameFrame x r.1 := by
    intro body hbody count i buf r hr
    refine forLoop_invariant body (fun s => SameFrame x s.1) ?_ count i (x, buf) r
      (SameFrame.refl x) hr
    intro j s s1 hs hb
    obtain ⟨v, hv⟩ := hbody j s s1 hb
    show SameFrame x s1.1
    rw [hv]
    exact SameFrame.trans hs (sameFrame_putback _ _ _)
  cases dims with
  | nil =>
    simp only [emitEncodeOne_dims, Except.ok.injEq] at h
    rw [← h]
    exact SameFrame.refl _
  | cons dim rest =>
    cases rest with
    | nil =>
      unfold emitEncodeOne_dims at h
      cases he : extent dim with
      | error e => rw [he] at h; simp at h
      | ok len =>
        rw [he] at h
        simp only at h
        split at h
        · exact hbulk _ _ _ _ h
        · refine hloop _ ?_ _ _ _ _ h
          intro i s s1 hb
          simp only at hb
          split at hb
          · simp at hb
          · split at hb
            · simp at hb
            · simp only [Except.ok.injEq] at hb
              rw [← hb]
              exact ⟨_, rfl⟩
    | cons d2 rest2 =>
      unfold emitEncodeOne_dims at h
      cases he : extent dim with
      | error e => rw [he] at h; simp at h
      | ok n =>
        rw [he] at h
        simp only at h
        refine hloop _ ?_ _ _ _ _ h
        intro i s s1 hb
        simp only at hb
        split at hb
        · simp at hb
        · split at hb
          · simp at hb
          · simp only [Except.ok.injEq] at hb
            rw [← hb]
            exact ⟨_, rfl⟩

theorem emitEncodeOne_member_result (o : Options) (structs : List ZCMStruct)
    (encodeOne : ZCMStruct → JVal → List Byte → Except JlError (JVal × List Byte))
    (henc : ∀ ls x buf r, encodeOne ls x buf = .ok r → SameFrame x r.1)
    (ls : ZCMStruct) (lm : ZCMMember) (msg : JVal) (buf : List Byte) (r : JVal × List Byte)
    (h : emitEncodeOne_member o structs encodeOne ls lm msg buf = .ok r) :
    ∃ x x1, getfield msg lm.membername = .ok x ∧ SameFrame x x1 ∧
      r.1 = setfield msg lm.membername x1 := by
  unfold emitEncodeOne_member at h
  cases hg : getfield msg lm.membername with
  | error e => rw [hg] at h; simp at h
  | ok x =>
    rw [hg] at h
    simp only at h
    by_cases hd : lm.dimensions.isEmpty = true
    · simp only [hd, ↓reduceIte] at h
      cases hs : emitEncodeSingleMember o structs encodeOne lm x buf with
      | error e => rw [hs] at h; simp at h
      | ok r1 =>
        rw [hs] at h
        simp only [Except.ok.injEq] at h
        refine ⟨x, r1.1, rfl, emitEncodeSingleMember_frame o structs encodeOne henc lm x buf r1 hs, ?_⟩
        rw [← h]
    · simp only [hd, Bool.false_eq_true, ↓reduceIte] at h
      cases hs : emitEncodeOne_dims (emitEncodeSingleMember o structs encodeOne lm)
          (emitEncodeListMember o lm) (dimExtent ls msg)
          (isPrimitiveType lm.type.fullname && lm.type.fullname != "string")
          lm.dimensions x buf with
      | error e => rw [hs] at h; simp at h
      | ok r1 =>
        rw [hs] at h
        simp only [Except.ok.injEq] at h
        refine ⟨x, r1.1, rfl, emitEncodeOne_dims_frame _ _
          (emitEncodeListMember_frame o lm) _ _ _ x buf r1 hs, ?_⟩
        rw [← h]

theorem emitEncodeOne_members_frame (o : Options) (structs : List ZCMStruct)
    (encodeOne : ZCMStruct → JVal → List Byte → Except JlError (JVal × List Byte))
    (henc : ∀ ls x buf r, encodeOne ls x buf = .ok r → SameFrame x r.1)
    (ls : ZCMStruct) (ms : List ZCMMember) (msg : JVal) (buf : List Byte)
    (r : JVal × List Byte)
    (h : emitEncodeOne_members o structs encodeOne ls ms msg buf = .ok r) :
    SameFrame msg r.1 := by
  induction ms generalizing msg buf with
  | nil =>
    simp only [emitEncodeOne_members, Except.ok.injEq] at h
    rw [← h]
    exact SameFrame.refl _
  | cons lm rest ih =>
    unfold emitEncodeOne_members at h
    cases hm : emitEncodeOne_member o structs encodeOne ls lm msg buf with
    | error e => rw [hm] at h; simp at h
    | ok r1 =>
      rw [hm] at h
      obtain ⟨x, x1, _, _, hr1⟩ := emitEncodeOne_member_result o structs encodeOne henc ls lm
        msg buf r1 hm
      have h1 : SameFrame msg r1.1 := by
        rw [hr1]
        exact sameFrame_setfield _ _ _
      exact h1.trans (ih r1.1 r1.2 h)

theorem emitEncodeOne_frame (o : Options) (structs : List ZCMStruct) (fuel : Nat)
    (ls : ZCMStruct) (msg : JVal) (buf : List Byte) (r : JVal × List Byte)
    (h : emitEncodeOne o structs fuel ls msg buf = .ok r) : SameFrame msg r.1 := by
  induction fuel generalizing ls msg buf r with
  | zero => simp [emitEncodeOne] at h
  | succ fuel ih =>
    unfold emitEncodeOne at h
    exact emitEncodeOne_members_frame o structs _ (fun ls x buf r hr => ih ls x buf r hr)
      ls _ msg buf r h

theorem dimExtent_congr (ls : ZCMStruct) (msg msg1 : JVal)
    (hext : ∀ name, memberExtent ls msg1 name = memberExtent ls msg name) :
    dimExtent ls msg1 = dimExtent ls msg := by
  funext dim
  cases dim with
  | ZCM_CONST size => rfl
  | ZCM_VAR size => exact hext size

theorem emitEncodeOne_member_congr (o : Options) (structs : List ZCMStruct)
    (encodeOne : ZCMStruct → JVal → List Byte → Except JlError (JVal × List Byte))
    (ls : ZCMStruct) (lm : ZCMMember) (msg msg1 : JVal) (buf : List Byte)
    (hg : getfield msg1 lm.membername = getfield msg lm.membername)
    (hext : ∀ name, memberExtent ls msg1 name = memberExtent ls msg name) :
    bytesOf (emitEncodeOne_member o structs encodeOne ls lm msg1 buf) =
      bytesOf (emitEncodeOne_member o structs encodeOne ls lm msg buf) := by
  unfold emitEncodeOne_member
  rw [hg, dimExtent_congr ls msg msg1 hext]
  cases getfield msg lm.membername with
  | error e => rfl
  | ok x =>
    simp only
    cases (if lm.dimensions.isEmpty = true then emitEncodeSingleMember o structs encodeOne lm x buf
        else emitEncodeOne_dims (emitEncodeSingleMember o structs encodeOne lm)
          (emitEncodeListMember o lm) (dimExtent ls msg)
          (isPrimitiveType lm.type.fullname && lm.type.fullname != "string")
          lm.dimensions x buf) with
    | error e => rfl
    | ok r => rfl

theorem bytesOf_ok (r : JVal × List Byte) : bytesOf (.ok r) = .ok r.2 := rfl

theorem bytesOf_error (e : JlError) : bytesOf (.error e) = .error e := rfl

theorem bytesOf_prepend (buf : List Byte) (r : Except JlError (JVal × List Byte)) :
    bytesOf (prepend buf r) =
      match bytesOf r with
      | .error e => .error e
      | .ok b => .ok (buf ++ b) := by
  cases r with
  | error e => rfl
  | ok p => rfl

theorem emitEncodeOne_members_layout (o : Options) (structs : List ZCMStruct)
    (encodeOne : ZCMStruct → JVal → List Byte → Except JlError (JVal × List Byte))
    (hpre : ∀ ls x buf, encodeOne ls x buf = prepend buf (encodeOne ls x []))
    (hframe : ∀ ls x buf r, encodeOne ls x buf = .ok r → SameFrame x r.1)
    (ls : ZCMStruct) (msg : JVal) (ms : List ZCMMember)
    (hnodup : (ms.map (fun lm => lm.membername)).Nodup) (msg1 : JVal)
    (hfield : ∀ lm ∈ ms, getfield msg1 lm.membername = getfield msg lm.membername)
    (hext : ∀ name, memberExtent ls msg1 name = memberExtent ls msg name) :
    bytesOf (emitEncodeOne_members o structs encodeOne ls ms msg1 []) =
      concatFields (fun lm => bytesOf (emitEncodeOne_member o structs encodeOne ls lm msg []))
        ms := by
  induction ms generalizing msg1 with
  | nil => rfl
  | cons lm rest ih =>
    have hhead := emitEncodeOne_member_congr o structs encodeOne ls lm msg msg1 []
      (hfield lm (List.mem_cons_self _ _)) hext
    simp only [List.map_cons, List.nodup_cons] at hnodup
    unfold emitEncodeOne_members concatFields
    rw [← hhead]
    cases hm : emitEncodeOne_member o structs encodeOne ls lm msg1 [] with
    | error e => rfl
    | ok r1 =>
      obtain ⟨msg2, b⟩ := r1
      simp only [bytesOf_ok]
      rw [emitEncodeOne_members_prepend o structs encodeOne hpre ls rest msg2 b, bytesOf_prepend]
      obtain ⟨x, x1, hx, hfr, hmsg2⟩ := emitEncodeOne_member_result o structs encodeOne hframe ls
        lm msg1 [] (msg2, b) hm
      simp only at hmsg2
      have hih := ih hnodup.2 msg2
        (by
          intro lm1 hlm1
          have hne : lm1.membername ≠ lm.membername := by
            intro hc
            exact hnodup.1 (hc ▸ List.mem_map_of_mem (fun lm => lm.membername) hlm1)
          rw [hmsg2, getfield_setfield_ne msg1 _ _ x1 hne]
          exact hfield lm1 (List.mem_cons_of_mem _ hlm1))
        (by
          intro name
          rw [hmsg2, memberExtent_setfield ls msg1 lm.membername x x1 hx hfr name]
          exact hext name)
      rw [hih]

theorem primitive_cases (tn : String) (h : isPrimitiveType tn = true)
    (hs : (tn == "string") = false) :
    tn = "int8_t" ∨ tn = "int16_t" ∨ tn = "int32_t" ∨ tn = "int64_t" ∨ tn = "byte" ∨
      tn = "float" ∨ tn = "double" ∨ tn = "boolean" := by
  simp only [isPrimitiveType, Bool.or_eq_true, beq_iff_eq] at h
  simp only [beq_eq_false_iff_ne, ne_eq] at hs
  tauto

theorem getPrimitiveTypeSize_pos (tn : String) (h : isPrimitiveType tn = true)
    (hs : (tn == "string") = false) : 0 < getPrimitiveTypeSize tn := by
  rcases primitive_cases tn h hs with rfl | rfl | rfl | rfl | rfl | rfl | rfl | rfl <;> decide

theorem emitEncodeSingleMember_struct (o : Options) (structs : List ZCMStruct)
    (encodeOne : ZCMStruct → JVal → List Byte → Except JlError (JVal × List Byte))
    (lm : ZCMMember) (x : JVal) (buf : List Byte)
    (hp : isPrimitiveType lm.type.fullname = false) :
    emitEncodeSingleMember o structs encodeOne lm x buf =
      match findStruct structs lm.type.fullname with
      | none => .error .methodError
      | some ls1 => encodeOne ls1 x buf := by
  unfold emitEncodeSingleMember
  generalize lm.type.fullname = tn at *
  simp only [isPrimitiveType, Bool.or_eq_false_iff, beq_eq_false_iff_ne, ne_eq] at hp
  simp [hp]

theorem read_natCast (buf : List Byte) (w : Nat) :
    read buf (w : Int) = .ok (buf.take w, buf.drop w) := by
  unfold read
  simp

theorem decode_fingerprint_mismatch_witness :
    (emitDecode networkOrder [pointStruct, textStruct] 1 HashCache.init textStruct
        [0, 0, 0, 0, 0, 0, 0, 171, 0, 0] = .error .decodeError ↔
      wireValue networkOrder (([0, 0, 0, 0, 0, 0, 0, 171, 0, 0] : List Byte).take 8) ≠ 170) ∧
    emitDecode networkOrder [pointStruct, textStruct] 1 HashCache.init textStruct
      [0, 0, 0, 0, 0, 0, 36, 104, 63, 128, 0, 0, 64, 0, 0, 0] = .error .decodeError :=
  ⟨(decode_fingerprint_mismatch networkOrder [pointStruct, textStruct] 1 HashCache.init
      (HashCache.init.set "Text" 170) textStruct [0, 0, 0, 0, 0, 0, 0, 171, 0, 0] 170
      (by decide) (by rfl)).1,
   (decode_fingerprint_mismatch networkOrder [pointStruct, textStruct] 1 HashCache.init
      (HashCache.init.set "Text" 170) textStruct [0, 0, 0, 0, 0, 0, 0, 171, 0, 0] 170
      (by decide) (by rfl)).2 1 HashCache.init (HashCache.init.set "Point" 9320) pointStruct
      pointValue pointValue [0, 0, 0, 0, 0, 0, 36, 104, 63, 128, 0, 0, 64, 0, 0, 0] 9320
      (by intro k; simp [HashCache.init]) (by rfl) (by rfl) (by decide)⟩

theorem mixHash_eq_shift (h : Nat) (hh : h < 2 ^ 64) :
    mixHash h = (h % 2 ^ 63) * 2 + h / 2 ^ 63 := by
  have hb : h / 2 ^ 63 < 2 := by omega
  rw [mixHash_eq_rotl1, rotl1, Nat.mod_eq_of_lt hb]

/-- C16 (finalization is a rotate-left by one): for every 64-bit value `h`, the
emitted expression `(hash << 1) + ((hash >>> 63) & 0x01)` in `UInt64`
arithmetic is the left rotation of `h` by one bit: the result is a 64-bit
value, its bit 0 is bit 63 of `h`, its bit `i + 1` is bit `i` of `h` for
`i < 63` (bit `i` of `x` being `x / 2 ^ i % 2`), and the addition of the two
operands does not carry out of 64 bits. -/
theorem mixHash_rotates (h : Nat) (hh : h < 2 ^ 64) :
    mixHash h = rotl1 h ∧
    (h * 2) % 2 ^ 64 + (h / 2 ^ 63) % 2 < 2 ^ 64 ∧
    mixHash h < 2 ^ 64 ∧
    mixHash h % 2 = h / 2 ^ 63 % 2 ∧
    ∀ i, i < 63 → mixHash h / 2 ^ (i + 1) % 2 = h / 2 ^ i % 2 := by
  have hm := mixHash_eq_shift h hh
  refine ⟨mixHash_eq_rotl1 h, ?_, ?_, ?_, ?_⟩
  · omega
  · unfold mixHash
    exact Nat.mod_lt _ (by norm_num)
  · rw [hm]
    omega
  · intro i hi
    have h2 : mixHash h / 2 = h % 2 ^ 63 := by
      rw [hm]
      omega
    rw [pow_succ, mul_comm, ← Nat.div_div_eq_div_mul, h2]
    have h3 : 2 ^ 63 = 2 ^ i * 2 ^ (63 - i) := by
      rw [← pow_add]
      congr 1
      omega
    rw [h3, Nat.mod_mul_right_div_self]
    have h4 : 2 ^ (63 - i) = 2 * 2 ^ (63 - i - 1) := by
      rw [← pow_succ']
      congr 1
      omega
    rw [h4, Nat.mod_mul_right_mod]

theorem mixHash_rotates_witness :
    mixHash (2 ^ 63 + 1) = rotl1 (2 ^ 63 + 1) ∧
    ((2 ^ 63 + 1) * 2) % 2 ^ 64 + ((2 ^ 63 + 1) / 2 ^ 63) % 2 < 2 ^ 64 ∧
    mixHash (2 ^ 63 + 1) < 2 ^ 64 ∧
    mixHash (2 ^ 63 + 1) % 2 = (2 ^ 63 + 1) / 2 ^ 63 % 2 ∧
    ∀ i, i < 63 → mixHash (2 ^ 63 + 1) / 2 ^ (i + 1) % 2 = (2 ^ 63 + 1) / 2 ^ i % 2 :=
  mixHash_rotates (2 ^ 63 + 1) (by norm_num)

theorem hashSum_lt (call : HashCache → ZCMTypename → Except JlError (Nat × HashCache))
    (ms : List ZCMMember) (acc : Nat) (c : HashCache) (hacc : acc < 2 ^ 64)
    (r : Nat × HashCache) (h : hashSum call ms acc c = .ok r) : r.1 < 2 ^ 64 := by
  induction ms generalizing acc c with
  | nil =>
    simp only [hashSum, Except.ok.injEq] at h
    subst h
    exact hacc
  | cons lm rest ih =>
    by_cases hp : isPrimitiveType lm.type.fullname = true
    · simp only [hashSum, hp, ↓reduceIte] at h
      exact ih acc c hacc h
    · simp only [hashSum, hp, Bool.false_eq_true, ↓reduceIte] at h
      cases hcall : call c lm.type with
      | error e => simp [hcall] at h
      | ok p =>
        obtain ⟨v, c1⟩ := p
        simp only [hcall] at h
        exact ih _ c1 (Nat.mod_lt _ (by norm_num)) h

/-- C20 (as claimed, refuted): the struct `Empty` accumulates the value 0 and
its fingerprint is 0; the struct `Full` accumulates `2 ^ 64 - 1` and its
fingerprint is `2 ^ 64 - 1`: the finalized value equals the unmixed one. -/
theorem mixing_counterexample :
    hashValue (hashSum (nestedCall [emptyStruct] emptyStruct 2 ["Empty"]) emptyStruct.members
      (emptyStruct.hash % 2 ^ 64) HashCache.init) = some 0 ∧
    hashValue (emitGetHash [emptyStruct] HashCache.init emptyStruct) = some 0 ∧
    rotl1 0 = 0 ∧
    hashValue (hashSum (nestedCall [fullStruct] fullStruct 2 ["Full"]) fullStruct.members
      (fullStruct.hash % 2 ^ 64) HashCache.init) = some (2 ^ 64 - 1) ∧
    hashValue (emitGetHash [fullStruct] HashCache.init fullStruct) = some (2 ^ 64 - 1) ∧
    rotl1 (2 ^ 64 - 1) = 2 ^ 64 - 1 := by
  refine ⟨rfl, rfl, rfl, rfl, ?_, ?_⟩
  · simp [emitGetHash, emitGetHash_recursive, fullStruct, hashSum, HashCache.init, hashValue,
      mixHash]
  · simp [rotl1]

/-- C20 (amended): when the emitted recursion computes the fingerprint of a
struct (not memoized, short name not among `parents`) and the sum of the base
hash and the nested values is `acc`, the value returned is the rotation of
`acc`, and it equals `acc` exactly when `acc` is 0 or `2 ^ 64 - 1`: for every
other accumulated value the finalized fingerprint differs from it. -/
theorem fingerprint_mixing (structs : List ZCMStruct) (fuel : Nat) (c c1 : HashCache)
    (ls : ZCMStruct) (parents : List String) (acc : Nat)
    (hmemo : c ls.structname.fullname = 0) (hanc : ls.structname.shortname ∉ parents)
    (hsum : hashSum (nestedCall structs ls fuel (parents ++ [ls.structname.shortname]))
      ls.members (ls.hash % 2 ^ 64) c = .ok (acc, c1)) :
    hashValue (emitGetHash_recursive structs (fuel + 1) c ls parents) = some (rotl1 acc) ∧
    (rotl1 acc = acc ↔ (acc = 0 ∨ acc = 2 ^ 64 - 1)) := by
  have hacc : acc < 2 ^ 64 := hashSum_lt _ _ _ _ (Nat.mod_lt _ (by norm_num)) _ hsum
  constructor
  · rw [emitGetHash_recursive_succ, if_neg (not_not.mpr hmemo), if_neg hanc, hsum]
    simp only [hashValue, mixHash_eq_rotl1]
  · rw [← mixHash_eq_rotl1, mixHash_eq_shift acc hacc]
    omega

theorem fingerprint_mixing_witness :
    hashValue (emitGetHash_recursive [pointStruct] (2 + 1) HashCache.init pointStruct []) =
      some (rotl1 4660) ∧
    (rotl1 4660 = 4660 ↔ (4660 = 0 ∨ 4660 = 2 ^ 64 - 1)) :=
  fingerprint_mixing [pointStruct] 2 HashCache.init HashCache.init pointStruct [] 4660
    rfl (by simp) rfl

theorem hashSum_invariant (call : HashCache → ZCMTypename → Except JlError (Nat × HashCache))
    (Inv : HashCache → Prop)
    (hcall : ∀ c t r, Inv c → call c t = .ok r → Inv r.2)
    (ms : List ZCMMember) (acc : Nat) (c : HashCache) (r : Nat × HashCache)
    (hc : Inv c) (h : hashSum call ms acc c = .ok r) : Inv r.2 := by
  induction ms generalizing acc c with
  | nil =>
    simp only [hashSum, Except.ok.injEq] at h
    subst h
    exact hc
  | cons lm rest ih =>
    by_cases hp : isPrimitiveType lm.type.fullname = true
    · simp only [hashSum, hp, ↓reduceIte] at h
      exact ih acc c hc h
    · simp only [hashSum, hp, Bool.false_eq_true, ↓reduceIte] at h
      cases hcl : call c lm.type with
      | error e => simp [hcl] at h
      | ok p =>
        obtain ⟨v, c1⟩ := p
        simp only [hcl] at h
        exact ih _ c1 (hcall c lm.type (v, c1) hc hcl) h

theorem hashSum_no_fuel (structs : List ZCMStruct) (ls : ZCMStruct) (np : List String)
    (ms : List ZCMMember) (acc : Nat) (c : HashCache) (r : Nat × HashCache)
    (h : hashSum (nestedCall structs ls 0 np) ms acc c = .ok r) : r = (acc, c) := by
  induction ms generalizing acc c with
  | nil =>
    simp only [hashSum, Except.ok.injEq] at h
    exact h.symm
  | cons lm rest ih =>
    by_cases hp : isPrimitiveType lm.type.fullname = true
    · simp only [hashSum, hp, ↓reduceIte] at h
      exact ih acc c h
    · simp only [hashSum, hp, Bool.false_eq_true, ↓reduceIte, nestedCall] at h
      cases hf : resolveType structs ls lm.type with
      | none => simp [hf] at h
      | some ls1 => simp [hf, emitGetHash_recursive] at h

theorem hashSum_self (structs : List ZCMStruct) (ls : ZCMStruct)
    (fuel : Nat) (np : List String) (hnp : ls.structname.shortname ∈ np)
    (ms : List ZCMMember)
    (hms : ∀ lm ∈ ms, isPrimitiveType lm.type.fullname = false →
      resolveType structs ls lm.type = some ls)
    (acc : Nat) (c : HashCache) (hacc : acc < 2 ^ 64) (hc : c ls.structname.fullname = 0) :
    hashSum (nestedCall structs ls (fuel + 1) np) ms acc c = .ok (acc, c) := by
  induction ms with
  | nil => rfl
  | cons lm rest ih =>
    have ih1 := ih (fun m hm => hms m (List.mem_cons_of_mem _ hm))
    by_cases hp : isPrimitiveType lm.type.fullname = true
    · simp only [hashSum, hp, ↓reduceIte]
      exact ih1
    · simp only [hashSum, hp, Bool.false_eq_true, ↓reduceIte, nestedCall]
      rw [hms lm (List.mem_cons_self _ _) (by simpa using hp)]
      simp only [emitGetHash_recursive_succ]
      rw [if_neg (not_not.mpr hc), if_pos hnp]
      simp only [Nat.add_zero, Nat.mod_eq_of_lt hacc]
      exact ih1

theorem selfNested_invariant (structs : List ZCMStruct) (ls : ZCMStruct)
    (hreg : Registered structs ls)
    (hself : ∀ lm ∈ ls.members, isPrimitiveType lm.type.fullname = false →
      resolveType structs ls lm.type = some ls) :
    ∀ (fuel : Nat) (c : HashCache) (ls1 : ZCMStruct) (P : List String) (r : Nat × HashCache),
      Registered structs ls1 →
      (c ls.structname.fullname = 0 ∨ c ls.structname.fullname = mixHash (ls.hash % 2 ^ 64)) →
      emitGetHash_recursive structs fuel c ls1 P = .ok r →
      (r.2 ls.structname.fullname = 0 ∨
        r.2 ls.structname.fullname = mixHash (ls.hash % 2 ^ 64)) := by
  intro fuel
  induction fuel with
  | zero =>
    intro c ls1 P r _ _ h
    simp [emitGetHash_recursive] at h
  | succ fuel ih =>
    intro c ls1 P r hreg1 hc h
    rw [emitGetHash_recursive_succ] at h
    by_cases hmemo : c ls1.structname.fullname ≠ 0
    · rw [if_pos hmemo] at h
      simp only [Except.ok.injEq] at h
      subst h
      exact hc
    · rw [if_neg hmemo] at h
      by_cases hanc : ls1.structname.shortname ∈ P
      · rw [if_pos hanc] at h
        simp only [Except.ok.injEq] at h
        subst h
        exact hc
      · rw [if_neg hanc] at h
        cases hs : hashSum (nestedCall structs ls1 fuel (P ++ [ls1.structname.shortname]))
            ls1.members (ls1.hash % 2 ^ 64) c with
        | error e =>
          rw [hs] at h
          simp at h
        | ok p =>
          obtain ⟨hash, c1⟩ := p
          rw [hs] at h
          simp only [Except.ok.injEq] at h
          subst h
          have hc1 : c1 ls.structname.fullname = 0 ∨
              c1 ls.structname.fullname = mixHash (ls.hash % 2 ^ 64) := by
            refine hashSum_invariant _ (fun c => c ls.structname.fullname = 0 ∨
              c ls.structname.fullname = mixHash (ls.hash % 2 ^ 64)) ?_ _ _ _ (hash, c1) hc hs
            intro c0 t r0 hc0 hcall
            simp only [nestedCall] at hcall
            cases hf : resolveType structs ls1 t with
            | none => simp [hf] at hcall
            | some ls2 =>
              simp only [hf] at hcall
              exact ih c0 ls2 _ r0 (resolveType_registered hreg1 hf) hc0 hcall
          by_cases hsame : ls.structname.fullname = ls1.structname.fullname
          · have heq : ls = ls1 := registered_unique hreg hreg1 hsame
            subst heq
            simp only [HashCache.set, ↓reduceIte]
            right
            have hhash : (hash, c1) = (ls.hash % 2 ^ 64, c) := by
              cases fuel with
              | zero => exact hashSum_no_fuel _ _ _ _ _ _ _ hs
              | succ f =>
                rw [hashSum_self structs ls f _ (by simp) ls.members hself _ c
                  (Nat.mod_lt _ (by norm_num)) (not_not.mp hmemo)] at hs
                simp only [Except.ok.injEq] at hs
                exact hs.symm
            simp only [Prod.mk.injEq] at hhash
            rw [hhash.1]
          · simp only [HashCache.set, hsame, ↓reduceIte]
            exact hc1

theorem selfNested_reachable (structs : List ZCMStruct) (ls : ZCMStruct)
    (hreg : Registered structs ls)
    (hself : ∀ lm ∈ ls.members, isPrimitiveType lm.type.fullname = false →
      resolveType structs ls lm.type = some ls)
    (c : HashCache) (hr : Reachable structs c) :
    c ls.structname.fullname = 0 ∨ c ls.structname.fullname = mixHash (ls.hash % 2 ^ 64) := by
  induction hr with
  | init => exact Or.inl rfl
  | call c0 ls1 v c1 _ hreg1 hcall ih =>
    exact selfNested_invariant structs ls hreg hself _ c0 ls1 [] (v, c1) hreg1 ih hcall

/-- C17 (cycle rule, with the evaluation at the failing input): the emitted
recursion, called for a struct that is not memoized and whose short name is
among `parents`, returns 0 and leaves the cache as it is; and for a registered
struct whose members of non-primitive type are all bound to the struct itself
by the identifier emitted for them, the emitted `getHash`, called in a cache
that earlier `getHash` calls produced, returns the rotation of the base hash
of the struct.  For the struct `a.Node` of package `a` with a member of type
`a.Node` the emitted identifier is `a_Node`, which the declaration
`type Node` does not bind: `getHash` throws `UndefVarError` and returns no
value. -/
theorem cycle_rule (structs : List ZCMStruct) :
    (∀ (fuel : Nat) (c : HashCache) (ls : ZCMStruct) (parents : List String),
      c ls.structname.fullname = 0 → ls.structname.shortname ∈ parents →
      emitGetHash_recursive structs (fuel + 1) c ls parents = .ok (0, c)) ∧
    (∀ (ls : ZCMStruct), Registered structs ls →
      (∀ lm ∈ ls.members, isPrimitiveType lm.type.fullname = false →
        resolveType structs ls lm.type = some ls) →
      ∀ c, Reachable structs c →
        hashValue (emitGetHash structs c ls) = some (rotl1 (ls.hash % 2 ^ 64))) ∧
    (nameUnderscore ⟨"a.Node", "a", "Node"⟩ = "a_Node" ∧
      resolveType [packageNode] packageNode ⟨"a.Node", "a", "Node"⟩ = none ∧
      emitGetHash [packageNode] HashCache.init packageNode = .error .undefVarError) := by
  refine ⟨?_, ?_, by decide, by decide, rfl⟩
  · intro fuel c ls parents hmemo hanc
    rw [emitGetHash_recursive_succ, if_neg (not_not.mpr hmemo), if_pos hanc]
  · intro ls hreg hself c hr
    have hinv := selfNested_reachable structs ls hreg hself c hr
    unfold emitGetHash
    rw [emitGetHash_recursive_succ]
    by_cases hmemo : c ls.structname.fullname ≠ 0
    · rw [if_pos hmemo]
      rcases hinv with h0 | h1
      · exact absurd h0 hmemo
      · simp only [hashValue, h1, mixHash_eq_rotl1]
    · rw [if_neg hmemo, if_neg (List.not_mem_nil _)]
      rw [hashSum_self structs ls _ _ (by simp) ls.members hself _ c
        (Nat.mod_lt _ (by norm_num)) (not_not.mp hmemo)]
      simp only [hashValue, mixHash_eq_rotl1]

theorem cycle_rule_witness :
    emitGetHash_recursive cyclicStructs (0 + 1) HashCache.init cyclicNode ["Node"] =
      .ok (0, HashCache.init) ∧
    hashValue (emitGetHash cyclicStructs HashCache.init cyclicNode) =
      some (rotl1 (cyclicNode.hash % 2 ^ 64)) :=
  ⟨(cycle_rule cyclicStructs).1 0 HashCache.init cyclicNode ["Node"] rfl (by decide),
   (cycle_rule cyclicStructs).2.1 cyclicNode rfl
     (by
       intro lm hlm _
       simp only [cyclicNode, List.mem_singleton] at hlm
       subst hlm
       rfl)
     HashCache.init Reachable.init⟩

/-- C18 (evaluation at the failing input): in the registry of `a.X` (base
hash 5, one member of type `M`), `M` (base hash 7, one member of type `X`) and
`X` (base hash 3), the struct `X` is neither `a.X` nor `M`, and its
fingerprint is 6.  The nested call for `X`, made while the fingerprints of
`a.X` and `M` are computed, finds the short name `X` of `a.X` among `parents`
and returns 0: `getHash` of `a.X` returns 38 and leaves 14 in the cell of `M`,
where the contribution `fingerprint(X) = 6` gives 26 for `M` and 62 for `a.X`.
Once `X` is memoized the same call returns 62.  In the registry of the claim,
`a.X` with a member of type `b.X`, the emitted identifier `b_X` is not bound
and `getHash` of `a.X` returns no value. -/
theorem ancestor_shortname_evaluation :
    (shadowX.structname.fullname ≠ shadowAX.structname.fullname ∧
      shadowX.structname.fullname ≠ shadowM.structname.fullname ∧
      shadowX.structname.shortname = shadowAX.structname.shortname) ∧
    hashValue (emitGetHash shadowStructs HashCache.init shadowX) = some 6 ∧
    nestedCall shadowStructs shadowM 1
      ([shadowAX.structname.shortname] ++ [shadowM.structname.shortname])
      HashCache.init ⟨"X", "", "X"⟩ = .ok (0, HashCache.init) ∧
    (hashValue (emitGetHash shadowStructs HashCache.init shadowAX) = some 38 ∧
      hashCacheAfter HashCache.init (emitGetHash shadowStructs HashCache.init shadowAX)
        "M" = 14) ∧
    (rotl1 (7 + 6) = 26 ∧ rotl1 (5 + 26) = 62 ∧ rotl1 (7 + 0) = 14 ∧ rotl1 (5 + 14) = 38) ∧
    hashValue (emitGetHash shadowStructs
      (hashCacheAfter HashCache.init (emitGetHash shadowStructs HashCache.init shadowX))
      shadowAX) = some 62 ∧
    (nameUnderscore ⟨"b.X", "b", "X"⟩ = "b_X" ∧
      resolveType packageStructs packageAX ⟨"b.X", "b", "X"⟩ = none ∧
      emitGetHash packageStructs HashCache.init packageAX = .error .undefVarError) := by
  refine ⟨by decide, rfl, rfl, ⟨rfl, rfl⟩, by decide, rfl, by decide, by decide, rfl⟩

theorem emitEncodeListMember_negative (o : Options) (lm : ZCMMember) (dims : List Nat)
    (elems : List JVal) (len : Int) (buf : List Byte)
    (hp : isPrimitiveType lm.type.fullname = true) (hs : (lm.type.fullname == "string") = false)
    (hlen : len < 0) :
    emitEncodeListMember o lm (.arr dims elems) len buf = .ok (.arr dims elems, buf) := by
  have h0 : len.toNat = 0 := Int.toNat_eq_zero.mpr (le_of_lt hlen)
  unfold emitEncodeListMember
  generalize lm.type.fullname = tn at *
  rcases primitive_cases tn hp hs with rfl | rfl | rfl | rfl | rfl | rfl | rfl | rfl <;>
    simp +decide [h0, numBits]

/-- C11 (as claimed, refuted): for `Names{int32_t n; string names[n]}` with
`n = -1` the emitted encode returns 12 bytes, the header and the four bytes of
`n`, and the emitted decode of these bytes returns the instance with `n = -1`
and no names: the negative extent is taken for an empty run at both ends. -/
theorem negative_extent_counterexample :
    memberExtent namesStruct namesValue "n" = .ok (-1) ∧
    encodedBytes (emitEncode networkOrder [namesStruct] 1 HashCache.init namesStruct
      namesValue) = [0, 0, 0, 0, 0, 0, 0, 102, 255, 255, 255, 255] ∧
    messageAfter (emitEncode networkOrder [namesStruct] 1 HashCache.init namesStruct
      namesValue) = some namesValue ∧
    roundTrip networkOrder [namesStruct] 1 HashCache.init namesStruct namesValue =
      .ok namesValue := by
  refine ⟨?_, ?_, ?_, ?_⟩
  · rfl
  · rfl
  · rfl
  · rfl

/-- C11 (amended): the emitted code has no check of an extent.  Encoding: for a
member whose first dimension is `ZCM_VAR` and whose field holds an array, a
negative value of the referenced member makes the emitted code append nothing
and raise nothing.  Decoding: for a member with the single dimension `ZCM_VAR`
and a string or struct type, a negative extent leaves the field empty and the
buffer as it is, without error; for a member with the single dimension
`ZCM_VAR` and a primitive type other than string, a negative extent (whose
byte count does not wrap in `Int64`) makes the read of the byte count fail. -/
theorem negative_extent (o : Options) (structs : List ZCMStruct) (ls : ZCMStruct)
    (lm : ZCMMember) (msg : JVal) (buf : List Byte) (name : String) (e : Int)
    (hext : memberExtent ls msg name = .ok e) (hneg : e < 0) :
    (∀ (encodeOne : ZCMStruct → JVal → List Byte → Except JlError (JVal × List Byte))
      (rest : List ZCMDimension) (dims : List Nat) (elems : List JVal),
      lm.dimensions = .ZCM_VAR name :: rest →
      getfield msg lm.membername = .ok (.arr dims elems) →
      emitEncodeOne_member o structs encodeOne ls lm msg buf =
        .ok (setfield msg lm.membername (.arr dims elems), buf)) ∧
    (lm.dimensions = [.ZCM_VAR name] →
      (isPrimitiveType lm.type.fullname && lm.type.fullname != "string") = false →
      name ≠ lm.membername →
      emitDecodeOne_member o ls lm msg buf =
        .ok (setfield msg lm.membername (.arr [0] []), buf)) ∧
    (lm.dimensions = [.ZCM_VAR name] →
      isPrimitiveType lm.type.fullname = true → (lm.type.fullname == "string") = false →
      -(2 : Int) ^ 63 ≤ e * (getPrimitiveTypeSize lm.type.fullname : Nat) →
      emitDecodeOne_member o ls lm msg buf = .error .argumentError) := by
  have h0 : e.toNat = 0 := Int.toNat_eq_zero.mpr (le_of_lt hneg)
  refine ⟨?_, ?_, ?_⟩
  · intro encodeOne rest dims elems hdims hget
    unfold emitEncodeOne_member
    rw [hget, hdims]
    simp only [List.isEmpty_cons, Bool.false_eq_true, ↓reduceIte]
    cases rest with
    | nil =>
      simp only [emitEncodeOne_dims, dimExtent, hext, h0, forLoop]
      by_cases hl : (isPrimitiveType lm.type.fullname && lm.type.fullname != "string") = true
      · rw [if_pos hl]
        simp only [Bool.and_eq_true, bne_iff_ne, ne_eq] at hl
        rw [emitEncodeListMember_negative o lm dims elems e buf hl.1 (by simpa using hl.2) hneg]
      · rw [if_neg hl]
    | cons d2 rest1 =>
      simp only [emitEncodeOne_dims, dimExtent, hext, h0, forLoop]
  · intro hdims hnl hne
    unfold emitDecodeOne_member
    rw [hdims]
    simp only [hnl, Bool.false_eq_true, ↓reduceIte, dimExtent]
    rw [memberExtent_congr ls msg _ name (getfield_setfield_ne msg name lm.membername _ hne), hext]
    simp only [if_neg (by omega : ¬ (1 : Int) ≤ e)]
  · intro hdims hp hs hwrap
    have hw := getPrimitiveTypeSize_pos lm.type.fullname hp hs
    have hlt : e * (getPrimitiveTypeSize lm.type.fullname : Nat) < 0 :=
      Int.mul_neg_of_neg_of_pos hneg (by exact_mod_cast hw)
    have hnb : toInt64 (e * (getPrimitiveTypeSize lm.type.fullname : Nat)) < 0 := by
      unfold toInt64
      omega
    unfold emitDecodeOne_member
    rw [hdims]
    have hl : (isPrimitiveType lm.type.fullname && lm.type.fullname != "string") = true := by
      simp only [hp, Bool.true_and, bne_iff_ne, ne_eq]
      simpa using hs
    simp only [hl, ↓reduceIte]
    unfold emitDecodeListMember
    simp only [hext]
    generalize lm.type.fullname = tn at *
    rcases primitive_cases tn hp hs with rfl | rfl | rfl | rfl | rfl | rfl | rfl | rfl <;>
      simp +decide [read, hnb]

theorem negative_extent_witness :
    emitEncodeOne_member networkOrder [namesStruct] (emitEncodeOne networkOrder [namesStruct] 0)
        namesStruct ⟨⟨"string", "", "string"⟩, "names", [.ZCM_VAR "n"], ""⟩ namesValue [] =
      .ok (setfield namesValue "names" (.arr [0] []), []) ∧
    emitDecodeOne_member networkOrder namesStruct
        ⟨⟨"string", "", "string"⟩, "names", [.ZCM_VAR "n"], ""⟩ namesValue [] =
      .ok (setfield namesValue "names" (.arr [0] []), []) ∧
    emitDecodeOne_member networkOrder runStruct
        ⟨⟨"int16_t", "", "int16_t"⟩, "d", [.ZCM_VAR "n"], ""⟩ runValue [] =
      .error .argumentError :=
  ⟨(negative_extent networkOrder [namesStruct] namesStruct
      ⟨⟨"string", "", "string"⟩, "names", [.ZCM_VAR "n"], ""⟩ namesValue [] "n" (-1) (by rfl)
      (by decide)).1 _ [] [0] [] rfl rfl,
   (negative_extent networkOrder [namesStruct] namesStruct
      ⟨⟨"string", "", "string"⟩, "names", [.ZCM_VAR "n"], ""⟩ namesValue [] "n" (-1) (by rfl)
      (by decide)).2.1 rfl rfl (by decide),
   (negative_extent networkOrder [runStruct] runStruct
      ⟨⟨"int16_t", "", "int16_t"⟩, "d", [.ZCM_VAR "n"], ""⟩ runValue [] "n" (-1) (by rfl)
      (by decide)).2.2 rfl rfl rfl (by decide)⟩

theorem writeBits_one (o : Options) (x : Nat) : writeBits o 1 x = wireBytes o 1 x := by
  unfold writeBits wireBytes
  simp [bytesLE]

theorem bitsOfBytes_one (o : Options) (x : Nat) :
    bitsOfBytes o (wireBytes o 1 x) = x % 256 ^ 1 := by
  rw [← wireValue_wireBytes o 1 x]
  unfold bitsOfBytes wireValue wireBytes
  simp [bytesLE]

theorem emitEncodeSingleMember_num (o : Options) (structs : List ZCMStruct)
    (encodeOne : ZCMStruct → JVal → List Byte → Except JlError (JVal × List Byte))
    (lm : ZCMMember) (b : Nat) (buf : List Byte)
    (hp : isPrimitiveType lm.type.fullname = true) (hs : (lm.type.fullname == "string") = false) :
    emitEncodeSingleMember o structs encodeOne lm (.num b) buf =
      .ok (.num b, buf ++ wireBytes o (getPrimitiveTypeSize lm.type.fullname) b) := by
  unfold emitEncodeSingleMember
  generalize lm.type.fullname = tn at *
  rcases primitive_cases tn hp hs with rfl | rfl | rfl | rfl | rfl | rfl | rfl | rfl <;>
    simp +decide only [↓reduceIte, Bool.or_true, Bool.true_or, Bool.or_false, Bool.false_or,
      writeBits_hton]
  rw [writeBits_one]
  rfl

theorem emitDecodeSingleMember_wire (o : Options)
    (lm : ZCMMember) (b : Nat) (rest : List Byte)
    (hp : isPrimitiveType lm.type.fullname = true) (hs : (lm.type.fullname == "string") = false) :
    emitDecodeSingleMember o lm
        (wireBytes o (getPrimitiveTypeSize lm.type.fullname) b ++ rest) =
      .ok (.num (b % 256 ^ getPrimitiveTypeSize lm.type.fullname), rest) := by
  unfold emitDecodeSingleMember
  generalize lm.type.fullname = tn at *
  have hw := getPrimitiveTypeSize_pos tn hp hs
  dsimp only
  have hone : (tn = "int8_t" ∨ tn = "byte" ∨ tn = "boolean") → getPrimitiveTypeSize tn = 1 := by
    rintro (rfl | rfl | rfl) <;> rfl
  generalize getPrimitiveTypeSize tn = w at *
  have hlen := wireBytes_length o w b
  have htake : List.take w (wireBytes o w b ++ rest) = wireBytes o w b :=
    List.take_left' hlen
  have hdrop : List.drop w (wireBytes o w b ++ rest) = rest := List.drop_left' hlen
  have hnt := ntoh_bitsOfBytes o (wireBytes o w b)
  rw [hlen, wireValue_wireBytes] at hnt
  have hre := reinterpret_of_length o w hw _ hlen
  rcases primitive_cases tn hp hs with rfl | rfl | rfl | rfl | rfl | rfl | rfl | rfl <;>
    simp +decide only [↓reduceIte, Bool.or_true, Bool.true_or, Bool.or_false, Bool.false_or,
      read_natCast, htake, hdrop, hre, first, hnt]
  all_goals
    have h1 : w = 1 := hone (by simp)
    subst h1
    rw [bitsOfBytes_one]

theorem getfield_mid (pre post : List (String × JVal)) (n : String) (x : JVal)
    (h : n ∉ pre.map Prod.fst) : getfield (.obj (pre ++ (n, x) :: post)) n = .ok x := by
  unfold getfield
  have : (pre ++ (n, x) :: post).lookup n = some x := by
    induction pre with
    | nil => simp [List.lookup]
    | cons p pre ih =>
      obtain ⟨k, v⟩ := p
      simp only [List.map_cons, List.mem_cons, not_or] at h
      have hk : (n == k) = false := by simpa using h.1
      simp only [List.cons_append, List.lookup, hk]
      exact ih h.2
  simp only [this]

theorem setfield_mid (pre post : List (String × JVal)) (n : String) (x v : JVal)
    (h1 : n ∉ pre.map Prod.fst) (h2 : n ∉ post.map Prod.fst) :
    setfield (.obj (pre ++ (n, x) :: post)) n v = .obj (pre ++ (n, v) :: post) := by
  have hmap : ∀ l : List (String × JVal), n ∉ l.map Prod.fst →
      l.map (fun p => if p.1 = n then (p.1, v) else p) = l := by
    intro l hl
    induction l with
    | nil => rfl
    | cons p l ih =>
      simp only [List.map_cons, List.mem_cons, not_or] at hl
      simp only [List.map_cons, ih hl.2, if_neg (Ne.symm hl.1)]
  simp only [setfield, List.map_append, List.map_cons, hmap pre h1, hmap post h2, ↓reduceIte]

theorem zipWith_names (ms : List ZCMMember) (f : Nat → JVal) :
    ∀ vals : List Nat, vals.length = ms.length →
      (List.zipWith (fun lm b => (lm.membername, f b)) ms vals).map Prod.fst =
        ms.map (fun lm => lm.membername) := by
  induction ms with
  | nil =>
    intro vals _
    rfl
  | cons lm rest ih =>
    intro vals hlen
    cases vals with
    | nil => simp at hlen
    | cons b vs =>
      simp only [List.zipWith_cons_cons, List.map_cons, ih vs (by simpa using hlen)]

theorem emitEncodeOne_members_scalar (o : Options) (structs : List ZCMStruct)
    (encodeOne : ZCMStruct → JVal → List Byte → Except JlError (JVal × List Byte))
    (ls : ZCMStruct) (ms : List ZCMMember) :
    ∀ (vals : List Nat) (pre : List (String × JVal)) (buf : List Byte),
      (∀ lm ∈ ms, lm.dimensions = [] ∧ isPrimitiveType lm.type.fullname = true ∧
        (lm.type.fullname == "string") = false) →
      (pre.map Prod.fst ++ ms.map (fun lm => lm.membername)).Nodup →
      vals.length = ms.length →
      emitEncodeOne_members o structs encodeOne ls ms
          (.obj (pre ++ List.zipWith (fun lm b => (lm.membername, JVal.num b)) ms vals)) buf =
        .ok (.obj (pre ++ List.zipWith (fun lm b => (lm.membername, JVal.num b)) ms vals),
          buf ++ scalarLayout o ms vals) := by
  induction ms with
  | nil =>
    intro vals pre buf _ _ _
    simp [emitEncodeOne_members, scalarLayout]
  | cons lm rest ih =>
    intro vals pre buf hprim hnodup hlen
    cases vals with
    | nil => simp at hlen
    | cons b vs =>
      have hlen1 : vs.length = rest.length := by simpa using hlen
      obtain ⟨hd, hp, hs⟩ := hprim lm (List.mem_cons_self _ _)
      have hsplit := List.nodup_append.mp hnodup
      have hnd2 := List.nodup_cons.mp hsplit.2.1
      have hpre : lm.membername ∉ pre.map Prod.fst := by
        intro hin
        exact hsplit.2.2 hin (List.mem_cons_self _ _)
      have hpost : lm.membername ∉
          (List.zipWith (fun lm b => (lm.membername, JVal.num b)) rest vs).map Prod.fst := by
        rw [zipWith_names rest JVal.num vs hlen1]
        exact hnd2.1
      have hnodup1 : ((pre ++ [(lm.membername, JVal.num b)]).map Prod.fst ++
          rest.map (fun lm => lm.membername)).Nodup := by
        simpa [List.append_assoc] using hnodup
      have ih1 := ih vs (pre ++ [(lm.membername, JVal.num b)])
        (buf ++ wireBytes o (getPrimitiveTypeSize lm.type.fullname) b)
        (fun m hm => hprim m (List.mem_cons_of_mem _ hm)) hnodup1 hlen1
      simp only [List.append_assoc, List.singleton_append] at ih1
      simp only [List.zipWith_cons_cons, emitEncodeOne_members, emitEncodeOne_member,
        getfield_mid _ _ _ _ hpre, hd, List.isEmpty_nil, ↓reduceIte,
        emitEncodeSingleMember_num o structs encodeOne lm b buf hp hs,
        setfield_mid _ _ _ _ _ hpre hpost, ih1]
      simp [scalarLayout]

theorem emitInstance_members_scalar (ctor : String → Except JlError JVal) (ms : List ZCMMember)
    (hprim : ∀ lm ∈ ms, lm.dimensions = [] ∧ isPrimitiveType lm.type.fullname = true ∧
      (lm.type.fullname == "string") = false) :
    emitInstance_members ctor ms = .ok (ms.map (fun lm => (lm.membername, JVal.num 0))) := by
  induction ms with
  | nil => rfl
  | cons lm rest ih =>
    obtain ⟨hd, hp, hs⟩ := hprim lm (List.mem_cons_self _ _)
    simp only [emitInstance_members, hd, emitMemberInitializer, hs, Bool.false_eq_true,
      ↓reduceIte, hp, convertField, List.length_nil,
      ih (fun m hm => hprim m (List.mem_cons_of_mem _ hm)), List.map_cons]

theorem emitDecodeOne_members_scalar (o : Options)
    (ls : ZCMStruct) (ms : List ZCMMember) :
    ∀ (vals : List Nat) (pre : List (String × JVal)) (rest : List Byte),
      (∀ lm ∈ ms, lm.dimensions = [] ∧ isPrimitiveType lm.type.fullname = true ∧
        (lm.type.fullname == "string") = false) →
      (pre.map Prod.fst ++ ms.map (fun lm => lm.membername)).Nodup →
      List.Forall₂ (fun lm b => b < 256 ^ getPrimitiveTypeSize lm.type.fullname) ms vals →
      emitDecodeOne_members o ls ms
          (.obj (pre ++ ms.map (fun lm => (lm.membername, JVal.num 0))))
          (scalarLayout o ms vals ++ rest) =
        .ok (.obj (pre ++ List.zipWith (fun lm b => (lm.membername, JVal.num b)) ms vals),
          rest) := by
  induction ms with
  | nil =>
    intro vals pre rest _ _ hfit
    cases hfit
    simp [emitDecodeOne_members, scalarLayout]
  | cons lm tail ih =>
    intro vals pre rest hprim hnodup hfit
    cases hfit with
    | cons hb hfit1 =>
      rename_i b vs
      obtain ⟨hd, hp, hs⟩ := hprim lm (List.mem_cons_self _ _)
      have hsplit := List.nodup_append.mp hnodup
      have hnd2 := List.nodup_cons.mp hsplit.2.1
      have hpre : lm.membername ∉ pre.map Prod.fst := by
        intro hin
        exact hsplit.2.2 hin (List.mem_cons_self _ _)
      have hpost : lm.membername ∉
          (tail.map (fun lm => (lm.membername, JVal.num 0))).map Prod.fst := by
        simpa [List.map_map] using hnd2.1
      have hnodup1 : ((pre ++ [(lm.membername, JVal.num b)]).map Prod.fst ++
          tail.map (fun lm => lm.membername)).Nodup := by
        simpa [List.append_assoc] using hnodup
      have ih1 := ih vs (pre ++ [(lm.membername, JVal.num b)]) rest
        (fun m hm => hprim m (List.mem_cons_of_mem _ hm)) hnodup1 hfit1
      simp only [List.append_assoc, List.singleton_append] at ih1
      have hlay : scalarLayout o (lm :: tail) (b :: vs) ++ rest =
          wireBytes o (getPrimitiveTypeSize lm.type.fullname) b ++
            (scalarLayout o tail vs ++ rest) := by
        simp [scalarLayout]
      simp only [hlay, List.map_cons, List.zipWith_cons_cons, emitDecodeOne_members,
        emitDecodeOne_member, hd,
        emitDecodeSingleMember_wire o lm b _ hp hs,
        Nat.mod_eq_of_lt hb, setfield_mid _ _ _ _ _ hpre hpost, ih1]

theorem emitDecodeOne_scalar (o : Options) (structs : List ZCMStruct) (fuel : Nat)
    (ls : ZCMStruct) (vals : List Nat) (rest : List Byte)
    (hprim : ∀ lm ∈ ls.members, lm.dimensions = [] ∧ isPrimitiveType lm.type.fullname = true ∧
      (lm.type.fullname == "string") = false)
    (hnodup : (ls.members.map (fun lm => lm.membername)).Nodup)
    (hfit : List.Forall₂ (fun lm b => b < 256 ^ getPrimitiveTypeSize lm.type.fullname)
      ls.members vals) :
    emitDecodeOne o structs (fuel + 1) ls (scalarLayout o ls.members vals ++ rest) =
      .ok (scalarInstance ls.members vals, rest) := by
  have h := emitDecodeOne_members_scalar o ls ls.members
    vals [] rest hprim (by simpa using hnodup) hfit
  simp only [List.nil_append] at h
  simp only [emitDecodeOne, emitInstance, emitInstance_members_scalar _ ls.members hprim, h,
    scalarInstance]

theorem hashSum_primitive (call : HashCache → ZCMTypename → Except JlError (Nat × HashCache))
    (ms : List ZCMMember) (hprim : ∀ lm ∈ ms, isPrimitiveType lm.type.fullname = true)
    (acc : Nat) (c : HashCache) : hashSum call ms acc c = .ok (acc, c) := by
  induction ms with
  | nil => rfl
  | cons lm rest ih =>
    simp only [hashSum, hprim lm (List.mem_cons_self _ _), ↓reduceIte]
    exact ih (fun m hm => hprim m (List.mem_cons_of_mem _ hm))

theorem emitGetHash_primitive (structs : List ZCMStruct) (c : HashCache) (ls : ZCMStruct)
    (hprim : ∀ lm ∈ ls.members, isPrimitiveType lm.type.fullname = true) :
    emitGetHash structs c ls =
      if c ls.structname.fullname ≠ 0 then .ok (c ls.structname.fullname, c)
      else .ok (mixHash (ls.hash % 2 ^ 64),
        c.set ls.structname.fullname (mixHash (ls.hash % 2 ^ 64))) := by
  unfold emitGetHash
  rw [emitGetHash_recursive_succ]
  by_cases hmemo : c ls.structname.fullname ≠ 0
  · rw [if_pos hmemo, if_pos hmemo]
  · rw [if_neg hmemo, if_neg hmemo, if_neg (List.not_mem_nil _),
      hashSum_primitive _ _ hprim]

theorem emitGetHash_primitive_again (structs : List ZCMStruct) (c c1 : HashCache)
    (ls : ZCMStruct) (h : Nat)
    (hprim : ∀ lm ∈ ls.members, isPrimitiveType lm.type.fullname = true)
    (hh : emitGetHash structs c ls = .ok (h, c1)) :
    ∃ c2, emitGetHash structs c1 ls = .ok (h, c2) := by
  rw [emitGetHash_primitive structs c ls hprim] at hh
  rw [emitGetHash_primitive structs c1 ls hprim]
  by_cases hmemo : c ls.structname.fullname ≠ 0
  · rw [if_pos hmemo] at hh
    simp only [Except.ok.injEq, Prod.mk.injEq] at hh
    obtain ⟨h1, h2⟩ := hh
    subst h2
    rw [if_pos hmemo, h1]
    exact ⟨_, rfl⟩
  · rw [if_neg hmemo] at hh
    simp only [Except.ok.injEq, Prod.mk.injEq] at hh
    obtain ⟨h1, h2⟩ := hh
    subst h2
    by_cases hz : h = 0
    · have hcell : (c.set ls.structname.fullname (mixHash (ls.hash % 2 ^ 64)))
          ls.structname.fullname = 0 := by
        simp only [HashCache.set, ↓reduceIte, h1, hz]
      rw [if_neg (not_not.mpr hcell), h1]
      exact ⟨_, rfl⟩
    · have hcell : (c.set ls.structname.fullname (mixHash (ls.hash % 2 ^ 64)))
          ls.structname.fullname = h := by
        simp only [HashCache.set, ↓reduceIte, h1]
      rw [if_pos (by rw [hcell]; exact hz), hcell]
      exact ⟨_, rfl⟩

/-- C12 (scalar primitive layout, Scenario A): for a struct whose members are
all scalars of a primitive type other than string (member names distinct) and
an instance holding a value of its width in every field, the emitted encode
returns the 8 bytes of the fingerprint followed by the concatenation, in member
order, of each value at the natural width of its type in the byte order of the
wire, and leaves the message as it is; the emitted `_decode_one` reads these
bytes back to the instance, and decode after encode returns the instance.  For
`Point{x = 1.0f, y = 2.0f}` the encoding is the 16 bytes listed and decoding
it returns the instance. -/
theorem scalar_layout (o : Options) (structs : List ZCMStruct) (fuel : Nat) (c : HashCache)
    (ls : ZCMStruct) (vals : List Nat)
    (hprim : ∀ lm ∈ ls.members, lm.dimensions = [] ∧ isPrimitiveType lm.type.fullname = true ∧
      (lm.type.fullname == "string") = false)
    (hnodup : (ls.members.map (fun lm => lm.membername)).Nodup)
    (hfit : List.Forall₂ (fun lm b => b < 256 ^ getPrimitiveTypeSize lm.type.fullname)
      ls.members vals)
    (hc : ∀ k, c k < 2 ^ 64) :
    encodedBytes (emitEncode o structs (fuel + 1) c ls (scalarInstance ls.members vals)) =
      wireBytes o 8 ((hashValue (emitGetHash structs c ls)).getD 0) ++
        scalarLayout o ls.members vals ∧
    messageAfter (emitEncode o structs (fuel + 1) c ls (scalarInstance ls.members vals)) =
      some (scalarInstance ls.members vals) ∧
    (∀ rest, emitDecodeOne o structs (fuel + 1) ls (scalarLayout o ls.members vals ++ rest) =
      .ok (scalarInstance ls.members vals, rest)) ∧
    roundTrip o structs (fuel + 1) c ls (scalarInstance ls.members vals) =
      .ok (scalarInstance ls.members vals) ∧
    encodedBytes (emitEncode networkOrder [pointStruct] 1 HashCache.init pointStruct
      pointValue) = [0, 0, 0, 0, 0, 0, 36, 104, 63, 128, 0, 0, 64, 0, 0, 0] ∧
    (encodedBytes (emitEncode networkOrder [pointStruct] 1 HashCache.init pointStruct
      pointValue)).length = 16 ∧
    roundTrip networkOrder [pointStruct] 1 HashCache.init pointStruct pointValue =
      .ok pointValue := by
  have hprim1 : ∀ lm ∈ ls.members, isPrimitiveType lm.type.fullname = true :=
    fun lm hlm => (hprim lm hlm).2.1
  have hlen : vals.length = ls.members.length := hfit.length_eq.symm
  obtain ⟨h, c1, hh⟩ : ∃ h c1, emitGetHash structs c ls = .ok (h, c1) := by
    rw [emitGetHash_primitive structs c ls hprim1]
    by_cases hmemo : c ls.structname.fullname ≠ 0
    · rw [if_pos hmemo]
      exact ⟨_, _, rfl⟩
    · rw [if_neg hmemo]
      exact ⟨_, _, rfl⟩
  have hlt := emitGetHash_lt structs c c1 ls h hc hh
  obtain ⟨c2, hh2⟩ := emitGetHash_primitive_again structs c c1 ls h hprim1 hh
  have henc : emitEncode o structs (fuel + 1) c ls (scalarInstance ls.members vals) =
      .ok (wireBytes o 8 h ++ scalarLayout o ls.members vals,
        scalarInstance ls.members vals, c1) := by
    have hm := emitEncodeOne_members_scalar o structs (emitEncodeOne o structs fuel) ls
      ls.members vals [] ([] ++ writeBits o 8 (hton o 8 h)) hprim (by simpa using hnodup) hlen
    simp only [List.nil_append, writeBits_hton] at hm
    simp only [emitEncode, hh, emitEncodeOne, scalarInstance, List.nil_append, writeBits_hton, hm]
  have hdec := emitDecodeOne_scalar o structs fuel ls vals
  refine ⟨?_, ?_, fun rest => hdec rest hprim hnodup hfit, ?_, rfl, rfl, rfl⟩
  · rw [henc, hh]
    rfl
  · rw [henc]
    rfl
  · have h8 : (wireBytes o 8 h).length = 8 := wireBytes_length o 8 h
    have hval : wireValue o (wireBytes o 8 h) = h := by
      rw [wireValue_wireBytes]
      exact Nat.mod_eq_of_lt (by norm_num at hlt ⊢; exact hlt)
    have hd := hdec [] hprim hnodup hfit
    rw [List.append_nil] at hd
    simp only [roundTrip, henc]
    rw [emitDecode_of_length o structs (fuel + 1) c1 c2 ls _ h
      (by rw [List.length_append, h8]; omega) hh2]
    rw [List.take_left' h8, List.drop_left' h8, hval, if_neg (not_not.mpr rfl), hd]
    rfl

theorem scalar_layout_witness :
    encodedBytes (emitEncode networkOrder [pointStruct] (0 + 1) HashCache.init pointStruct
        (scalarInstance pointStruct.members [1065353216, 1073741824])) =
      wireBytes networkOrder 8
          ((hashValue (emitGetHash [pointStruct] HashCache.init pointStruct)).getD 0) ++
        scalarLayout networkOrder pointStruct.members [1065353216, 1073741824] ∧
    messageAfter (emitEncode networkOrder [pointStruct] (0 + 1) HashCache.init pointStruct
        (scalarInstance pointStruct.members [1065353216, 1073741824])) =
      some (scalarInstance pointStruct.members [1065353216, 1073741824]) ∧
    (∀ rest, emitDecodeOne networkOrder [pointStruct] (0 + 1) pointStruct
        (scalarLayout networkOrder pointStruct.members [1065353216, 1073741824] ++ rest) =
      .ok (scalarInstance pointStruct.members [1065353216, 1073741824], rest)) ∧
    roundTrip networkOrder [pointStruct] (0 + 1) HashCache.init pointStruct
        (scalarInstance pointStruct.members [1065353216, 1073741824]) =
      .ok (scalarInstance pointStruct.members [1065353216, 1073741824]) ∧
    encodedBytes (emitEncode networkOrder [pointStruct] 1 HashCache.init pointStruct
      pointValue) = [0, 0, 0, 0, 0, 0, 36, 104, 63, 128, 0, 0, 64, 0, 0, 0] ∧
    (encodedBytes (emitEncode networkOrder [pointStruct] 1 HashCache.init pointStruct
      pointValue)).length = 16 ∧
    roundTrip networkOrder [pointStruct] 1 HashCache.init pointStruct pointValue =
      .ok pointValue :=
  scalar_layout networkOrder [pointStruct] 0 HashCache.init pointStruct
    [1065353216, 1073741824]
    (by
      intro lm hlm
      simp only [pointStruct, List.mem_cons, List.mem_singleton, List.not_mem_nil,
        or_false] at hlm
      rcases hlm with rfl | rfl <;> exact ⟨rfl, rfl, rfl⟩)
    (by decide)
    (List.Forall₂.cons (by decide) (List.Forall₂.cons (by decide) List.Forall₂.nil))
    (fun _ => by simp [HashCache.init])

/-- C13 (evaluation at the failing input): for `Path{int32_t n; float
pts[n][2]}` with `n = 3` the fingerprint is 238 and the emitted encode throws:
in the loop over the first dimension `msg.pts[i0]` is one number of the array,
and the code emitted for the last dimension stores into it by index.  The
emitted decode of the 36 bytes of the claimed layout throws as well: its first
statement for `pts` is `msg.pts = []`. -/
theorem mixed_array_evaluation :
    hashValue (emitGetHash [pathStruct] HashCache.init pathStruct) = some 238 ∧
    pathEncoding.length = 36 ∧
    messageAfter (emitEncode networkOrder [pathStruct] 1 HashCache.init pathStruct pathValue) =
      none ∧
    fieldEncoding networkOrder [pathStruct] 0 pathStruct
      ⟨⟨"float", "", "float"⟩, "pts", [.ZCM_VAR "n", .ZCM_CONST 2], ""⟩ pathValue =
      .error .methodError ∧
    decodedValue (emitDecode networkOrder [pathStruct] 1 HashCache.init pathStruct
      pathEncoding) = .error .methodError := by
  refine ⟨rfl, rfl, ?_, ?_, ?_⟩
  · rfl
  · rfl
  · rfl

theorem bytesOf_emitEncodeOne (o : Options) (structs : List ZCMStruct) (fuel : Nat)
    (ls : ZCMStruct) (msg : JVal) (buf : List Byte)
    (hnodup : (ls.members.map (fun lm => lm.membername)).Nodup) :
    bytesOf (emitEncodeOne o structs fuel ls msg buf) =
      (match encode_fields o structs fuel ls msg with
      | .error e => .error e
      | .ok payload => .ok (buf ++ payload)) := by
  rw [emitEncodeOne_prepend, bytesOf_prepend]
  cases fuel with
  | zero => rfl
  | succ fuel =>
    unfold emitEncodeOne encode_fields
    rw [emitEncodeOne_members_layout o structs (emitEncodeOne o structs fuel)
      (emitEncodeOne_prepend o structs fuel) (emitEncodeOne_frame o structs fuel)
      ls msg ls.members hnodup msg (fun _ _ => rfl) (fun _ => rfl)]
    rfl

theorem forLoop_elements (body : Nat → JVal × List Byte → Except JlError (JVal × List Byte))
    (single : JVal → List Byte → Except JlError (JVal × List Byte))
    (f : JVal → Except JlError (List Byte))
    (hsingle : ∀ x buf, bytesOf (single x buf) =
      match f x with
      | .error e => .error e
      | .ok b => .ok (buf ++ b))
    (dims : List Nat)
    (hbody : ∀ (j : Nat) (elems : List JVal) (buf : List Byte) (hj : j < elems.length),
      body (j + 1) (.arr dims elems, buf) =
        match single elems[j] buf with
        | .error e => .error e
        | .ok r => .ok (.arr dims (elems.set j r.1), r.2))
    (count : Nat) :
    ∀ (j : Nat) (elems : List JVal) (buf : List Byte), j + count ≤ elems.length →
      bytesOf (forLoop body count (j + 1) (.arr dims elems, buf)) =
        match concatElems f ((elems.drop j).take count) with
        | .error e => .error e
        | .ok bs => .ok (buf ++ bs) := by
  induction count with
  | zero =>
    intro j elems buf _
    simp [forLoop, concatElems, bytesOf]
  | succ count ih =>
    intro j elems buf hj
    have hlt : j < elems.length := by omega
    have hdrop : elems.drop j = elems[j] :: elems.drop (j + 1) := List.drop_eq_getElem_cons hlt
    have hs := hsingle elems[j] buf
    simp only [forLoop, hbody j elems buf hlt, hdrop, List.take_succ_cons, concatElems]
    cases hf : f elems[j] with
    | error e =>
      rw [hf] at hs
      cases hr : single elems[j] buf with
      | error e1 =>
        rw [hr, bytesOf_error] at hs
        simp only [bytesOf_error, hs]
      | ok r =>
        rw [hr, bytesOf_ok] at hs
        simp at hs
    | ok b =>
      rw [hf] at hs
      cases hr : single elems[j] buf with
      | error e1 =>
        rw [hr, bytesOf_error] at hs
        simp at hs
      | ok r =>
        rw [hr, bytesOf_ok] at hs
        simp only [Except.ok.injEq] at hs
        simp only [hs]
        have := ih (j + 1) (elems.set j r.1) (buf ++ b) (by rw [List.length_set]; omega)
        rw [this, List.drop_set_of_lt _ _ (Nat.lt_succ_self j)]
        cases concatElems f ((elems.drop (j + 1)).take count) with
        | error e => rfl
        | ok bs => simp only [List.append_assoc]

theorem emitEncodeOne_dims_elements
    (single : JVal → List Byte → Except JlError (JVal × List Byte))
    (bulk : JVal → Int → List Byte → Except JlError (JVal × List Byte))
    (extent : ZCMDimension → Except JlError Int)
    (f : JVal → Except JlError (List Byte))
    (hsingle : ∀ x buf, bytesOf (single x buf) =
      match f x with
      | .error e => .error e
      | .ok b => .ok (buf ++ b))
    (d : ZCMDimension) (k : Nat) (hext : extent d = .ok (k : Int))
    (dims : List Nat) (elems : List JVal) (hk : k ≤ elems.length) :
    bytesOf (emitEncodeOne_dims single bulk extent false [d] (.arr dims elems) []) =
      concatElems f (elems.take k) := by
  unfold emitEncodeOne_dims
  simp only [hext, Bool.false_eq_true, ↓reduceIte, Int.toNat_ofNat]
  refine Eq.trans (forLoop_elements _ single f hsingle dims ?_ k 0 elems [] (by omega)) ?_
  · intro j es buf hj
    simp only [getindex, Nat.add_sub_cancel, List.get?_eq_get hj, Nat.le_add_left,
      ↓reduceIte, putback]
    rfl
  · simp only [List.drop_zero, List.nil_append]
    cases concatElems f (elems.take k) <;> rfl

/-- C14 (array of nested messages, Scenario C): for a member of struct type `N`
(member names of `N` distinct) with the single dimension `ZCM_CONST k`, whose
field holds an array of at least `k` elements, the bytes the emitted code
appends are the concatenation of `encode_fields` of the first `k` elements, in
index order, nothing in between; and the encoding of a `Polygon` of four
`Point`s has 40 bytes. -/
theorem nested_array_encoding (o : Options) (structs : List ZCMStruct) (fuel : Nat)
    (ls N : ZCMStruct) (lm : ZCMMember) (msg : JVal) (k : Nat) (dims : List Nat)
    (elems : List JVal)
    (hd : lm.dimensions = [.ZCM_CONST k])
    (hp : isPrimitiveType lm.type.fullname = false)
    (hN : findStruct structs lm.type.fullname = some N)
    (hnodup : (N.members.map (fun m => m.membername)).Nodup)
    (hget : getfield msg lm.membername = .ok (.arr dims elems))
    (hk : k ≤ elems.length) :
    fieldEncoding o structs fuel ls lm msg =
      concatElems (fun e => encode_fields o structs fuel N e) (elems.take k) ∧
    (encodedBytes (emitEncode networkOrder [polygonStruct, pointStruct] 2 HashCache.init
      polygonStruct polygonValue)).length = 40 := by
  refine ⟨?_, rfl⟩
  have hsingle : ∀ x buf,
      bytesOf (emitEncodeSingleMember o structs (emitEncodeOne o structs fuel) lm x buf) =
        match encode_fields o structs fuel N x with
        | .error e => .error e
        | .ok b => .ok (buf ++ b) := by
    intro x buf
    rw [emitEncodeSingleMember_struct o structs _ lm x buf hp, hN]
    exact bytesOf_emitEncodeOne o structs fuel N x buf hnodup
  have hl : (isPrimitiveType lm.type.fullname && lm.type.fullname != "string") = false := by
    simp [hp]
  have hdims := emitEncodeOne_dims_elements
    (emitEncodeSingleMember o structs (emitEncodeOne o structs fuel) lm)
    (emitEncodeListMember o lm) (dimExtent ls msg)
    (fun e => encode_fields o structs fuel N e) hsingle (.ZCM_CONST k) k rfl dims elems hk
  unfold fieldEncoding emitEncodeOne_member
  rw [hget, hd]
  simp only [List.isEmpty_cons, Bool.false_eq_true, ↓reduceIte, hl]
  rw [← hdims]
  cases emitEncodeOne_dims (emitEncodeSingleMember o structs (emitEncodeOne o structs fuel) lm)
    (emitEncodeListMember o lm) (dimExtent ls msg) false [.ZCM_CONST k] (.arr dims elems) []
    <;> rfl

theorem nested_array_encoding_witness :
    fieldEncoding networkOrder [polygonStruct, pointStruct] 1 polygonStruct
        ⟨⟨"Point", "", "Point"⟩, "corners", [.ZCM_CONST 4], ""⟩ polygonValue =
      concatElems (fun e => encode_fields networkOrder [polygonStruct, pointStruct] 1
        pointStruct e) ([pointValue, pointValue, pointValue, pointValue].take 4) ∧
    (encodedBytes (emitEncode networkOrder [polygonStruct, pointStruct] 2 HashCache.init
      polygonStruct polygonValue)).length = 40 :=
  nested_array_encoding networkOrder [polygonStruct, pointStruct] 1 polygonStruct pointStruct
    ⟨⟨"Point", "", "Point"⟩, "corners", [.ZCM_CONST 4], ""⟩ polygonValue 4 [4]
    [pointValue, pointValue, pointValue, pointValue] rfl rfl rfl (by decide) rfl (by decide)

/-- C15 (default instance, with the evaluation at the failing input): the
emitted constructor stores in each field, in member order, the default of its
member.  For a member without dimensions this is the empty string, the number
0, or the instance the constructor of the struct type returns; for a member
with the single dimension `ZCM_CONST d` it is a one-dimensional array of `d`
such defaults; for a member whose first dimension is `ZCM_VAR` it is an empty
array of as many dimensions as the member has.  For a member with two or more
dimensions the first of which is `ZCM_CONST` no value is stored: the
initializer is a one-dimensional array of arrays, which has no conversion to
the declared `Array{T,N}`; the constructor of `Grid{int32_t g[2][3]}`
throws. -/
theorem default_instance (ctor : String → Except JlError JVal) (lm : ZCMMember)
    (rest : List ZCMMember) :
    (emitInstance_members ctor (lm :: rest) =
      match fieldDefault ctor lm with
      | .error e => .error e
      | .ok v =>
        match emitInstance_members ctor rest with
        | .error e => .error e
        | .ok fields => .ok ((lm.membername, v) :: fields)) ∧
    (lm.dimensions = [] →
      fieldDefault ctor lm =
        if lm.type.fullname == "string" then .ok (.str [])
        else if isPrimitiveType lm.type.fullname then .ok (.num 0)
        else ctor lm.type.fullname) ∧
    (∀ d leaf, lm.dimensions = [.ZCM_CONST d] →
      emitMemberInitializer ctor lm [] = .ok leaf →
      fieldDefault ctor lm = .ok (.arr [d] (List.replicate d leaf))) ∧
    (∀ name more, lm.dimensions = .ZCM_VAR name :: more →
      fieldDefault ctor lm = .ok (.arr (List.replicate (more.length + 1) 0) [])) ∧
    (∀ d d2 more, lm.dimensions = .ZCM_CONST d :: d2 :: more →
      (fieldDefault ctor lm).toOption = none) ∧
    emitInstance [gridStruct] 1 gridStruct = .error .methodError := by
  refine ⟨?_, ?_, ?_, ?_, ?_, rfl⟩
  · unfold fieldDefault
    simp only [emitInstance_members]
    cases emitMemberInitializer ctor lm lm.dimensions with
    | error e => rfl
    | ok v => cases convertField lm.dimensions.length v <;> rfl
  · intro hd
    unfold fieldDefault
    rw [hd]
    simp only [emitMemberInitializer, List.length_nil]
    by_cases hs : (lm.type.fullname == "string") = true
    · simp only [hs, ↓reduceIte, convertField]
    · by_cases hp : isPrimitiveType lm.type.fullname = true
      · simp [hs, hp, convertField]
      · simp only [hs, hp, ↓reduceIte]
        cases ctor lm.type.fullname <;> rfl
  · intro d leaf hd hleaf
    unfold fieldDefault
    rw [hd]
    by_cases h0 : d = 0
    · subst h0
      simp [emitMemberInitializer, convertField]
    · have e : emitMemberInitializer ctor lm [.ZCM_CONST d] =
          if d = 0 then .ok (.arr [0] [])
          else
            match emitMemberInitializer ctor lm [] with
            | .error e => .error e
            | .ok v => .ok (.arr [d] (List.replicate d v)) := rfl
      rw [e, if_neg h0, hleaf]
      simp [convertField]
  · intro name more hd
    unfold fieldDefault
    rw [hd]
    simp [emitMemberInitializer, convertField]
  · intro d d2 more hd
    unfold fieldDefault
    rw [hd]
    by_cases h0 : d = 0
    · subst h0
      simp [emitMemberInitializer, convertField, Except.toOption]
    · simp only [emitMemberInitializer, h0, ↓reduceIte]
      cases emitMemberInitializer ctor lm (d2 :: more) with
      | error e => rfl
      | ok v => simp [convertField, Except.toOption]

theorem default_instance_witness :
    fieldDefault (fun _ => .error .undefVarError)
        ⟨⟨"float", "", "float"⟩, "x", [], ""⟩ = .ok (.num 0) ∧
    fieldDefault (fun _ => .error .undefVarError)
        ⟨⟨"int32_t", "", "int32_t"⟩, "a", [.ZCM_CONST 2], ""⟩ =
      .ok (.arr [2] (List.replicate 2 (.num 0))) ∧
    fieldDefault (fun _ => .error .undefVarError)
        ⟨⟨"float", "", "float"⟩, "pts", [.ZCM_VAR "n", .ZCM_CONST 2], ""⟩ =
      .ok (.arr (List.replicate ([ZCMDimension.ZCM_CONST 2].length + 1) 0) []) ∧
    (fieldDefault (fun _ => .error .undefVarError)
        ⟨⟨"int32_t", "", "int32_t"⟩, "g", [.ZCM_CONST 2, .ZCM_CONST 3], ""⟩).toOption = none :=
  ⟨(default_instance (fun _ => .error .undefVarError)
      ⟨⟨"float", "", "float"⟩, "x", [], ""⟩ []).2.1 rfl,
   (default_instance (fun _ => .error .undefVarError)
      ⟨⟨"int32_t", "", "int32_t"⟩, "a", [.ZCM_CONST 2], ""⟩ []).2.2.1 2 (.num 0) rfl rfl,
   (default_instance (fun _ => .error .undefVarError)
      ⟨⟨"float", "", "float"⟩, "pts", [.ZCM_VAR "n", .ZCM_CONST 2], ""⟩ []).2.2.2.1
        "n" [.ZCM_CONST 2] rfl,
   (default_instance (fun _ => .error .undefVarError)
      ⟨⟨"int32_t", "", "int32_t"⟩, "g", [.ZCM_CONST 2, .ZCM_CONST 3], ""⟩ []).2.2.2.2.1
        2 (.ZCM_CONST 3) [] rfl⟩

theorem emitEncodeSingleMember_not_num (o : Options) (structs : List ZCMStruct)
    (encodeOne : ZCMStruct → JVal → List Byte → Except JlError (JVal × List Byte))
    (lm : ZCMMember) (x : JVal) (buf : List Byte)
    (hp : isPrimitiveType lm.type.fullname = true) (hs : (lm.type.fullname == "string") = false)
    (hx : isNum x = false) :
    emitEncodeSingleMember o structs encodeOne lm x buf = .error .methodError := by
  unfold emitEncodeSingleMember
  generalize lm.type.fullname = tn at *
  rcases primitive_cases tn hp hs with rfl | rfl | rfl | rfl | rfl | rfl | rfl | rfl <;>
    (simp +decide only [↓reduceIte, Bool.or_true, Bool.true_or, Bool.or_false, Bool.false_or]
     cases x <;> simp_all [isNum])

theorem concatElems_numBits (o : Options) (structs : List ZCMStruct)
    (encodeOne : ZCMStruct → JVal → List Byte → Except JlError (JVal × List Byte))
    (lm : ZCMMember)
    (hp : isPrimitiveType lm.type.fullname = true) (hs : (lm.type.fullname == "string") = false)
    (l : List JVal) :
    concatElems (fun x => bytesOf (emitEncodeSingleMember o structs encodeOne lm x [])) l =
      match numBits l with
      | none => .error .methodError
      | some bits =>
        .ok ((bits.map (wireBytes o (getPrimitiveTypeSize lm.type.fullname))).flatten) := by
  induction l with
  | nil => rfl
  | cons x rest ih =>
    cases x with
    | num b =>
      simp only [concatElems, emitEncodeSingleMember_num o structs encodeOne lm b [] hp hs,
        bytesOf_ok, List.nil_append, ih, numBits]
      cases numBits rest <;> simp
    | str d =>
      simp [concatElems, numBits,
        emitEncodeSingleMember_not_num o structs encodeOne lm (.str d) [] hp hs rfl, bytesOf_error]
    | chr d =>
      simp [concatElems, numBits,
        emitEncodeSingleMember_not_num o structs encodeOne lm (.chr d) [] hp hs rfl, bytesOf_error]
    | arr d es =>
      simp [concatElems, numBits,
        emitEncodeSingleMember_not_num o structs encodeOne lm (.arr d es) [] hp hs rfl,
        bytesOf_error]
    | obj fs =>
      simp [concatElems, numBits,
        emitEncodeSingleMember_not_num o structs encodeOne lm (.obj fs) [] hp hs rfl,
        bytesOf_error]

theorem writeBits_comp_hton (o : Options) (w : Nat) :
    writeBits o w ∘ hton o w = wireBytes o w :=
  funext (writeBits_hton o w)

theorem writeBits_boolean (o : Options) :
    writeBits o (getPrimitiveTypeSize "boolean") = wireBytes o (getPrimitiveTypeSize "boolean") :=
  funext (writeBits_one o)

theorem emitEncodeListMember_bytes (o : Options) (lm : ZCMMember) (dims : List Nat)
    (elems : List JVal) (len : Int) (buf : List Byte)
    (hp : isPrimitiveType lm.type.fullname = true) (hs : (lm.type.fullname == "string") = false) :
    bytesOf (emitEncodeListMember o lm (.arr dims elems) len buf) =
      if len.toNat ≤ elems.length then
        match numBits (elems.take len.toNat) with
        | none => .error .methodError
        | some bits =>
          .ok (buf ++ (bits.map (wireBytes o (getPrimitiveTypeSize lm.type.fullname))).flatten)
      else .error .boundsError := by
  unfold emitEncodeListMember
  generalize lm.type.fullname = tn at *
  by_cases hlen : len.toNat ≤ elems.length
  · rw [if_pos hlen]
    rcases primitive_cases tn hp hs with rfl | rfl | rfl | rfl | rfl | rfl | rfl | rfl <;>
      (simp +decide only [↓reduceIte, Bool.or_true, Bool.true_or, Bool.or_false, Bool.false_or,
        hlen]
       cases numBits (elems.take len.toNat) with
       | none => rfl
       | some bits =>
         simp only [bytesOf_ok, List.map_map, writeBits_comp_hton, writeBits_boolean])
  · rw [if_neg hlen]
    rcases primitive_cases tn hp hs with rfl | rfl | rfl | rfl | rfl | rfl | rfl | rfl <;>
      simp +decide only [↓reduceIte, Bool.or_true, Bool.true_or, Bool.or_false, Bool.false_or,
        hlen, bytesOf_error]

/-- C21 (bulk write equals elementwise write): for every primitive type other
than string, every byte order of wire and host, and every array holding at
least `len` elements, the bytes that the code of `emitEncodeListMember` appends
(the conversion pass, then one `write` of the elements `1..len`) are the
concatenation, in index order, of the bytes that the code of
`emitEncodeSingleMember` appends for each of these elements; when the elements
are numbers this is the concatenation of their values at the width of the type
in wire order. -/
theorem bulk_equals_elementwise (o : Options) (structs : List ZCMStruct)
    (encodeOne : ZCMStruct → JVal → List Byte → Except JlError (JVal × List Byte))
    (lm : ZCMMember) (dims : List Nat) (elems : List JVal) (len : Int) (buf : List Byte)
    (hp : isPrimitiveType lm.type.fullname = true) (hs : (lm.type.fullname == "string") = false)
    (hlen : len.toNat ≤ elems.length) :
    bytesOf (emitEncodeListMember o lm (.arr dims elems) len buf) =
      (match concatElems (fun x => bytesOf (emitEncodeSingleMember o structs encodeOne lm x []))
          (elems.take len.toNat) with
      | .error e => .error e
      | .ok bs => .ok (buf ++ bs)) ∧
    (∀ bits, numBits (elems.take len.toNat) = some bits →
      bytesOf (emitEncodeListMember o lm (.arr dims elems) len buf) =
        .ok (buf ++
          (bits.map (wireBytes o (getPrimitiveTypeSize lm.type.fullname))).flatten)) := by
  rw [emitEncodeListMember_bytes o lm dims elems len buf hp hs, if_pos hlen,
    concatElems_numBits o structs encodeOne lm hp hs]
  constructor
  · cases numBits (elems.take len.toNat) <;> rfl
  · intro bits hb
    rw [hb]

theorem bulk_equals_elementwise_witness :
    bytesOf (emitEncodeListMember networkOrder ⟨⟨"int32_t", "", "int32_t"⟩, "a", [.ZCM_CONST 2], ""⟩
        (.arr [3] [.num 1, .num 2, .num 3]) 2 [9]) =
      (match concatElems (fun x => bytesOf (emitEncodeSingleMember networkOrder [samplesStruct]
            (emitEncodeOne networkOrder [samplesStruct] 0)
            ⟨⟨"int32_t", "", "int32_t"⟩, "a", [.ZCM_CONST 2], ""⟩ x []))
          ([JVal.num 1, .num 2, .num 3].take (2 : Int).toNat) with
      | .error e => .error e
      | .ok bs => .ok ([9] ++ bs)) ∧
    (∀ bits, numBits ([JVal.num 1, .num 2, .num 3].take (2 : Int).toNat) = some bits →
      bytesOf (emitEncodeListMember networkOrder
          ⟨⟨"int32_t", "", "int32_t"⟩, "a", [.ZCM_CONST 2], ""⟩
          (.arr [3] [.num 1, .num 2, .num 3]) 2 [9]) =
        .ok ([9] ++ (bits.map (wireBytes networkOrder
          (getPrimitiveTypeSize "int32_t"))).flatten)) :=
  bulk_equals_elementwise networkOrder [samplesStruct]
    (emitEncodeOne networkOrder [samplesStruct] 0)
    ⟨⟨"int32_t", "", "int32_t"⟩, "a", [.ZCM_CONST 2], ""⟩ [3] [.num 1, .num 2, .num 3] 2 [9]
    rfl rfl (by decide)

/-- C22 as the code has it: for a string `s` all of whose characters take one
byte, the code emitted for a scalar string member encodes `s` as the prefix
`length + 1`, the bytes of `s` and eight zero bytes, and the code emitted to
decode it, run on that encoding followed by `rest`, returns the string of `s`
followed by one zero byte and leaves the buffer seven bytes before the start of
`rest`: the decoded value is not `s` and the buffer left is not `rest`. -/
theorem string_decode_keeps_terminator (o : Options) (structs : List ZCMStruct)
    (encodeOne : ZCMStruct → JVal → List Byte → Except JlError (JVal × List Byte))
    (lm : ZCMMember) (data rest : List Byte) (htn : lm.type.fullname = "string")
    (hchars : strLength data = data.length) (hlen : data.length + 1 < 2 ^ 32) :
    emitEncodeSingleMember o structs encodeOne lm (.str data) [] =
      .ok (.str data, wireBytes o 4 (data.length + 1) ++ data ++ [0, 0, 0, 0, 0, 0, 0, 0]) ∧
    emitDecodeSingleMember o lm
        (wireBytes o 4 (data.length + 1) ++ data ++ [0, 0, 0, 0, 0, 0, 0, 0] ++ rest) =
      .ok (.str (data ++ [0]), [0, 0, 0, 0, 0, 0, 0] ++ rest) ∧
    JVal.str (data ++ [0]) ≠ .str data ∧
    ([0, 0, 0, 0, 0, 0, 0] : List Byte) ++ rest ≠ rest := by
  have h4 : (wireBytes o 4 (data.length + 1)).length = 4 := wireBytes_length o 4 _
  refine ⟨?_, ?_, ?_, ?_⟩
  · unfold emitEncodeSingleMember
    simp only [htn, beq_self_eq_true, ↓reduceIte, hchars, hlen, writeBits_hton, List.nil_append]
    have hz : writeBits o 8 0 = [0, 0, 0, 0, 0, 0, 0, 0] := by
      unfold writeBits
      cases o.hostLittleEndian <;> rfl
    rw [hz]
  · unfold emitDecodeSingleMember
    have hr4 : read (wireBytes o 4 (data.length + 1) ++ data ++ [0, 0, 0, 0, 0, 0, 0, 0] ++ rest)
        4 = .ok (wireBytes o 4 (data.length + 1),
          data ++ ([0, 0, 0, 0, 0, 0, 0, 0] ++ rest)) := by
      have := read_natCast
        (wireBytes o 4 (data.length + 1) ++ data ++ [0, 0, 0, 0, 0, 0, 0, 0] ++ rest) 4
      rw [List.append_assoc, List.append_assoc, List.take_left' h4, List.drop_left' h4] at this
      simpa [List.append_assoc] using this
    have hval : ntoh o 4 (bitsOfBytes o (wireBytes o 4 (data.length + 1))) =
        data.length + 1 := by
      have := ntoh_bitsOfBytes o (wireBytes o 4 (data.length + 1))
      rw [h4, wireValue_wireBytes] at this
      rw [this]
      exact Nat.mod_eq_of_lt (by norm_num at hlen ⊢; exact hlen)
    have hrd : read (data ++ ([0, 0, 0, 0, 0, 0, 0, 0] ++ rest)) ((data.length + 1 : Nat) : Int) =
        .ok (data ++ [0], [0, 0, 0, 0, 0, 0, 0] ++ rest) := by
      rw [read_natCast]
      have e : data ++ ([0, 0, 0, 0, 0, 0, 0, 0] ++ rest) =
          (data ++ [0]) ++ ([0, 0, 0, 0, 0, 0, 0] ++ rest) := by simp
      have hl : (data ++ [(0 : Byte)]).length = data.length + 1 := by simp
      rw [e, List.take_left' hl, List.drop_left' hl]
    simp only [htn, beq_self_eq_true, ↓reduceIte, hr4,
      reinterpret_of_length o 4 (by norm_num) _ h4, first, hval, hrd]
  · intro h
    have := congrArg (fun v => match v with
      | JVal.str d => d.length
      | _ => 0) h
    simp at this
  · intro h
    have := congrArg List.length h
    simp only [List.length_append, List.length_cons, List.length_nil] at this
    omega

theorem string_decode_keeps_terminator_witness :
    emitEncodeSingleMember networkOrder [textStruct] (emitEncodeOne networkOrder [textStruct] 0)
        ⟨⟨"string", "", "string"⟩, "s", [], ""⟩ (.str [97]) [] =
      .ok (.str [97], wireBytes networkOrder 4 ([97].length + 1) ++ [97] ++
        [0, 0, 0, 0, 0, 0, 0, 0]) ∧
    emitDecodeSingleMember networkOrder ⟨⟨"string", "", "string"⟩, "s", [], ""⟩
        (wireBytes networkOrder 4 ([97].length + 1) ++ [97] ++ [0, 0, 0, 0, 0, 0, 0, 0] ++
          [1, 2]) =
      .ok (.str ([97] ++ [0]), [0, 0, 0, 0, 0, 0, 0] ++ [1, 2]) ∧
    JVal.str ([97] ++ [0]) ≠ .str [97] ∧
    ([0, 0, 0, 0, 0, 0, 0] : List Byte) ++ [1, 2] ≠ [1, 2] :=
  string_decode_keeps_terminator networkOrder [textStruct]
    (emitEncodeOne networkOrder [textStruct] 0)
    ⟨⟨"string", "", "string"⟩, "s", [], ""⟩ [97] [1, 2] rfl (by decide) (by decide)

theorem refSum_eq_sum (call : ZCMTypename → Nat) (ts : List ZCMTypename) (acc : Nat)
    (hacc : acc < 2 ^ 64) :
    refSum call ts acc =
      (acc + ((ts.filter (fun t => !isPrimitiveType t.fullname)).map call).sum) % 2 ^ 64 := by
  induction ts generalizing acc with
  | nil =>
    simp only [refSum, List.filter_nil, List.map_nil, List.sum_nil, Nat.add_zero,
      Nat.mod_eq_of_lt hacc]
  | cons t rest ih =>
    by_cases hp : isPrimitiveType t.fullname = true
    · simp only [refSum, hp, ↓reduceIte, List.filter_cons, Bool.not_true, Bool.false_eq_true]
      exact ih acc hacc
    · have hp1 : isPrimitiveType t.fullname = false := by simpa using hp
      simp only [refSum, hp1, Bool.false_eq_true, ↓reduceIte, List.filter_cons, Bool.not_false,
        List.map_cons, List.sum_cons]
      rw [ih _ (Nat.mod_lt _ (by norm_num)), Nat.mod_add_mod, Nat.add_assoc]

theorem cutHash_eq_refHash (structs : List ZCMStruct) (rank : String → Nat)
    (hac : Acyclic structs rank)
    (hname : ∀ ls, Registered structs ls → ∀ lm ∈ ls.members,
      isPrimitiveType lm.type.fullname = false →
      resolveType structs ls lm.type = findStruct structs lm.type.fullname ∧
        lm.type.fullname ≠ ls.structname.fullname) :
    ∀ (n : Nat) (ls : ZCMStruct), Registered structs ls → rank ls.structname.shortname = n →
      ∀ f, n + 1 ≤ f → cutHash structs f ls = refHash structs f ls := by
  intro n
  induction n using Nat.strong_induction_on with
  | _ n ih =>
    intro ls hreg hrank f hf
    obtain ⟨g, rfl⟩ : ∃ g, f = g + 1 := ⟨f - 1, by omega⟩
    rw [cutHash_succ, refHash_succ]
    congr 1
    apply refSum_congr
    intro t ht hp
    obtain ⟨lm, hlm, rfl⟩ := List.mem_map.mp ht
    obtain ⟨ls1, hres, hreg1, hlt⟩ := hac.2 ls hreg lm hlm hp
    obtain ⟨hfind, hne⟩ := hname ls hreg lm hlm hp
    have hf1 : findStruct structs lm.type.fullname = some ls1 := by rw [← hfind]; exact hres
    have hself : ls1 ≠ ls := by
      intro h
      rw [h] at hf1
      exact hne (findStruct_fullname hf1).symm
    simp only [hres, hf1, hself, ↓reduceIte]
    rcases hlt with h | h
    · exact absurd h hself
    · exact ih _ (by omega) ls1 hreg1 rfl g (by omega)

theorem refHash_fuel (structs : List ZCMStruct) (rank : String → Nat)
    (hac : Acyclic structs rank)
    (hname : ∀ ls, Registered structs ls → ∀ lm ∈ ls.members,
      isPrimitiveType lm.type.fullname = false →
      resolveType structs ls lm.type = findStruct structs lm.type.fullname ∧
        lm.type.fullname ≠ ls.structname.fullname)
    (ls : ZCMStruct) (hreg : Registered structs ls) (f1 f2 : Nat)
    (h1 : rank ls.structname.shortname + 1 ≤ f1) (h2 : rank ls.structname.shortname + 1 ≤ f2) :
    refHash structs f1 ls = refHash structs f2 ls := by
  rw [← cutHash_eq_refHash structs rank hac hname _ ls hreg rfl f1 h1,
    ← cutHash_eq_refHash structs rank hac hname _ ls hreg rfl f2 h2]
  exact cutHash_fuel structs _ rank hac _ ls hreg rfl f1 f2 h1 h2

/-- C23 (memoization on schemas without cycles, with the evaluation at the
failing input): when the identifier emitted for every nested type is bound to
the registered struct of that full name, which is another struct than the one
that refers to it, and no chain of references leads from a struct back to a
struct of the same short name, the emitted `getHash`, called for a registered
struct in a cache that earlier `getHash` calls produced, returns the value of
the reference recursion, which needs no more depth than the rank of the struct
and is the rotation of the base hash plus the reference fingerprints of the
member types that are not primitive, modulo `2 ^ 64`.  In the registry of
`a.X` (one member of type `M`), `M` (one member of type `X`) and `X`, whose
reference graph has no cycle, `getHash` of `a.X` returns 38 and the reference
recursion gives 62. -/
theorem memoization_transparent (structs : List ZCMStruct) (rank : String → Nat)
    (hac : Acyclic structs rank)
    (hname : ∀ ls, Registered structs ls → ∀ lm ∈ ls.members,
      isPrimitiveType lm.type.fullname = false →
      resolveType structs ls lm.type = findStruct structs lm.type.fullname ∧
        lm.type.fullname ≠ ls.structname.fullname)
    (c : HashCache) (hr : Reachable structs c)
    (ls : ZCMStruct) (hreg : Registered structs ls) :
    hashValue (emitGetHash structs c ls) =
      some (refHash structs (rank ls.structname.shortname + 1) ls) ∧
    (∀ fuel, rank ls.structname.shortname + 1 ≤ fuel →
      refHash structs fuel ls = refHash structs (rank ls.structname.shortname + 1) ls) ∧
    refHash structs (rank ls.structname.shortname + 1) ls =
      rotl1 ((ls.hash % 2 ^ 64 + ((nestedTypes ls).map (refValue structs rank)).sum) % 2 ^ 64) ∧
    (hashValue (emitGetHash shadowStructs HashCache.init shadowAX) = some 38 ∧
      refHash shadowStructs 1 shadowX = 6 ∧
      refHash shadowStructs 2 shadowM = 26 ∧
      refHash shadowStructs 3 shadowAX = 62 ∧
      refHash shadowStructs 4 shadowAX = 62) := by
  refine ⟨?_, ?_, ?_, rfl, rfl, rfl, rfl, rfl⟩
  · rw [hashValue_eq_cutHash structs rank hac c hr ls hreg,
      cutHash_eq_refHash structs rank hac hname _ ls hreg rfl _ (le_refl _)]
  · intro fuel hfuel
    exact refHash_fuel structs rank hac hname ls hreg _ _ hfuel (le_refl _)
  · rw [refHash_succ, mixHash_eq_rotl1]
    congr 1
    rw [refSum_congr _ (refValue structs rank) _ _ ?_,
      refSum_eq_sum _ _ _ (Nat.mod_lt _ (by norm_num))]
    · unfold nestedTypes
      rw [List.filter_map]
      rfl
    · intro t ht hp
      obtain ⟨lm, hlm, rfl⟩ := List.mem_map.mp ht
      obtain ⟨ls1, hres, hreg1, hlt⟩ := hac.2 ls hreg lm hlm hp
      obtain ⟨hfind, hne⟩ := hname ls hreg lm hlm hp
      have hf1 : findStruct structs lm.type.fullname = some ls1 := by rw [← hfind]; exact hres
      have hself : ls1 ≠ ls := by
        intro h
        rw [h] at hf1
        exact hne (findStruct_fullname hf1).symm
      simp only [refValue, hf1]
      rcases hlt with h | h
      · exact absurd h hself
      · exact refHash_fuel structs rank hac hname ls1 hreg1 _ _ (by omega) (le_refl _)

theorem memoization_transparent_witness :
    hashValue (emitGetHash witnessStructs HashCache.init witnessOuter) =
      some (refHash witnessStructs (witnessRank witnessOuter.structname.shortname + 1)
        witnessOuter) ∧
    (∀ fuel, witnessRank witnessOuter.structname.shortname + 1 ≤ fuel →
      refHash witnessStructs fuel witnessOuter =
        refHash witnessStructs (witnessRank witnessOuter.structname.shortname + 1)
          witnessOuter) ∧
    refHash witnessStructs (witnessRank witnessOuter.structname.shortname + 1) witnessOuter =
      rotl1 ((witnessOuter.hash % 2 ^ 64 +
        ((nestedTypes witnessOuter).map (refValue witnessStructs witnessRank)).sum) % 2 ^ 64) ∧
    (hashValue (emitGetHash shadowStructs HashCache.init shadowAX) = some 38 ∧
      refHash shadowStructs 1 shadowX = 6 ∧
      refHash shadowStructs 2 shadowM = 26 ∧
      refHash shadowStructs 3 shadowAX = 62 ∧
      refHash shadowStructs 4 shadowAX = 62) :=
  memoization_transparent witnessStructs witnessRank witnessStructs_acyclic
    (by
      intro ls hreg lm hlm hp
      have hmem := findStruct_mem hreg
      simp only [witnessStructs, List.mem_cons, List.mem_singleton, List.not_mem_nil,
        or_false] at hmem
      rcases hmem with rfl | rfl
      · simp only [List.mem_cons, List.mem_singleton, List.not_mem_nil, or_false] at hlm
        rcases hlm with rfl | rfl | rfl
        · exact absurd hp (by decide)
        · exact ⟨rfl, by decide⟩
        · exact ⟨rfl, by decide⟩
      · simp only [List.mem_cons, List.mem_singleton, List.not_mem_nil, or_false] at hlm
        subst hlm
        exact absurd hp (by decide))
    HashCache.init Reachable.init witnessOuter rfl

/-- C24 (evaluation at the failing input): encoding `Samples{a = [1, 2]}` twice
in succession, in big-endian wire order on a little-endian host, returns first
the header followed by `00 00 00 01 00 00 00 02` and then the header followed
by `01 00 00 00 02 00 00 00`: the conversion pass of the first call left the
converted elements in the message, and the second call converts them again. -/
theorem encode_twice_evaluation :
    encodeTwice networkOrder [samplesStruct] 1 HashCache.init samplesStruct
        (.obj [("a", .arr [2] [.num 1, .num 2])]) =
      .ok ([0, 0, 0, 0, 0, 0, 0, 170, 0, 0, 0, 1, 0, 0, 0, 2],
           [0, 0, 0, 0, 0, 0, 0, 170, 1, 0, 0, 0, 2, 0, 0, 0]) ∧
    ([0, 0, 0, 0, 0, 0, 0, 170, 0, 0, 0, 1, 0, 0, 0, 2] : List Byte) ≠
      [0, 0, 0, 0, 0, 0, 0, 170, 1, 0, 0, 0, 2, 0, 0, 0] := by
  refine ⟨by rfl, by decide⟩

theorem fieldEncoding_dims (o : Options) (structs : List ZCMStruct) (fuel : Nat)
    (ls : ZCMStruct) (lm : ZCMMember) (msg x : JVal)
    (hget : getfield msg lm.membername = .ok x) (hd : lm.dimensions.isEmpty = false) :
    fieldEncoding o structs fuel ls lm msg =
      bytesOf (emitEncodeOne_dims (emitEncodeSingleMember o structs (emitEncodeOne o structs fuel) lm)
        (emitEncodeListMember o lm) (dimExtent ls msg)
        (isPrimitiveType lm.type.fullname && lm.type.fullname != "string")
        lm.dimensions x []) := by
  unfold fieldEncoding emitEncodeOne_member
  rw [hget]
  simp only [hd, Bool.false_eq_true, ↓reduceIte]
  cases emitEncodeOne_dims (emitEncodeSingleMember o structs (emitEncodeOne o structs fuel) lm)
    (emitEncodeListMember o lm) (dimExtent ls msg)
    (isPrimitiveType lm.type.fullname && lm.type.fullname != "string")
    lm.dimensions x [] <;> rfl

theorem forLoop_short (body : Nat → JVal × List Byte → Except JlError (JVal × List Byte))
    (single : JVal → List Byte → Except JlError (JVal × List Byte))
    (dims : List Nat)
    (hbody : ∀ (j : Nat) (elems : List JVal) (buf : List Byte) (hj : j < elems.length),
      body (j + 1) (.arr dims elems, buf) =
        match single elems[j] buf with
        | .error e => .error e
        | .ok r => .ok (.arr dims (elems.set j r.1), r.2))
    (hout : ∀ (j : Nat) (elems : List JVal) (buf : List Byte), elems.length ≤ j →
      body (j + 1) (.arr dims elems, buf) = .error .boundsError)
    (count : Nat) :
    ∀ (j : Nat) (elems : List JVal) (buf : List Byte), j ≤ elems.length →
      elems.length < j + count →
      (forLoop body count (j + 1) (.arr dims elems, buf)).toOption = none := by
  induction count with
  | zero =>
    intro j elems buf hle hj
    omega
  | succ count ih =>
    intro j elems buf hle hj
    unfold forLoop
    by_cases hlt : j < elems.length
    · rw [hbody j elems buf hlt]
      cases single elems[j] buf with
      | error e => rfl
      | ok r =>
        simp only
        exact ih (j + 1) (elems.set j r.1) r.2 (by rw [List.length_set]; omega)
          (by rw [List.length_set]; omega)
    · rw [hout j elems buf (by omega)]
      rfl

theorem emitEncodeOne_dims_short
    (single : JVal → List Byte → Except JlError (JVal × List Byte))
    (bulk : JVal → Int → List Byte → Except JlError (JVal × List Byte))
    (extent : ZCMDimension → Except JlError Int)
    (d : ZCMDimension) (e : Int) (hext : extent d = .ok e)
    (dims : List Nat) (elems : List JVal) (hk : elems.length < e.toNat) (buf : List Byte) :
    (emitEncodeOne_dims single bulk extent false [d] (.arr dims elems) buf).toOption = none := by
  unfold emitEncodeOne_dims
  simp only [hext, Bool.false_eq_true, ↓reduceIte]
  refine forLoop_short _ single dims ?_ ?_ e.toNat 0 elems buf (Nat.zero_le _) (by omega)
  · intro j es b hj
    simp only [getindex, Nat.add_sub_cancel, List.get?_eq_get hj, Nat.le_add_left,
      ↓reduceIte, putback]
    rfl
  · intro j es b hj
    simp only [getindex, Nat.add_sub_cancel, List.get?_eq_none.mpr hj]

/-- C25 (the declared extent decides how much is written, with the evaluation
at the failing input): for a member with one dimension of extent `e ≥ 0` whose
field holds an array, the bytes the emitted code appends are the scalar
encodings of the first `e` elements, in index order, when the array holds at
least `e` elements (further elements are not read), and the emitted code
throws when the array holds fewer.  For a member with two dimensions the
emitted code throws although the row holds as many elements as the innermost
extent asks for: `Path{n = 1, pts}` with one row of three floats and innermost
extent 2. -/
theorem extent_decides (o : Options) (structs : List ZCMStruct) (fuel : Nat) (ls : ZCMStruct)
    (lm : ZCMMember) (msg : JVal) (d : ZCMDimension) (e : Int) (dims : List Nat)
    (elems : List JVal)
    (hd : lm.dimensions = [d])
    (hget : getfield msg lm.membername = .ok (.arr dims elems))
    (hext : dimExtent ls msg d = .ok e) (he : 0 ≤ e) :
    (e.toNat ≤ elems.length →
      fieldEncoding o structs fuel ls lm msg =
        concatElems (fun x => bytesOf (emitEncodeSingleMember o structs
          (emitEncodeOne o structs fuel) lm x [])) (elems.take e.toNat)) ∧
    (elems.length < e.toNat → (fieldEncoding o structs fuel ls lm msg).toOption = none) ∧
    fieldEncoding networkOrder [pathStruct] 0 pathStruct
      ⟨⟨"float", "", "float"⟩, "pts", [.ZCM_VAR "n", .ZCM_CONST 2], ""⟩ pathWide =
      .error .methodError ∧
    messageAfter (emitEncode networkOrder [pathStruct] 1 HashCache.init pathStruct pathWide) =
      none := by
  have hfe := fieldEncoding_dims o structs fuel ls lm msg _ hget (by rw [hd]; rfl)
  rw [hd] at hfe
  have hsingle : ∀ x buf,
      bytesOf (emitEncodeSingleMember o structs (emitEncodeOne o structs fuel) lm x buf) =
        match bytesOf (emitEncodeSingleMember o structs (emitEncodeOne o structs fuel) lm x [])
          with
        | .error e => .error e
        | .ok b => .ok (buf ++ b) := by
    intro x buf
    rw [emitEncodeSingleMember_prepend o structs _ (emitEncodeOne_prepend o structs fuel) lm x buf]
    refine (bytesOf_prepend _ _).trans ?_
    cases bytesOf (emitEncodeSingleMember o structs (emitEncodeOne o structs fuel) lm x []) <;>
      rfl
  refine ⟨?_, ?_, rfl, rfl⟩
  · intro hle
    rw [hfe]
    by_cases hl : (isPrimitiveType lm.type.fullname && lm.type.fullname != "string") = true
    · have hp : isPrimitiveType lm.type.fullname = true := by
        simp only [Bool.and_eq_true] at hl
        exact hl.1
      have hs : (lm.type.fullname == "string") = false := by
        simp only [Bool.and_eq_true, bne_iff_ne, ne_eq] at hl
        simpa using hl.2
      simp only [hl, emitEncodeOne_dims, hext, ↓reduceIte]
      rw [emitEncodeListMember_bytes o lm dims elems e [] hp hs, if_pos hle,
        concatElems_numBits o structs _ lm hp hs]
      cases numBits (elems.take e.toNat) <;> simp
    · have hl1 : (isPrimitiveType lm.type.fullname && lm.type.fullname != "string") = false := by
        simpa using hl
      rw [hl1]
      exact emitEncodeOne_dims_elements _ _ _ _ hsingle d e.toNat
        (by rw [hext, Int.toNat_of_nonneg he]) dims elems hle
  · intro hlt
    rw [hfe]
    by_cases hl : (isPrimitiveType lm.type.fullname && lm.type.fullname != "string") = true
    · have hp : isPrimitiveType lm.type.fullname = true := by
        simp only [Bool.and_eq_true] at hl
        exact hl.1
      have hs : (lm.type.fullname == "string") = false := by
        simp only [Bool.and_eq_true, bne_iff_ne, ne_eq] at hl
        simpa using hl.2
      simp only [hl, emitEncodeOne_dims, hext, ↓reduceIte]
      rw [emitEncodeListMember_bytes o lm dims elems e [] hp hs, if_neg (by omega)]
      rfl
    · have hl1 : (isPrimitiveType lm.type.fullname && lm.type.fullname != "string") = false := by
        simpa using hl
      rw [hl1]
      have := emitEncodeOne_dims_short
        (emitEncodeSingleMember o structs (emitEncodeOne o structs fuel) lm)
        (emitEncodeListMember o lm) (dimExtent ls msg) d e hext dims elems hlt []
      revert this
      cases emitEncodeOne_dims
        (emitEncodeSingleMember o structs (emitEncodeOne o structs fuel) lm)
        (emitEncodeListMember o lm) (dimExtent ls msg) false [d] (.arr dims elems) [] with
      | error e1 => intro _; rfl
      | ok r => intro h; simp [Except.toOption] at h

theorem extent_decides_witness :
    fieldEncoding networkOrder [samplesStruct] 0 samplesStruct
        ⟨⟨"int32_t", "", "int32_t"⟩, "a", [.ZCM_CONST 2], ""⟩
        (.obj [("a", .arr [3] [.num 1, .num 2, .num 3])]) =
      concatElems (fun x => bytesOf (emitEncodeSingleMember networkOrder [samplesStruct]
          (emitEncodeOne networkOrder [samplesStruct] 0)
          ⟨⟨"int32_t", "", "int32_t"⟩, "a", [.ZCM_CONST 2], ""⟩ x []))
        ([JVal.num 1, .num 2, .num 3].take (2 : Int).toNat) ∧
    (fieldEncoding networkOrder [samplesStruct] 0 samplesStruct
        ⟨⟨"int32_t", "", "int32_t"⟩, "a", [.ZCM_CONST 2], ""⟩
        (.obj [("a", .arr [1] [.num 1])])).toOption = none :=
  ⟨(extent_decides networkOrder [samplesStruct] 0 samplesStruct
      ⟨⟨"int32_t", "", "int32_t"⟩, "a", [.ZCM_CONST 2], ""⟩
      (.obj [("a", .arr [3] [.num 1, .num 2, .num 3])]) (.ZCM_CONST 2) 2 [3]
      [.num 1, .num 2, .num 3] rfl rfl (by rfl) (by decide)).1 (by decide),
   (extent_decides networkOrder [samplesStruct] 0 samplesStruct
      ⟨⟨"int32_t", "", "int32_t"⟩, "a", [.ZCM_CONST 2], ""⟩
      (.obj [("a", .arr [1] [.num 1])]) (.ZCM_CONST 2) 2 [1]
      [.num 1] rfl rfl (by rfl) (by decide)).2.1 (by decide)⟩

end EmitJulia
